import Mathlib

/-!
Verification development for the breadwallet-style SPV wallet core
(BWTransaction.c, BWWallet.c, BWPeerManager.c).

The C sources are shallowly embedded: machine integers become `Nat` with an
explicit `% 2 ^ 64` (or `% 2 ^ 32`) wherever the C code performs 64-bit
(or 32-bit) arithmetic that may wrap; C arrays become `List`s; the hash-keyed
`BWSet` containers become lists searched by key; external collaborators
(SHA-256, the address codec, the variable-integer codec, BIP-32 derivation)
are universally quantified parameters of the definitions and theorems.
-/

namespace BWSpec

/-! ### Constants from BWTransaction.h -/

def TX_FEE_PER_KB : Nat := 1000
def TX_OUTPUT_SIZE : Nat := 34
def TX_INPUT_SIZE : Nat := 148
def TX_MIN_OUTPUT_AMOUNT : Nat := TX_FEE_PER_KB * 3 * (TX_OUTPUT_SIZE + TX_INPUT_SIZE) / 1000
def TX_MAX_SIZE : Nat := 100000
def TX_UNCONFIRMED : Nat := 2147483647
def TX_MAX_LOCK_HEIGHT : Nat := 500000000
def UINT32_MAX : Nat := 4294967295

/-! ### 64-bit machine arithmetic -/

def U64 : Nat := 2 ^ 64

/-- 64-bit wrapping addition. -/
def add64 (a b : Nat) : Nat := (a + b) % U64

/-- 64-bit wrapping multiplication. -/
def mul64 (a b : Nat) : Nat := (a * b) % U64

/-- 64-bit wrapping subtraction (operands assumed reduced below `2 ^ 64`). -/
def sub64 (a b : Nat) : Nat := (a + (U64 - b % U64)) % U64

theorem add64_eq_of_lt {a b : Nat} (h : a + b < U64) : add64 a b = a + b :=
  Nat.mod_eq_of_lt h

theorem sub64_eq_of_le {a b : Nat} (hba : b ≤ a) (ha : a < U64) : sub64 a b = a - b := by
  unfold sub64
  have hb : b % U64 = b := Nat.mod_eq_of_lt (lt_of_le_of_lt hba ha)
  rw [hb]
  have hbU : b ≤ U64 := le_of_lt (lt_of_le_of_lt hba ha)
  have h1 : a + (U64 - b) = U64 + (a - b) := by omega
  rw [h1]
  have h2 : (U64 + (a - b)) % U64 = (a - b) % U64 := by
    rw [Nat.add_mod_left]
  rw [h2]
  exact Nat.mod_eq_of_lt (by omega)

/-! ### The fee function `_txFee` (BWWallet.c, lines 52-58)

In C:
`standardFee = ((size + 999)/1000)*TX_FEE_PER_KB;`
`fee = (((size*feePerKb/1000) + 99)/100)*100;`
`return (fee > standardFee) ? fee : standardFee;`
all in `uint64_t` arithmetic. -/

def txFee (feePerKb size : Nat) : Nat :=
  let standardFee := mul64 ((size + 999) % U64 / 1000) TX_FEE_PER_KB
  let fee := mul64 ((mul64 size feePerKb / 1000 + 99) % U64 / 100) 100
  if fee > standardFee then fee else standardFee

/-- Ceiling division on naturals, `cdiv a b = ⌈a / b⌉` for `b > 0`. -/
def cdiv (a b : Nat) : Nat := (a + b - 1) / b

/-- The fee formula exactly as claim C4 states it, with ceilings and divisions
taken over exact rationals: `max(ceil(size/1000)*TX_FEE_PER_KB,
ceil(size*feePerKb/1000/100)*100)`; dividing an exact rational by 1000 and
then by 100 is division by 100000. -/
def claimC4Fee (feePerKb size : Nat) : Nat :=
  max (cdiv size 1000 * TX_FEE_PER_KB) (cdiv (size * feePerKb) 100000 * 100)

/-- The fee formula the code actually computes (when no 64-bit overflow
occurs): the inner division `size*feePerKb/1000` is an integer (flooring)
division, and only the division by 100 is a ceiling. -/
def codeFee (feePerKb size : Nat) : Nat :=
  max (cdiv size 1000 * TX_FEE_PER_KB) (cdiv (size * feePerKb / 1000) 100 * 100)

/-- C4 (counterexample): at `feePerKb = 100001`, `size = 999` the fee function
returns 99900 while the formula of the claim, evaluated over exact rationals,
gives 100000; the claim equality is false at this input. -/
theorem txFee_ne_claimC4Fee_at_999 :
    txFee 100001 999 = 99900 ∧ claimC4Fee 100001 999 = 100000 ∧
    txFee 100001 999 ≠ claimC4Fee 100001 999 := by
  refine ⟨by decide, by decide, by decide⟩

/-- C4 (amended): in the absence of 64-bit overflow the fee function returns
`max(ceil(size/1000)*TX_FEE_PER_KB, ceil(floor(size*feePerKb/1000)/100)*100)`;
the inner division by 1000 is a flooring integer division. -/
theorem txFee_eq_codeFee (feePerKb size : Nat)
    (h1 : size + 999 < U64) (h2 : size * feePerKb < U64) :
    txFee feePerKb size = codeFee feePerKb size := by
  unfold txFee codeFee cdiv mul64
  have e1 : (size + 999) % U64 = size + 999 := Nat.mod_eq_of_lt h1
  have e2 : size * feePerKb % U64 = size * feePerKb := Nat.mod_eq_of_lt h2
  rw [e1, e2]
  have h3 : (size + 999) / 1000 * TX_FEE_PER_KB < U64 := by
    have : (size + 999) / 1000 * TX_FEE_PER_KB ≤ size + 999 := by
      calc (size + 999) / 1000 * TX_FEE_PER_KB = (size + 999) / 1000 * 1000 := rfl
        _ ≤ size + 999 := Nat.div_mul_le_self _ _
    omega
  have h4 : size * feePerKb / 1000 + 99 < U64 := by
    have : size * feePerKb / 1000 ≤ size * feePerKb := Nat.div_le_self _ _
    omega
  have h5 : (size * feePerKb / 1000 + 99) / 100 * 100 < U64 := by
    have : (size * feePerKb / 1000 + 99) / 100 * 100 ≤ size * feePerKb / 1000 + 99 :=
      Nat.div_mul_le_self _ _
    omega
  rw [Nat.mod_eq_of_lt h3, Nat.mod_eq_of_lt h4, Nat.mod_eq_of_lt h5]
  have e3 : size + 1000 - 1 = size + 999 := by omega
  have e4 : size * feePerKb / 1000 + 100 - 1 = size * feePerKb / 1000 + 99 := by omega
  rw [e3, e4]
  rcases Nat.lt_or_ge ((size + 999) / 1000 * TX_FEE_PER_KB)
      ((size * feePerKb / 1000 + 99) / 100 * 100) with h | h
  · rw [if_pos h, Nat.max_eq_right (le_of_lt h)]
  · rw [if_neg (not_lt.mpr h), Nat.max_eq_left h]

/-- C4 (witness): the amended fee equation instantiated at
`feePerKb = 100001`, `size = 999`. -/
theorem txFee_eq_codeFee_witness :
    999 + 999 < U64 ∧ 999 * 100001 < U64 ∧ txFee 100001 999 = codeFee 100001 999 :=
  ⟨by decide, by decide, txFee_eq_codeFee 100001 999 (by decide) (by decide)⟩

/-! ### Transaction data model (BWTransaction.h)

Addresses are modelled as `Nat` (0 stands for the empty C string), scripts,
signatures and serialized data as `List Nat` of byte values, hashes as `Nat`.
A `NULL` script or signature pointer is `none`. -/

structure BWTxInput where
  txHash : Nat
  index : Nat
  amount : Nat
  script : Option (List Nat)
  signature : Option (List Nat)
  sequence : Nat
deriving DecidableEq

structure BWTxOutput where
  address : Nat
  amount : Nat
  script : Option (List Nat)
deriving DecidableEq

structure BWTransaction where
  txHash : Nat
  version : Nat
  inputs : List BWTxInput
  outputs : List BWTxOutput
  lockTime : Nat
  blockHeight : Nat
  timestamp : Nat
deriving DecidableEq

/-- `BWTransactionIsSigned`: true when every input carries a signature. -/
def BWTransactionIsSigned (tx : BWTransaction) : Bool :=
  tx.inputs.all (fun i => i.signature.isSome)

/-- Modelled from the spec: `BWVarIntSize` belongs to the external
variable-integer codec (`BWInt.h`, declared out of scope as a collaborator);
this is the byte width of the standard Bitcoin compact-size encoding. -/
def BWVarIntSize (n : Nat) : Nat :=
  if n < 253 then 1 else if n ≤ 65535 then 3 else if n ≤ 4294967295 then 5 else 9

/-- Size contribution of one input in `BWTransactionSize`: actual serialized
size when a signature exists, the `TX_INPUT_SIZE` estimate otherwise. -/
def inputSize (i : BWTxInput) : Nat :=
  match i.signature with
  | some sig => 32 + 4 + BWVarIntSize sig.length + sig.length + 4
  | none => TX_INPUT_SIZE

def outputSize (o : BWTxOutput) : Nat :=
  8 + BWVarIntSize (o.script.getD []).length + (o.script.getD []).length

/-- `BWTransactionSize` (BWTransaction.c, lines 490-512). -/
def BWTransactionSize (tx : BWTransaction) : Nat :=
  8 + BWVarIntSize tx.inputs.length + BWVarIntSize tx.outputs.length +
    (tx.inputs.map inputSize).sum + (tx.outputs.map outputSize).sum

/-! ### Serialization and parsing (BWTransaction.c)

The variable-integer codec is an external collaborator: definitions are
parameterized by a `VarIntCodec`; `dec` receives the remaining bytes and
returns the decoded value together with the number of bytes consumed. -/

structure VarIntCodec where
  enc : Nat → List Nat
  dec : List Nat → Nat × Nat

/-- The contract the external varint codec satisfies on well-formed data:
decoding an encoding (followed by anything) returns the encoded value and
consumes exactly the encoding. -/
def VarIntCodec.Lawful (c : VarIntCodec) : Prop :=
  ∀ n rest, c.dec (c.enc n ++ rest) = (n, (c.enc n).length)

/-- `k` little-endian bytes of `n` (the `UInt32SetLE` / `UInt64SetLE` and
`UInt256Set` helpers of the external `BWInt.h`). -/
def leBytes : Nat → Nat → List Nat
  | 0, _ => []
  | k + 1, n => n % 256 :: leBytes k (n / 256)

theorem leBytes_length (k n : Nat) : (leBytes k n).length = k := by
  induction k generalizing n with
  | zero => rfl
  | succ k ih => simp [leBytes, ih]

/-- Little-endian byte-list decoding (`UInt32GetLE` and friends). -/
def fromLE : List Nat → Nat
  | [] => 0
  | b :: bs => b % 256 + 256 * fromLE bs

/-- A guarded fixed-width read: the C parser reads a default of 0 when the
read would cross the end of the buffer, but always advances the offset. -/
def readLE (buf : List Nat) (off k : Nat) : Nat :=
  if off + k ≤ buf.length then fromLE ((buf.drop off).take k) else 0

/-- Serialization of one input on the `index == SIZE_MAX` (whole transaction)
path of `_BWTransactionData`: a signed input is written with its signature and
a zeroed amount; an unsigned input is written with its script in place of the
signature, followed by the 8-byte amount when the amount is nonzero. -/
def serializeInput (c : VarIntCodec) (i : BWTxInput) : List Nat :=
  leBytes 32 i.txHash ++ leBytes 4 i.index ++
    (match i.signature with
     | some sig => c.enc sig.length ++ sig
     | none =>
        let sc := i.script.getD []
        c.enc sc.length ++ sc ++ (if i.amount ≠ 0 then leBytes 8 i.amount else [])) ++
    leBytes 4 i.sequence

def serializeOutput (c : VarIntCodec) (o : BWTxOutput) : List Nat :=
  leBytes 8 o.amount ++ c.enc (o.script.getD []).length ++ o.script.getD []

/-- `BWTransactionSerialize` = `_BWTransactionData(tx, ..., SIZE_MAX,
SIGHASH_ALL)` (BWTransaction.c, lines 429-435 and 255-322). -/
def BWTransactionSerialize (c : VarIntCodec) (tx : BWTransaction) : List Nat :=
  leBytes 4 tx.version ++ c.enc tx.inputs.length ++
    (tx.inputs.map (serializeInput c)).flatten ++
    c.enc tx.outputs.length ++ (tx.outputs.map (serializeOutput c)).flatten ++
    leBytes 4 tx.lockTime

structure PIn where
  inputs : List BWTxInput
  off : Nat
  signed : Bool
deriving DecidableEq

/-- The input loop of `BWTransactionParse` (lines 381-401): runs while the
offset has not passed the end of the buffer; a chunk that decodes as a
payment script (`apk` positive) is stored as a script together with a trailing
8-byte amount and clears the signed flag, otherwise the chunk is stored as a
signature. `apk` is the external `BWAddressFromScriptPubKey` collaborator. -/
def parseInputs (c : VarIntCodec) (apk : List Nat → Nat) (buf : List Nat) :
    Nat → Nat → Bool → PIn
  | 0, off, sg => ⟨[], off, sg⟩
  | n + 1, off, sg =>
    if off ≤ buf.length then
      let h := readLE buf off 32
      let idx := readLE buf (off + 32) 4
      let d := c.dec (buf.drop (off + 36))
      let sLen := d.1
      let o := off + 36 + d.2
      let seg := (buf.drop o).take sLen
      if o + sLen ≤ buf.length ∧ apk seg > 0 then
        let amt := readLE buf (o + sLen) 8
        let o2 := o + 8 + sLen
        let seq := readLE buf o2 4
        let rest := parseInputs c apk buf n (o2 + 4) false
        ⟨⟨h, idx, amt, some seg, none, seq⟩ :: rest.inputs, rest.off, rest.signed⟩
      else
        let sig : Option (List Nat) := if o + sLen ≤ buf.length then some seg else none
        let o2 := o + sLen
        let seq := readLE buf o2 4
        let rest := parseInputs c apk buf n (o2 + 4) sg
        ⟨⟨h, idx, 0, none, sig, seq⟩ :: rest.inputs, rest.off, rest.signed⟩
    else ⟨[], off, sg⟩

structure POut where
  outputs : List BWTxOutput
  off : Nat
deriving DecidableEq

/-- The output loop of `BWTransactionParse` (lines 407-415). -/
def parseOutputs (c : VarIntCodec) (apk : List Nat → Nat) (buf : List Nat) :
    Nat → Nat → POut
  | 0, off => ⟨[], off⟩
  | n + 1, off =>
    if off ≤ buf.length then
      let amt := readLE buf off 8
      let d := c.dec (buf.drop (off + 8))
      let sLen := d.1
      let o := off + 8 + d.2
      let sc : Option (List Nat) :=
        if o + sLen ≤ buf.length then some ((buf.drop o).take sLen) else none
      let adr := match sc with
        | some s => apk s
        | none => 0
      let rest := parseOutputs c apk buf n (o + sLen)
      ⟨⟨adr, amt, sc⟩ :: rest.outputs, rest.off⟩
    else ⟨[], off⟩

structure ParseRaw where
  version : Nat
  inCount : Nat
  inputs : List BWTxInput
  outCount : Nat
  outputs : List BWTxOutput
  lockTime : Nat
  off : Nat
  signed : Bool

/-- The body of `BWTransactionParse` before its final failure check:
reads the version, the input count, the inputs, the output count, the
outputs and the lock time, tracking the running offset. -/
def BWTransactionParseRaw (c : VarIntCodec) (apk : List Nat → Nat)
    (buf : List Nat) : ParseRaw :=
  let version := readLE buf 0 4
  let d1 := c.dec (buf.drop 4)
  let pin := parseInputs c apk buf d1.1 (4 + d1.2) true
  let d2 := c.dec (buf.drop pin.off)
  let pout := parseOutputs c apk buf d2.1 (pin.off + d2.2)
  let lockTime := readLE buf pout.off 4
  ⟨version, d1.1, pin.inputs, d2.1, pout.outputs, lockTime, pout.off + 4, pin.signed⟩

/-- The decoded input count: the varint decoded right after the 4-byte
version field.  This is the value the failure check of `BWTransactionParse`
tests against 0. -/
def decodedInCount (c : VarIntCodec) (buf : List Nat) : Nat :=
  (c.dec (buf.drop 4)).1

/-- Total bytes consumed by a parse of `buf`. -/
def parseConsumed (c : VarIntCodec) (apk : List Nat → Nat) (buf : List Nat) : Nat :=
  (BWTransactionParseRaw c apk buf).off

/-- `BWTransactionParse` (BWTransaction.c, lines 364-427): returns `none`
when the decoded input count is 0 or the consumed bytes exceed the buffer;
otherwise builds the transaction, hashing the consumed prefix with the
external double-SHA256 collaborator `H` when every input chunk was stored
as a signature. -/
def BWTransactionParse (c : VarIntCodec) (apk : List Nat → Nat)
    (H : List Nat → Nat) (buf : List Nat) : Option BWTransaction :=
  let r := BWTransactionParseRaw c apk buf
  if r.inCount = 0 ∨ r.off > buf.length then none
  else some ⟨if r.signed then H (buf.take r.off) else 0, r.version, r.inputs,
             r.outputs, r.lockTime, TX_UNCONFIRMED, 0⟩

/-- C6: parsing fails exactly when the byte stream is truncated (the consumed
offset passes the end of the buffer) or the decoded input count is 0;
otherwise a transaction is returned. -/
theorem parse_none_iff (c : VarIntCodec) (apk : List Nat → Nat)
    (H : List Nat → Nat) (buf : List Nat) :
    BWTransactionParse c apk H buf = none ↔
      decodedInCount c buf = 0 ∨ parseConsumed c apk buf > buf.length := by
  have hin : (BWTransactionParseRaw c apk buf).inCount = decodedInCount c buf := rfl
  unfold BWTransactionParse parseConsumed
  rw [← hin]
  by_cases h : (BWTransactionParseRaw c apk buf).inCount = 0 ∨
      (BWTransactionParseRaw c apk buf).off > buf.length
  · simp [h]
  · simp [h]

theorem drop_shift {buf A B : List Nat} {off : Nat}
    (h : buf.drop off = A ++ B) : buf.drop (off + A.length) = B := by
  have h1 : buf.drop (off + A.length) = (buf.drop off).drop A.length := by
    rw [List.drop_drop, Nat.add_comm]
  rw [h1, h, List.drop_left]

theorem length_split {buf A B : List Nat} {off : Nat}
    (h : buf.drop off = A ++ B) (hoff : off ≤ buf.length) :
    buf.length = off + A.length + B.length := by
  have h1 : (buf.drop off).length = buf.length - off := List.length_drop off buf
  rw [h] at h1
  simp only [List.length_append] at h1
  omega

/-- Offset bookkeeping for the input loop on exact serialized data: when the
bytes at `off` are the serialization of `inputs` (each carrying a signature
the address decoder does not recognize as a payment script), the loop
consumes exactly those bytes and preserves the signed flag. -/
theorem parseInputs_offset (c : VarIntCodec) (hc : c.Lawful) (apk : List Nat → Nat)
    (buf : List Nat) :
    ∀ (inputs : List BWTxInput) (off : Nat) (sg : Bool) (S : List Nat),
      (∀ i ∈ inputs, ∃ s, i.signature = some s ∧ apk s = 0) →
      buf.drop off = (inputs.map (serializeInput c)).flatten ++ S →
      off ≤ buf.length →
      (parseInputs c apk buf inputs.length off sg).off
          = off + ((inputs.map (serializeInput c)).flatten).length ∧
      (parseInputs c apk buf inputs.length off sg).signed = sg := by
  intro inputs
  induction inputs with
  | nil =>
    intro off sg S _ _ _
    simp [parseInputs]
  | cons i t ih =>
    intro off sg S hsig hD hoff
    obtain ⟨s, hs, hapk⟩ := hsig i (List.mem_cons_self i t)
    have hE : serializeInput c i
        = (leBytes 32 i.txHash ++ leBytes 4 i.index)
          ++ (c.enc s.length ++ (s ++ leBytes 4 i.sequence)) := by
      simp [serializeInput, hs]
    have hD1 : buf.drop off
        = (leBytes 32 i.txHash ++ leBytes 4 i.index)
          ++ (c.enc s.length ++ (s ++ (leBytes 4 i.sequence
              ++ ((t.map (serializeInput c)).flatten ++ S)))) := by
      simp only [List.map_cons, List.flatten_cons] at hD
      rw [hD, hE]
      simp [List.append_assoc]
    have h36 : (leBytes 32 i.txHash ++ leBytes 4 i.index).length = 36 := by
      simp [leBytes_length]
    have hD2 : buf.drop (off + 36)
        = c.enc s.length ++ (s ++ (leBytes 4 i.sequence
            ++ ((t.map (serializeInput c)).flatten ++ S))) := by
      have := drop_shift hD1
      rwa [h36] at this
    have hdec : c.dec (buf.drop (off + 36)) = (s.length, (c.enc s.length).length) := by
      rw [hD2]; exact hc s.length _
    have hD3 : buf.drop (off + 36 + (c.enc s.length).length)
        = s ++ (leBytes 4 i.sequence ++ ((t.map (serializeInput c)).flatten ++ S)) :=
      drop_shift hD2
    have hseg : (buf.drop (off + 36 + (c.enc s.length).length)).take s.length = s := by
      rw [hD3, List.take_left]
    have hlen : buf.length = off + 36
        + ((c.enc s.length).length + (s.length + (4
            + (((t.map (serializeInput c)).flatten).length + S.length)))) := by
      have := length_split hD1 hoff
      simp only [List.length_append, leBytes_length, h36] at this ⊢
      omega
    set o := off + 36 + (c.enc s.length).length with ho
    have hole : o + s.length + 4 ≤ buf.length := by omega
    have hnext : buf.drop (o + s.length + 4)
        = (t.map (serializeInput c)).flatten ++ S := by
      have h4 : buf.drop (o + s.length)
          = leBytes 4 i.sequence ++ ((t.map (serializeInput c)).flatten ++ S) := by
        have := drop_shift hD3
        rwa [] at this
      have := drop_shift h4
      rwa [leBytes_length] at this
    have hrest := ih (o + s.length + 4) sg S
      (fun j hj => hsig j (List.mem_cons_of_mem _ hj)) hnext (by omega)
    have hcond : ¬(o + s.length ≤ buf.length ∧ apk ((buf.drop o).take s.length) > 0) := by
      rw [hseg, hapk]
      simp
    have hElen : (serializeInput c i).length
        = 36 + ((c.enc s.length).length + (s.length + 4)) := by
      rw [hE]
      simp only [List.length_append, leBytes_length]
    have hstep : parseInputs c apk buf (t.length + 1) off sg
        = ⟨⟨readLE buf off 32, readLE buf (off + 32) 4, 0, none,
            if o + s.length ≤ buf.length then some ((buf.drop o).take s.length) else none,
            readLE buf (o + s.length) 4⟩
              :: (parseInputs c apk buf t.length (o + s.length + 4) sg).inputs,
           (parseInputs c apk buf t.length (o + s.length + 4) sg).off,
           (parseInputs c apk buf t.length (o + s.length + 4) sg).signed⟩ := by
      conv_lhs => rw [parseInputs]
      rw [if_pos hoff]
      simp only [hdec]
      rw [if_neg hcond]
    have hlc : (i :: t).length = t.length + 1 := rfl
    rw [hlc, hstep]
    constructor
    · show (parseInputs c apk buf t.length (o + s.length + 4) sg).off
        = off + (((i :: t).map (serializeInput c)).flatten).length
      rw [hrest.1]
      simp only [List.map_cons, List.flatten_cons, List.length_append, hElen]
      omega
    · exact hrest.2

/-- Offset bookkeeping for the output loop on exact serialized data. -/
theorem parseOutputs_offset (c : VarIntCodec) (hc : c.Lawful) (apk : List Nat → Nat)
    (buf : List Nat) :
    ∀ (outputs : List BWTxOutput) (off : Nat) (S : List Nat),
      buf.drop off = (outputs.map (serializeOutput c)).flatten ++ S →
      off ≤ buf.length →
      (parseOutputs c apk buf outputs.length off).off
          = off + ((outputs.map (serializeOutput c)).flatten).length := by
  intro outputs
  induction outputs with
  | nil =>
    intro off S _ _
    simp [parseOutputs]
  | cons u t ih =>
    intro off S hD hoff
    set sc := u.script.getD [] with hsc
    have hE : serializeOutput c u
        = leBytes 8 u.amount ++ (c.enc sc.length ++ sc) := by
      simp [serializeOutput, List.append_assoc]
    have hD1 : buf.drop off
        = leBytes 8 u.amount ++ (c.enc sc.length ++ (sc
            ++ ((t.map (serializeOutput c)).flatten ++ S))) := by
      simp only [List.map_cons, List.flatten_cons] at hD
      rw [hD, hE]
      simp [List.append_assoc]
    have hD2 : buf.drop (off + 8)
        = c.enc sc.length ++ (sc ++ ((t.map (serializeOutput c)).flatten ++ S)) := by
      have := drop_shift hD1
      rwa [leBytes_length] at this
    have hdec : c.dec (buf.drop (off + 8)) = (sc.length, (c.enc sc.length).length) := by
      rw [hD2]; exact hc sc.length _
    have hD3 : buf.drop (off + 8 + (c.enc sc.length).length)
        = sc ++ ((t.map (serializeOutput c)).flatten ++ S) :=
      drop_shift hD2
    have hlen : buf.length = off + 8
        + ((c.enc sc.length).length + (sc.length
            + (((t.map (serializeOutput c)).flatten).length + S.length))) := by
      have := length_split hD1 hoff
      simp only [List.length_append, leBytes_length] at this
      omega
    set o := off + 8 + (c.enc sc.length).length with ho
    have hnext : buf.drop (o + sc.length) = (t.map (serializeOutput c)).flatten ++ S :=
      drop_shift hD3
    have hrest := ih (o + sc.length) S hnext (by omega)
    have hstep : parseOutputs c apk buf (t.length + 1) off
        = ⟨⟨apk ((buf.drop o).take sc.length), readLE buf off 8,
            some ((buf.drop o).take sc.length)⟩
              :: (parseOutputs c apk buf t.length (o + sc.length)).outputs,
           (parseOutputs c apk buf t.length (o + sc.length)).off⟩ := by
      conv_lhs => rw [parseOutputs]
      rw [if_pos hoff]
      simp only [hdec]
      rw [if_pos (by omega : o + sc.length ≤ buf.length)]
    have hlc : (u :: t).length = t.length + 1 := rfl
    rw [hlc, hstep]
    show (parseOutputs c apk buf t.length (o + sc.length)).off
        = off + (((u :: t).map (serializeOutput c)).flatten).length
    rw [hrest]
    have hElen : (serializeOutput c u).length
        = 8 + ((c.enc sc.length).length + sc.length) := by
      rw [hE]
      simp only [List.length_append, leBytes_length]
    simp only [List.map_cons, List.flatten_cons, List.length_append, hElen]
    omega

/-- C5 (amended): for a transaction in which every input carries a signature
that the external address decoder does not mistake for a payment script, at
least one input exists, and whose hash is the double-SHA256 of its signed
serialization (as `BWTransactionSign` establishes), parsing the serialized
bytes succeeds and returns a transaction with the same `txHash`. -/
theorem parse_of_serialize (c : VarIntCodec) (hc : c.Lawful) (apk : List Nat → Nat)
    (H : List Nat → Nat) (tx : BWTransaction)
    (hsig : ∀ i ∈ tx.inputs, ∃ s, i.signature = some s ∧ apk s = 0)
    (hne : tx.inputs ≠ [])
    (hh : tx.txHash = H (BWTransactionSerialize c tx)) :
    ∃ t, BWTransactionParse c apk H (BWTransactionSerialize c tx) = some t ∧
      t.txHash = tx.txHash := by
  set buf := BWTransactionSerialize c tx with hbuf
  have hD0 : buf.drop 0
      = leBytes 4 tx.version ++ (c.enc tx.inputs.length
          ++ ((tx.inputs.map (serializeInput c)).flatten
            ++ (c.enc tx.outputs.length
              ++ ((tx.outputs.map (serializeOutput c)).flatten
                ++ leBytes 4 tx.lockTime)))) := by
    rw [hbuf]
    unfold BWTransactionSerialize
    simp [List.append_assoc]
  have hlen : buf.length = 4 + ((c.enc tx.inputs.length).length
      + (((tx.inputs.map (serializeInput c)).flatten).length
        + ((c.enc tx.outputs.length).length
          + (((tx.outputs.map (serializeOutput c)).flatten).length + 4)))) := by
    have := length_split hD0 (Nat.zero_le _)
    simp only [List.length_append, leBytes_length] at this
    omega
  have h4a : buf.drop 4
      = c.enc tx.inputs.length ++ ((tx.inputs.map (serializeInput c)).flatten
          ++ (c.enc tx.outputs.length
            ++ ((tx.outputs.map (serializeOutput c)).flatten
              ++ leBytes 4 tx.lockTime))) := by
    have := drop_shift hD0
    simpa [leBytes_length] using this
  have hd1 : c.dec (buf.drop 4)
      = (tx.inputs.length, (c.enc tx.inputs.length).length) := by
    rw [h4a]; exact hc _ _
  have h5 : buf.drop (4 + (c.enc tx.inputs.length).length)
      = (tx.inputs.map (serializeInput c)).flatten
        ++ (c.enc tx.outputs.length
          ++ ((tx.outputs.map (serializeOutput c)).flatten
            ++ leBytes 4 tx.lockTime)) :=
    drop_shift h4a
  have hpin := parseInputs_offset c hc apk buf tx.inputs
    (4 + (c.enc tx.inputs.length).length) true _ hsig h5 (by omega)
  have h6 : buf.drop (4 + (c.enc tx.inputs.length).length
      + ((tx.inputs.map (serializeInput c)).flatten).length)
      = c.enc tx.outputs.length
        ++ ((tx.outputs.map (serializeOutput c)).flatten ++ leBytes 4 tx.lockTime) :=
    drop_shift h5
  have hd2 : c.dec (buf.drop (4 + (c.enc tx.inputs.length).length
      + ((tx.inputs.map (serializeInput c)).flatten).length))
      = (tx.outputs.length, (c.enc tx.outputs.length).length) := by
    rw [h6]; exact hc _ _
  have h7 : buf.drop (4 + (c.enc tx.inputs.length).length
      + ((tx.inputs.map (serializeInput c)).flatten).length
      + (c.enc tx.outputs.length).length)
      = (tx.outputs.map (serializeOutput c)).flatten ++ leBytes 4 tx.lockTime :=
    drop_shift h6
  have hpout := parseOutputs_offset c hc apk buf tx.outputs
    (4 + (c.enc tx.inputs.length).length
      + ((tx.inputs.map (serializeInput c)).flatten).length
      + (c.enc tx.outputs.length).length) _ h7 (by omega)
  have hrawIn : (BWTransactionParseRaw c apk buf).inCount = tx.inputs.length := by
    unfold BWTransactionParseRaw
    simp only [hd1]
  have hrawSg : (BWTransactionParseRaw c apk buf).signed = true := by
    unfold BWTransactionParseRaw
    simp only [hd1]
    exact hpin.2
  have hrawOff : (BWTransactionParseRaw c apk buf).off = buf.length := by
    unfold BWTransactionParseRaw
    simp only [hd1]
    rw [hpin.1]
    simp only [hd2]
    rw [hpout]
    omega
  have hc0 : ¬((BWTransactionParseRaw c apk buf).inCount = 0 ∨
      (BWTransactionParseRaw c apk buf).off > buf.length) := by
    rw [hrawIn, hrawOff]
    push_neg
    constructor
    · intro h0
      exact hne (List.length_eq_zero.mp h0)
    · exact le_refl _
  unfold BWTransactionParse
  rw [if_neg hc0]
  refine ⟨_, rfl, ?_⟩
  show (if (BWTransactionParseRaw c apk buf).signed
      then H (buf.take (BWTransactionParseRaw c apk buf).off) else 0) = tx.txHash
  rw [hrawSg, if_pos rfl, hrawOff, List.take_length, hh]

/-- A trivial lawful varint codec instance for concrete evaluations: each
value is its own single-element encoding. -/
def codecK : VarIntCodec := ⟨fun n => [n], fun l => (l.headD 0, 1)⟩

theorem codecK_lawful : codecK.Lawful := fun _ _ => rfl

/-- An address decoder recognizing nothing as a payment script. -/
def apkZero : List Nat → Nat := fun _ => 0

/-- A stand-in double-SHA256 for concrete evaluations. -/
def lenH : List Nat → Nat := fun l => l.length

/-- The empty transaction: no inputs, hence vacuously signed
(`BWTransactionIsSigned` returns 1 on zero inputs); its hash is that of its
serialization, as `BWTransactionSign` computes on a zero-input transaction. -/
def emptyTx : BWTransaction :=
  ⟨10, 1, [], [], 0, TX_UNCONFIRMED, 0⟩

/-- C5 (counterexample): the empty transaction is signed in the sense of
`BWTransactionIsSigned` and carries the hash of its serialization, yet
parsing its serialization yields no transaction at all (the parser rejects
a zero input count), so the round-trip claim fails for it. -/
theorem parse_serialize_empty_fails :
    BWTransactionIsSigned emptyTx = true ∧
    emptyTx.txHash = lenH (BWTransactionSerialize codecK emptyTx) ∧
    BWTransactionParse codecK apkZero lenH (BWTransactionSerialize codecK emptyTx)
      = none := by
  refine ⟨by decide, by decide, by decide⟩

/-- A one-input one-output signed transaction with
`txHash = lenH (serialization)`. -/
def oneTx : BWTransaction :=
  ⟨63, 1, [⟨5, 0, 0, none, some [9], 4294967295⟩], [⟨0, 1000, some [1, 2]⟩],
   0, TX_UNCONFIRMED, 0⟩

/-- C5 (witness): the round-trip theorem applied to `oneTx` with the
concrete codec, address decoder and hash. -/
theorem parse_of_serialize_witness :
    ∃ t, BWTransactionParse codecK apkZero lenH
        (BWTransactionSerialize codecK oneTx) = some t ∧
      t.txHash = oneTx.txHash :=
  parse_of_serialize codecK codecK_lawful apkZero lenH oneTx
    (by
      intro i hi
      simp only [oneTx] at hi
      rw [List.mem_singleton] at hi
      subst hi
      exact ⟨[9], rfl, rfl⟩)
    (by decide)
    (by decide)

/-! ### Block locators (`_BWPeerManagerBlockLocators`, BWPeerManager.c 241-259)

The model works over an ideal main chain: the block at height `h` has hash
`hashAt h`, its predecessor is the block at height `h - 1`, and the genesis
block sits at height 0 (its hash is the first checkpoint of the chain
parameters).  The C loop records the current block hash, bumps the counter,
doubles the step width once ten locators exist, and walks `step`
predecessors; it stops at the genesis block or when the predecessors run
out, and the genesis hash is always appended at the end.  The walk is given
as the list of visited heights; the first fuel argument only bounds the
recursion and is irrelevant as long as it is at least the height. -/

/-- The step-width update of the locator loop: `if (++i >= 10) step *= 2;`
expressed as a function of the old counter and step. -/
def stepNext (i step : Nat) : Nat := if 10 ≤ i + 1 then step * 2 else step

def locHeightsF : Nat → Nat → Nat → Nat → List Nat
  | 0, _, _, _ => []
  | f + 1, h, i, step =>
    if h = 0 then []
    else
      h :: (if 1 ≤ stepNext i step ∧ stepNext i step < h
            then locHeightsF f (h - stepNext i step) (i + 1) (stepNext i step) else [])

/-- Heights visited by the locator loop started at height `h` with `i`
locators already recorded and step width `step`. -/
def locHeights (h i step : Nat) : List Nat := locHeightsF h h i step

/-- `_BWPeerManagerBlockLocators` on a chain with tip height `H`. -/
def blockLocators (hashAt : Nat → Nat) (H : Nat) : List Nat :=
  (locHeights H 0 1).map hashAt ++ [hashAt 0]

theorem locHeightsF_fuel_irrel :
    ∀ (f g h i step : Nat), h ≤ f → h ≤ g →
      locHeightsF f h i step = locHeightsF g h i step := by
  intro f
  induction f with
  | zero =>
    intro g h i step hf _
    interval_cases h
    cases g <;> simp [locHeightsF]
  | succ f ih =>
    intro g h i step hf hg
    by_cases h0 : h = 0
    · subst h0
      cases g <;> simp [locHeightsF]
    · have hg1 : 1 ≤ g := le_trans (Nat.one_le_iff_ne_zero.mpr h0) hg
      obtain ⟨g', rfl⟩ : ∃ g', g = g' + 1 := ⟨g - 1, by omega⟩
      show locHeightsF (f + 1) h i step = locHeightsF (g' + 1) h i step
      unfold locHeightsF
      rw [if_neg h0, if_neg h0]
      by_cases hgd : 1 ≤ stepNext i step ∧ stepNext i step < h
      · rw [if_pos hgd, if_pos hgd, ih g' _ _ _ (by omega) (by omega)]
      · rw [if_neg hgd, if_neg hgd]

/-- The first ten locator entries name the most recent blocks: for `k < 10`
and `k < h`, the `k`-th visited height is `h - k`. -/
theorem locHeightsF_get_recent :
    ∀ (k f h i : Nat), h ≤ f → k < h → i + k ≤ 9 →
      (locHeightsF f h i 1).get? k = some (h - k) := by
  intro k
  induction k with
  | zero =>
    intro f h i hf hk _
    obtain ⟨f', rfl⟩ : ∃ f', f = f' + 1 := ⟨f - 1, by omega⟩
    unfold locHeightsF
    rw [if_neg (by omega : ¬h = 0)]
    simp
  | succ k ih =>
    intro f h i hf hk hi
    obtain ⟨f', rfl⟩ : ∃ f', f = f' + 1 := ⟨f - 1, by omega⟩
    unfold locHeightsF
    rw [if_neg (by omega : ¬h = 0)]
    have hstep : stepNext i 1 = 1 := by
      unfold stepNext
      rw [if_neg (by omega : ¬10 ≤ i + 1)]
    rw [hstep]
    rw [if_pos (by omega : 1 ≤ 1 ∧ 1 < h)]
    show ((h :: locHeightsF f' (h - 1) (i + 1) 1).get? (k + 1)) = some (h - (k + 1))
    rw [List.get?_cons_succ]
    have := ih f' (h - 1) (i + 1) (by omega) (by omega) (by omega)
    rw [this]
    congr 1
    omega

/-- The visited heights, with height 0 of the appended genesis block,
are strictly decreasing. -/
theorem locHeightsF_chain :
    ∀ (f h i step : Nat), h ≤ f →
      List.Chain' (fun a b => b < a) (locHeightsF f h i step ++ [0]) := by
  intro f
  induction f with
  | zero =>
    intro h i step hf
    interval_cases h
    simp [locHeightsF]
  | succ f ih =>
    intro h i step hf
    by_cases h0 : h = 0
    · subst h0
      simp [locHeightsF]
    · unfold locHeightsF
      rw [if_neg h0]
      by_cases hgd : 1 ≤ stepNext i step ∧ stepNext i step < h
      · rw [if_pos hgd]
        rw [List.cons_append]
        refine List.chain'_cons'.mpr ⟨?_, ih (h - stepNext i step) (i + 1) (stepNext i step) (by omega)⟩
        intro y hy
        rw [Option.mem_def] at hy
        obtain ⟨f', rfl⟩ : ∃ f', f = f' + 1 := ⟨f - 1, by omega⟩
        have hne : ¬(h - stepNext i step) = 0 := by omega
        unfold locHeightsF at hy
        rw [if_neg hne] at hy
        simp only [List.cons_append, List.head?_cons] at hy
        injection hy with hv
        omega
      · rw [if_neg hgd]
        simp only [List.cons_append, List.nil_append]
        refine List.chain'_cons.mpr ⟨by omega, ?_⟩
        simp

/-- Length of the doubling phase: once ten locators are recorded, each
further entry doubles the step, so from height `h` with step `s` at most
`n` entries follow when `h ≤ s * (2 ^ (n + 1) - 2)`. -/
theorem locHeightsF_len_dbl :
    ∀ (n s f h i : Nat), h ≤ f → 9 ≤ i → 1 ≤ s → h ≤ s * (2 ^ (n + 1) - 2) →
      (locHeightsF f h i s).length ≤ n := by
  intro n
  induction n with
  | zero =>
    intro s f h i hf _ _ hb
    have h0 : h = 0 := by
      have : s * (2 ^ 1 - 2) = 0 := by norm_num
      omega
    subst h0
    cases f <;> simp [locHeightsF]
  | succ n ih =>
    intro s f h i hf hi hs hb
    by_cases h0 : h = 0
    · subst h0
      cases f <;> simp [locHeightsF]
    · obtain ⟨f', rfl⟩ : ∃ f', f = f' + 1 := ⟨f - 1, by omega⟩
      unfold locHeightsF
      rw [if_neg h0]
      have hstep : stepNext i s = s * 2 := by
        unfold stepNext
        rw [if_pos (by omega : 10 ≤ i + 1)]
      rw [hstep]
      by_cases hgd : 1 ≤ s * 2 ∧ s * 2 < h
      · rw [if_pos hgd]
        have hkey : h - s * 2 ≤ s * 2 * (2 ^ (n + 1) - 2) := by
          have e2 : s * 2 * (2 ^ (n + 1) - 2) = s * (2 * 2 ^ (n + 1)) - s * 4 := by
            rw [Nat.mul_sub]
            congr 1 <;> ring
          have e3 : s * (2 ^ (n + 1 + 1) - 2) = s * (2 * 2 ^ (n + 1)) - s * 2 := by
            rw [pow_succ, Nat.mul_sub]
            congr 1 <;> ring
          rw [e3] at hb
          rw [e2]
          omega
        have hrec := ih (s * 2) f' (h - s * 2) (i + 1) (by omega) (by omega)
          (by omega) hkey
        simp only [List.length_cons]
        omega
      · rw [if_neg hgd]
        simp

/-- Length of the initial unit-step phase: with step 1 and `i + d = 9`, the
walk records at most `d` entries before entering the doubling phase at
counter 9. -/
theorem locHeightsF_len_one :
    ∀ (d f h i : Nat), h ≤ f → i + d = 9 →
      (locHeightsF f h i 1).length ≤ d + (locHeightsF (f - d) (h - d) 9 1).length := by
  intro d
  induction d with
  | zero =>
    intro f h i hf hi
    have : i = 9 := by omega
    subst this
    simp
  | succ d ih =>
    intro f h i hf hi
    by_cases h0 : h = 0
    · subst h0
      cases f <;> simp [locHeightsF]
    · obtain ⟨f', rfl⟩ : ∃ f', f = f' + 1 := ⟨f - 1, by omega⟩
      conv_lhs => unfold locHeightsF
      rw [if_neg h0]
      have hstep : stepNext i 1 = 1 := by
        unfold stepNext
        rw [if_neg (by omega : ¬10 ≤ i + 1)]
      rw [hstep]
      by_cases hgd : 1 ≤ 1 ∧ 1 < h
      · rw [if_pos hgd]
        have hrec := ih f' (h - 1) (i + 1) (by omega) (by omega)
        have hfe : locHeightsF (f' - d) (h - 1 - d) 9 1
            = locHeightsF (f' + 1 - (d + 1)) (h - (d + 1)) 9 1 := by
          have e1 : f' - d = f' + 1 - (d + 1) := by omega
          have e2 : h - 1 - d = h - (d + 1) := by omega
          rw [e1, e2]
        rw [hfe] at hrec
        simp only [List.length_cons]
        omega
      · rw [if_neg hgd]
        simp only [List.length_cons, List.length_nil]
        omega

theorem locHeights_length_bound (H : Nat) :
    (locHeights H 0 1).length ≤ Nat.clog 2 H + 10 := by
  by_cases h0 : H = 0
  · subst h0
    simp [locHeights, locHeightsF]
  · have hc1 : H ≤ 2 ^ Nat.clog 2 H := Nat.le_pow_clog (by norm_num) H
    have h1 := locHeightsF_len_one 9 H H 0 (le_refl H) (by omega)
    have h2 := locHeightsF_len_dbl (Nat.clog 2 H + 1) 1 (H - 9) (H - 9) 9
      (le_refl _) (le_refl 9) (le_refl 1)
      (by
        have hpow : (2 : Nat) ^ (Nat.clog 2 H) ≤ 2 ^ (Nat.clog 2 H + 1 + 1) :=
          Nat.pow_le_pow_right (by norm_num) (by omega)
        have hge : (1 : Nat) ≤ 2 ^ Nat.clog 2 H := Nat.one_le_two_pow
        have : (2 : Nat) ^ (Nat.clog 2 H + 1 + 1) = 4 * 2 ^ Nat.clog 2 H := by
          rw [pow_succ, pow_succ]
          ring
        omega)
    unfold locHeights
    omega

/-- C9: for a chain whose tip has height `H`, the locator list equals the
visited heights mapped through the block hashes followed by the genesis
hash; it ends with the genesis hash, its length is at most
`clog2 H + 10 + 1`, the underlying heights (with genesis height 0) are
strictly decreasing, and the `k`-th entry for `k < min 10 H` is the hash of
the block at height `H - k` (the 10 most recent blocks come first). -/
theorem blockLocators_spec (hashAt : Nat → Nat) (H : Nat) :
    blockLocators hashAt H = (locHeights H 0 1).map hashAt ++ [hashAt 0] ∧
    (blockLocators hashAt H).getLast? = some (hashAt 0) ∧
    (blockLocators hashAt H).length ≤ Nat.clog 2 H + 10 + 1 ∧
    List.Chain' (fun a b => b < a) (locHeights H 0 1 ++ [0]) ∧
    (∀ k, k < 10 → k < H →
      (blockLocators hashAt H).get? k = some (hashAt (H - k))) := by
  refine ⟨rfl, ?_, ?_, ?_, ?_⟩
  · unfold blockLocators
    exact List.getLast?_concat _
  · unfold blockLocators
    rw [List.length_append, List.length_map]
    have := locHeights_length_bound H
    simp only [List.length_cons, List.length_nil]
    omega
  · exact locHeightsF_chain H H 0 1 (le_refl H)
  · intro k hk10 hkH
    have hg := locHeightsF_get_recent k H H 0 (le_refl H) hkH (by omega)
    unfold blockLocators
    have hlt : k < (locHeights H 0 1).length := by
      have := List.get?_eq_some.mp hg
      obtain ⟨hlen, _⟩ := this
      exact hlen
    rw [List.get?_append (by simpa using hlt)]
    rw [List.get?_map]
    unfold locHeights
    rw [hg]
    rfl

/-- C9 (witness): the locator of the chain with tip height 20 and hash
function `id`: its fourth entry is the hash of height 17, it ends with the
genesis hash, and it is short enough. -/
theorem blockLocators_spec_witness :
    (blockLocators id 20).get? 3 = some 17 ∧
    (blockLocators id 20).getLast? = some 0 ∧
    (blockLocators id 20).length ≤ Nat.clog 2 20 + 10 + 1 :=
  ⟨(blockLocators_spec id 20).2.2.2.2 3 (by decide) (by decide),
   (blockLocators_spec id 20).2.1,
   (blockLocators_spec id 20).2.2.1⟩

/-! ### Fee advertisements (`_peerSetFeePerKb`, BWPeerManager.c 1416-1437)

The connected peers are modelled by the list of advertised fee-per-kb values
in array order; the C loop runs `for (i = count; i > 0; i--)`, so the
processing order is the reverse of the array.  `DEFAULT_FEE_PER_KB` and
`MAX_FEE_PER_KB` live in the missing `BWWallet.h` header and stay abstract
parameters. -/

/-- One step of the running `(maxFeePerKb, secondFeePerKb)` update:
`if (fee > max) second = max, max = fee;`. -/
def feeScanStep : Nat × Nat → Nat → Nat × Nat
  | (m, s), f => if f > m then (f, m) else (m, s)

/-- The scan of `_peerSetFeePerKb` over the connected peers, processed from
the last array slot to the first. -/
def feeScan (fees : List Nat) : Nat × Nat :=
  fees.reverse.foldl feeScanStep (0, 0)

/-- `_peerSetFeePerKb`: the wallet feePerKb after a `feefilter` message. -/
def peerSetFeePerKb (fees : List Nat) (walletFee defaultFee maxFee : Nat) : Nat :=
  let cand := mul64 (feeScan fees).2 3 / 2
  if cand > defaultFee ∧ cand ≤ maxFee ∧ cand > walletFee then cand else walletFee

/-- The true second-highest value of a list: the maximum after removing one
occurrence of the maximum (what claim C8 calls the second-highest advertised
fee-per-kb). -/
def listMax (l : List Nat) : Nat := l.foldr max 0

def secondHighest (l : List Nat) : Nat := listMax (l.erase (listMax l))

/-- C8 (counterexample): two connected peers advertising 2000 and 3000
(array order [2000, 3000]), wallet at 1000, default 1000, maximum 1000000.
The second-highest advertised fee is 2000 and 1.5 times it is 3000, which is
above the default, at most the maximum and above the wallet setting, so the
claim demands the wallet be raised to 3000; the code leaves it at 1000
because its reverse scan never records 2000 as the second maximum. -/
theorem peerSetFeePerKb_misses_second :
    secondHighest [2000, 3000] = 2000 ∧
    mul64 (secondHighest [2000, 3000]) 3 / 2 = 3000 ∧
    3000 > 1000 ∧ 3000 ≤ 1000000 ∧ 3000 > 1000 ∧
    peerSetFeePerKb [2000, 3000] 1000 1000 1000000 = 1000 := by
  refine ⟨by decide, by decide, by decide, by decide, by decide, by decide⟩

theorem feeScan_foldl_ascending :
    ∀ (p : List Nat) (m s : Nat), List.Pairwise (fun a b => a < b) p →
      (∀ x ∈ p, m < x) →
      p.foldl feeScanStep (m, s) = ((m :: p).getLastD 0, (m :: p).dropLast.getLastD s) := by
  intro p
  induction p with
  | nil =>
    intro m s _ _
    simp [List.getLastD]
  | cons x rest ih =>
    intro m s hp hm
    have hx : m < x := hm x (List.mem_cons_self x rest)
    have hstep : feeScanStep (m, s) x = (x, m) := by
      simp [feeScanStep, hx]
    show List.foldl feeScanStep (feeScanStep (m, s) x) rest = _
    rw [hstep]
    rw [ih x m (List.pairwise_cons.mp hp).2
      (fun y hy => (List.pairwise_cons.mp hp).1 y hy)]
    simp only [Prod.mk.injEq]
    constructor
    · cases rest <;> simp [List.getLastD]
    · cases rest <;> simp [List.getLastD, List.dropLast]

/-- C8 (amended): the candidate fee is 1.5 times the second register of a
single reverse scan over the connected peers, and the wallet fee is raised
to the candidate exactly when the candidate is above the default rate, at
most the maximum rate and above the current setting.  The scanned second
register equals the true second-highest advertised fee only when the scan
encounters the fees in strictly increasing order (the array holds them in
strictly decreasing order); the second-to-last processed fee, which is then
the second-highest, is `(0 :: fees.reverse).dropLast.getLastD 0`. -/
theorem peerSetFeePerKb_spec (fees : List Nat) (walletFee defaultFee maxFee : Nat)
    (hasc : List.Pairwise (fun a b => a < b) fees.reverse)
    (hpos : ∀ x ∈ fees, 0 < x) :
    (feeScan fees).2 = (0 :: fees.reverse).dropLast.getLastD 0 ∧
    peerSetFeePerKb fees walletFee defaultFee maxFee =
      (if mul64 (feeScan fees).2 3 / 2 > defaultFee ∧
          mul64 (feeScan fees).2 3 / 2 ≤ maxFee ∧
          mul64 (feeScan fees).2 3 / 2 > walletFee
       then mul64 (feeScan fees).2 3 / 2 else walletFee) := by
  constructor
  · unfold feeScan
    rw [feeScan_foldl_ascending fees.reverse 0 0 hasc
      (fun x hx => hpos x (List.mem_reverse.mp hx))]
  · rfl

/-- C8 (witness): with peers advertising [3000, 2000] in array order
(processed in increasing order 2000 then 3000), wallet at 1000, default
1000, maximum 1000000, the scan second register is the true second-highest
2000 and the wallet is raised to 3000. -/
theorem peerSetFeePerKb_spec_witness :
    (feeScan [3000, 2000]).2 = (0 :: [(3000 : Nat), 2000].reverse).dropLast.getLastD 0 ∧
    peerSetFeePerKb [3000, 2000] 1000 1000 1000000 =
      (if mul64 (feeScan [3000, 2000]).2 3 / 2 > 1000 ∧
          mul64 (feeScan [3000, 2000]).2 3 / 2 ≤ 1000000 ∧
          mul64 (feeScan [3000, 2000]).2 3 / 2 > 1000
       then mul64 (feeScan [3000, 2000]).2 3 / 2 else 1000) :=
  peerSetFeePerKb_spec [3000, 2000] 1000 1000 1000000 (by decide)
    (by decide)

/-! ### Wallet data model (BWWallet.c)

The hash-keyed `BWSet` containers become lists searched by key; the
`BWMasterPubKey` together with `BWBIP32PubKey`/`BWKeyAddress` (external
BIP-32 collaborators) become an abstract derivation function
`derive : Bool → Nat → Nat` from (internal-chain flag, chain index) to an
address.  `SEQUENCE_GAP_LIMIT_EXTERNAL`/`INTERNAL` and `DEFAULT_FEE_PER_KB`
live in headers that are not part of src/ and stay abstract parameters.
`time(NULL)` becomes an explicit `now` parameter. -/

instance : Inhabited BWTransaction := ⟨⟨0, 0, [], [], 0, 0, 0⟩⟩

structure BWUTXO where
  hash : Nat
  n : Nat
deriving DecidableEq

structure BWWallet where
  balance : Nat
  totalSent : Nat
  totalReceived : Nat
  feePerKb : Nat
  balanceHist : List Nat
  blockHeight : Nat
  utxos : List BWUTXO
  transactions : List BWTransaction
  internalChain : List Nat
  externalChain : List Nat
  allTx : List BWTransaction
  invalidTx : List Nat
  pendingTx : List Nat
  spentOutputs : List BWUTXO
  usedAddrs : List Nat
  allAddrs : List Nat
deriving DecidableEq

/-- `BWSetGet(wallet->allTx, &hash)`: lookup of a transaction by hash. -/
def findTx (allTx : List BWTransaction) (h : Nat) : Option BWTransaction :=
  allTx.find? (fun t => t.txHash == h)

/-- The outpoint `(txHash, index)` of an input; `BWTxInput` is
layout-compatible with `BWUTXO` in the C sources. -/
def inOutpoint (i : BWTxInput) : BWUTXO := ⟨i.txHash, i.index⟩

/-- `_BWWalletContainsTx` (BWWallet.c, lines 122-138): the transaction pays
to a wallet address or spends an output of a known transaction that pays to
a wallet address. -/
def walletContainsTx (w : BWWallet) (tx : BWTransaction) : Bool :=
  tx.outputs.any (fun o => decide (o.address ∈ w.allAddrs)) ||
  tx.inputs.any (fun i =>
    match findTx w.allTx i.txHash with
    | some t =>
      match t.outputs.get? i.index with
      | some o => decide (o.address ∈ w.allAddrs)
      | none => false
    | none => false)

/-- `_txChainIndex` (BWWallet.c, lines 61-70): the largest chain position
whose address appears among the transaction outputs (`none` = `SIZE_MAX`). -/
def txChainIndex (tx : BWTransaction) (chain : List Nat) : Option Nat :=
  (List.range chain.length).reverse.find? (fun i =>
    tx.outputs.any (fun o => o.address == chain.getD i 0))

/-- `_BWWalletTxIsAscending` (BWWallet.c, lines 72-91), with explicit fuel
(the C function recurses through `allTx` and relies on the transaction
graph being acyclic). -/
def txIsAscending (allTx : List BWTransaction) : Nat → BWTransaction → BWTransaction → Bool
  | 0, _, _ => false
  | f + 1, tx1, tx2 =>
    if tx1.blockHeight > tx2.blockHeight then true
    else if tx1.blockHeight < tx2.blockHeight then false
    else if tx1.inputs.any (fun i => i.txHash == tx2.txHash) then true
    else if tx2.inputs.any (fun i => i.txHash == tx1.txHash) then false
    else tx1.inputs.any (fun i =>
      match findTx allTx i.txHash with
      | some t => txIsAscending allTx f t tx2
      | none => false)

/-- `_BWWalletTxCompare` (BWWallet.c, lines 93-104). -/
def txCompare (w : BWWallet) (tx1 tx2 : BWTransaction) : Int :=
  let fuel := w.allTx.length + 1
  if txIsAscending w.allTx fuel tx1 tx2 then 1
  else if txIsAscending w.allTx fuel tx2 tx1 then -1
  else
    let i := txChainIndex tx1 w.internalChain
    let j := match i with
      | none => txChainIndex tx2 w.externalChain
      | some _ => txChainIndex tx2 w.internalChain
    let i2 := match i, j with
      | none, some _ => txChainIndex tx1 w.externalChain
      | _, _ => i
    match i2, j with
    | some a, some b => if a ≠ b then (if a > b then 1 else -1) else 0
    | _, _ => 0

/-- The scan of `_BWWalletInsertTx` (BWWallet.c, lines 107-119) on the
reversed transaction list: walk from the newest transaction towards the
oldest while the scanned transaction compares greater than the new one. -/
def insertFromEnd (w : BWWallet) (tx : BWTransaction) : List BWTransaction → List BWTransaction
  | [] => [tx]
  | x :: rest =>
    if txCompare w x tx > 0 then x :: insertFromEnd w tx rest else tx :: x :: rest

/-- `_BWWalletInsertTx`: insertion-sort step keeping `transactions` sorted. -/
def walletInsertTx (w : BWWallet) (tx : BWTransaction) : List BWTransaction :=
  (insertFromEnd w tx w.transactions.reverse).reverse

/-! #### `_BWWalletUpdateBalance` (BWWallet.c, lines 140-234) -/

structure UBState where
  balance : Nat
  prevBalance : Nat
  totalSent : Nat
  totalReceived : Nat
  utxos : List BWUTXO
  balanceHist : List Nat
  spentOutputs : List BWUTXO
  invalidTx : List Nat
  pendingTx : List Nat
  usedAddrs : List Nat
deriving DecidableEq

/-- The invalid check of the balance scan (lines 160-172): an unconfirmed
transaction with an input already in the spent-output set or referencing an
already-invalid transaction. -/
def txInvalidStep (st : UBState) (tx : BWTransaction) : Bool :=
  decide (tx.blockHeight = TX_UNCONFIRMED) &&
  tx.inputs.any (fun i =>
    decide (inOutpoint i ∈ st.spentOutputs) || decide (i.txHash ∈ st.invalidTx))

/-- The pending check of the balance scan (lines 179-201). -/
def txPendingStep (st : UBState) (wHeight now : Nat) (tx : BWTransaction) : Bool :=
  decide (tx.blockHeight = TX_UNCONFIRMED) &&
  (decide (BWTransactionSize tx > TX_MAX_SIZE) ||
   tx.outputs.any (fun o => decide (o.amount < TX_MIN_OUTPUT_AMOUNT)) ||
   tx.inputs.any (fun i =>
     decide (i.sequence < UINT32_MAX - 1) ||
     (decide (i.sequence < UINT32_MAX) && decide (tx.lockTime < TX_MAX_LOCK_HEIGHT) &&
      decide (tx.lockTime > wHeight + 1)) ||
     (decide (i.sequence < UINT32_MAX) && decide (tx.lockTime > now)) ||
     decide (i.txHash ∈ st.pendingTx)))

/-- The output loop of the balance scan (lines 207-216): record used
addresses, and add a UTXO and its amount for outputs paying a wallet
address. -/
def addOutputs (allAddrs : List Nat) (th : Nat) :
    List (Nat × BWTxOutput) → UBState → UBState
  | [], st => st
  | (j, o) :: rest, st =>
    let st1 :=
      if o.address ≠ 0 then
        let st2 := { st with usedAddrs := o.address :: st.usedAddrs }
        if o.address ∈ allAddrs then
          { st2 with utxos := st2.utxos ++ [⟨th, j⟩],
                     balance := add64 st2.balance o.amount }
        else st2
      else st
    addOutputs allAddrs th rest st1

/-- `resolvedAmount allTx u`: the amount of the output the UTXO points at,
looked up through `allTx` (the dereference `t->outputs[n].amount` at line
222). -/
def resolvedAmount (allTx : List BWTransaction) (u : BWUTXO) : Nat :=
  match findTx allTx u.hash with
  | some t =>
    match t.outputs.get? u.n with
    | some o => o.amount
    | none => 0
  | none => 0

/-- The spent-UTXO removal pass (lines 218-224), walking the UTXO array
from its end. -/
def removeSpent (allTx : List BWTransaction) (spent : List BWUTXO) :
    List BWUTXO → Nat → List BWUTXO × Nat
  | [], bal => ([], bal)
  | u :: rest, bal =>
    let r := removeSpent allTx spent rest bal
    if u ∈ spent then (r.1, sub64 r.2 (resolvedAmount allTx u))
    else (u :: r.1, r.2)

/-- One iteration of the balance scan over a single transaction. -/
def ubStep (allAddrs : List Nat) (allTx : List BWTransaction) (wHeight now : Nat)
    (st : UBState) (tx : BWTransaction) : UBState :=
  if txInvalidStep st tx then
    { st with invalidTx := tx.txHash :: st.invalidTx,
              balanceHist := st.balanceHist ++ [st.balance] }
  else
    let st1 := { st with spentOutputs := st.spentOutputs ++ tx.inputs.map inOutpoint }
    if txPendingStep st1 wHeight now tx then
      { st1 with pendingTx := tx.txHash :: st1.pendingTx,
                 balanceHist := st1.balanceHist ++ [st1.balance] }
    else
      let st2 := addOutputs allAddrs tx.txHash tx.outputs.enum st1
      let rs := removeSpent allTx st2.spentOutputs st2.utxos st2.balance
      let st3 := { st2 with utxos := rs.1, balance := rs.2 }
      let st4 := { st3 with
        totalReceived :=
          if st3.prevBalance < rs.2
          then add64 st3.totalReceived (rs.2 - st3.prevBalance) else st3.totalReceived,
        totalSent :=
          if rs.2 < st3.prevBalance
          then add64 st3.totalSent (st3.prevBalance - rs.2) else st3.totalSent }
      { st4 with balanceHist := st4.balanceHist ++ [rs.2], prevBalance := rs.2 }

def ubInitial : UBState := ⟨0, 0, 0, 0, [], [], [], [], [], []⟩

/-- `_BWWalletUpdateBalance`: clear the derived sets and scan the sorted
transaction list once, then write the results back into the wallet. -/
def updateBalanceW (w : BWWallet) (now : Nat) : BWWallet :=
  let st := w.transactions.foldl (ubStep w.allAddrs w.allTx w.blockHeight now) ubInitial
  { w with balance := st.balance, totalSent := st.totalSent,
           totalReceived := st.totalReceived, utxos := st.utxos,
           balanceHist := st.balanceHist, spentOutputs := st.spentOutputs,
           invalidTx := st.invalidTx, pendingTx := st.pendingTx,
           usedAddrs := st.usedAddrs }

/-! #### `BWWalletUnusedAddrs` (BWWallet.c, lines 312-368) -/

/-- The number of trailing chain addresses that are not in `usedAddrs`:
the loop `while (i > 0 && ! BWSetContains(usedAddrs, &addrChain[i-1])) i--`
leaves `i = chain.length - trailingUnused`. -/
def trailingUnused (used chain : List Nat) : Nat :=
  (chain.reverse.takeWhile (fun a => decide (a ∉ used))).length

/-- The growth loop: derive addresses at the tail of the chain until
`gapLimit` unused addresses follow the last used one.  Termination relies
on fresh derived addresses (in C, distinct BIP-32 addresses), expressed by
explicit fuel. -/
def growChain (derive : Nat → Nat) (used : List Nat) (gapLimit : Nat) :
    Nat → List Nat → Nat → List Nat × Nat
  | 0, chain, i => (chain, i)
  | fuel + 1, chain, i =>
    if i + gapLimit > chain.length then
      let addr := derive chain.length
      let chain1 := chain ++ [addr]
      let i1 := if addr ∈ used then chain1.length else i
      growChain derive used gapLimit fuel chain1 i1
    else (chain, i)

/-- `BWWalletUnusedAddrs` restricted to its state change (the written-out
addresses are not modelled): extend the requested chain and register the
newly derived addresses in `allAddrs`. -/
def unusedAddrsOp (derive : Bool → Nat → Nat) (w : BWWallet)
    (gapLimit : Nat) (internal : Bool) : BWWallet :=
  let chain := if internal then w.internalChain else w.externalChain
  let i0 := chain.length - trailingUnused w.usedAddrs chain
  let fuel := gapLimit + w.usedAddrs.length + 1
  let newChain := (growChain (derive internal) w.usedAddrs gapLimit fuel chain i0).1
  let newOnes := newChain.drop chain.length
  if internal then
    { w with internalChain := newChain, allAddrs := w.allAddrs ++ newOnes }
  else
    { w with externalChain := newChain, allAddrs := w.allAddrs ++ newOnes }

/-! #### Wallet operations -/

inductive WEvent
  | balanceChanged (balance : Nat)
  | txAdded (txHash : Nat)
  | txUpdated (txHashes : List Nat) (blockHeight timestamp : Nat)
  | txDeleted (txHash : Nat) (notifyUser recommendRescan : Bool)
deriving DecidableEq

/-- `BWWalletRegisterTransaction` (BWWallet.c, lines 735-776): returns the
new wallet state, the return flag, and the fired callbacks in order. -/
def registerTx (derive : Bool → Nat → Nat) (gapExt gapInt : Nat)
    (w : BWWallet) (tx : BWTransaction) (now : Nat) :
    BWWallet × Bool × List WEvent :=
  if ¬BWTransactionIsSigned tx then (w, false, [])
  else if (findTx w.allTx tx.txHash).isSome then (w, true, [])
  else if walletContainsTx w tx then
    let w1 := { w with allTx := tx :: w.allTx }
    let w2 := { w1 with transactions := walletInsertTx w1 tx }
    let w3 := updateBalanceW w2 now
    let w4 := unusedAddrsOp derive (unusedAddrsOp derive w3 gapExt false) gapInt true
    (w4, true, [WEvent.balanceChanged w4.balance, WEvent.txAdded tx.txHash])
  else if tx.blockHeight = TX_UNCONFIRMED then
    ({ w with allTx := tx :: w.allTx }, false, [])
  else (w, false, [])

/-- Remove the last occurrence (the C loop scans from the end) of the
transaction with the given hash. -/
def removeLastHash (l : List BWTransaction) (h : Nat) : List BWTransaction :=
  (removeFirstHash l.reverse).reverse
where
  removeFirstHash : List BWTransaction → List BWTransaction
    | [] => []
    | t :: rest => if t.txHash = h then rest else t :: removeFirstHash rest

/-- The transactions the loop of `BWWalletSetTxUnconfirmedAfter` visits:
the trailing run of the sorted list above the given height (the C loop
walks `i` down from the end while `blockHeight > height`). -/
def unconfAffected (w : BWWallet) (blockHeight : Nat) : List BWTransaction :=
  w.transactions.reverse.takeWhile (fun t => decide (t.blockHeight > blockHeight))

/-- Marking a transaction with one of the affected hashes unconfirmed (in C
the mutation happens through the shared transaction object). -/
def setUnF (hashes : List Nat) (t : BWTransaction) : BWTransaction :=
  if t.txHash ∈ hashes then { t with blockHeight := TX_UNCONFIRMED } else t

/-- `BWWalletSetTxUnconfirmedAfter` (BWWallet.c, lines 1000-1024): mark the
trailing transactions above the given height unconfirmed (the mutation
reaches both the list and the hash set, which share the objects in C). -/
def setTxUnconfirmedAfter (w : BWWallet) (blockHeight now : Nat) :
    BWWallet × List WEvent :=
  let affected := unconfAffected w blockHeight
  let hashes := affected.map (·.txHash)
  let w1 := { w with blockHeight := blockHeight,
                     transactions := w.transactions.map (setUnF hashes),
                     allTx := w.allTx.map (setUnF hashes) }
  if affected.length > 0 then
    let w2 := updateBalanceW w1 now
    (w2, [WEvent.balanceChanged w2.balance,
          WEvent.txUpdated (hashes.reverse) TX_UNCONFIRMED 0])
  else (w1, [])

/-- Updating the height and timestamp of the transaction with the given
hash (in C a single in-place mutation visible from both containers). -/
def substWallet (wa : BWWallet) (h : Nat) (tx1 : BWTransaction) : BWWallet :=
  { wa with allTx := wa.allTx.map (fun t => if t.txHash = h then tx1 else t),
            transactions := wa.transactions.map
              (fun t => if t.txHash = h then tx1 else t) }

/-- Re-sorting one transaction of the sorted list (BWWallet.c, lines
974-976): take it out and insert it again. -/
def reinsertWallet (wa1 : BWWallet) (h : Nat) (tx1 : BWTransaction) : BWWallet :=
  let wrem := { wa1 with transactions := removeLastHash wa1.transactions h }
  { wrem with transactions := walletInsertTx wrem tx1 }

/-- Dropping a transaction from the hash set (BWWallet.c, line 985). -/
def dropTxWallet (wa1 : BWWallet) (h : Nat) : BWWallet :=
  { wa1 with allTx := wa1.allTx.filter (fun t => decide (¬t.txHash = h)) }

/-- The per-hash body of `BWWalletUpdateTransactions` (BWWallet.c, lines
968-989); the accumulator carries the wallet, the recorded hashes in
reverse, and the needs-update flag. -/
def updateTxStep (blockHeight timestamp : Nat)
    (acc : BWWallet × List Nat × Bool) (h : Nat) : BWWallet × List Nat × Bool :=
  let wa := acc.1
  match findTx wa.allTx h with
  | none => acc
  | some tx =>
    if tx.blockHeight = blockHeight ∧ tx.timestamp = timestamp then acc
    else
      let tx1 := { tx with blockHeight := blockHeight, timestamp := timestamp }
      let wa1 := substWallet wa h tx1
      if walletContainsTx wa1 tx1 then
        (if tx1.txHash ∈ wa1.transactions.map (·.txHash)
         then reinsertWallet wa1 h tx1 else wa1,
         h :: acc.2.1,
         acc.2.2 || decide (h ∈ wa.pendingTx) || decide (h ∈ wa.invalidTx))
      else if blockHeight ≠ TX_UNCONFIRMED then
        (dropTxWallet wa1 h, acc.2.1, acc.2.2)
      else (wa1, acc.2.1, acc.2.2)

/-- The mutation phase of `BWWalletUpdateTransactions` before the optional
rebalance. -/
def updateTxScan (w : BWWallet) (txHashes : List Nat)
    (blockHeight timestamp : Nat) : BWWallet × List Nat × Bool :=
  txHashes.foldl (updateTxStep blockHeight timestamp)
    ({ w with blockHeight := max w.blockHeight blockHeight }, [], false)

/-- `BWWalletUpdateTransactions` (BWWallet.c, lines 955-997). -/
def updateTransactionsOp (w : BWWallet) (txHashes : List Nat)
    (blockHeight timestamp now : Nat) : BWWallet × List WEvent :=
  let r := updateTxScan w txHashes blockHeight timestamp
  let wfin := if r.2.2 then updateBalanceW r.1 now else r.1
  (wfin,
   (if r.2.2 then [WEvent.balanceChanged wfin.balance] else []) ++
   (if r.2.1.isEmpty then []
    else [WEvent.txUpdated r.2.1.reverse blockHeight timestamp]))

/-- `BWWalletAmountSentByTx` (BWWallet.c, lines 1045-1064). -/
def amountSentByTx (w : BWWallet) (tx : BWTransaction) : Nat :=
  tx.inputs.foldl (fun acc i =>
    match findTx w.allTx i.txHash with
    | some t =>
      match t.outputs.get? i.index with
      | some o => if o.address ∈ w.allAddrs then add64 acc o.amount else acc
      | none => acc
    | none => acc) 0

/-- `BWWalletTransactionIsValid` (BWWallet.c, lines 862-892), with fuel for
the recursion through input transactions. -/
def transactionIsValid (w : BWWallet) : Nat → BWTransaction → Bool
  | 0, _ => true
  | f + 1, tx =>
    if tx.blockHeight ≠ TX_UNCONFIRMED then true
    else
      (if (findTx w.allTx tx.txHash).isSome then decide (tx.txHash ∉ w.invalidTx)
       else ¬tx.inputs.any (fun i => decide (inOutpoint i ∈ w.spentOutputs))) &&
      tx.inputs.all (fun i =>
        match findTx w.allTx i.txHash with
        | some t => transactionIsValid w f t
        | none => true)

/-- The dependent transactions collected by `BWWalletRemoveTransaction`
(BWWallet.c, lines 793-803): scanning from the end of the list down to the
first transaction below the height of the one being removed. -/
def dependentHashes (w : BWWallet) (tx : BWTransaction) : List Nat :=
  ((w.transactions.reverse.takeWhile
      (fun t => decide (t.blockHeight ≥ tx.blockHeight))).filter
    (fun t => decide (¬t.txHash = tx.txHash) &&
      t.inputs.any (fun i => i.txHash == tx.txHash))).map (·.txHash)

/-- The dependent-free removal branch of `BWWalletRemoveTransaction`
(BWWallet.c, lines 806-841): drop the transaction from both containers,
rebalance, and fire the callbacks. -/
def removeErase (w : BWWallet) (h now : Nat) (tx : BWTransaction) :
    BWWallet × List WEvent :=
  let w1 := { w with allTx := w.allTx.filter (fun t => decide (¬t.txHash = h)),
                     transactions := removeLastHash w.transactions h }
  let w2 := updateBalanceW w1 now
  let sent := amountSentByTx w2 tx
  let valid := transactionIsValid w2 (w2.allTx.length + 1) tx
  let notifyUser := decide (sent > 0) && valid
  let rescan := notifyUser && tx.inputs.all (fun i =>
    match findTx w2.allTx i.txHash with
    | some t => decide (¬t.blockHeight = TX_UNCONFIRMED)
    | none => false)
  (w2, [WEvent.balanceChanged w2.balance, WEvent.txDeleted h notifyUser rescan])

/-- `BWWalletRemoveTransaction` (BWWallet.c, lines 779-846), with fuel for
the recursive removal of dependents. -/
def removeTransaction : Nat → BWWallet → Nat → Nat → BWWallet × List WEvent
  | 0, w, _, _ => (w, [])
  | fuel + 1, w, h, now =>
    match findTx w.allTx h with
    | none => (w, [])
    | some tx =>
      let deps := dependentHashes w tx
      if deps.isEmpty then removeErase w h now tx
      else
        let inner := deps.reverse.foldl
          (fun (acc : BWWallet × List WEvent) dh =>
            let r := removeTransaction fuel acc.1 dh now
            (r.1, acc.2 ++ r.2)) (w, [])
        let last := removeTransaction fuel inner.1 h now
        (last.1, inner.2 ++ last.2)

/-- The per-transaction load step of `BWWalletNew` (BWWallet.c, lines
246-256): keep signed transactions with fresh hashes, and record the
output addresses as used. -/
def walletLoad (wa : BWWallet) (tx : BWTransaction) : BWWallet :=
  if BWTransactionIsSigned tx ∧ ¬(findTx wa.allTx tx.txHash).isSome then
    let wa1 := { wa with allTx := tx :: wa.allTx }
    let wa2 := { wa1 with transactions := walletInsertTx wa1 tx }
    { wa2 with usedAddrs := wa2.usedAddrs ++
        ((tx.outputs.filter (fun o => decide (o.address ≠ 0))).map (·.address)) }
  else wa

/-- The zeroed wallet `BWWalletNew` starts from (BWWallet.c, lines
239-245). -/
def freshWallet (defaultFee : Nat) : BWWallet :=
  { balance := 0, totalSent := 0, totalReceived := 0, feePerKb := defaultFee,
    balanceHist := [], blockHeight := 0, utxos := [], transactions := [],
    internalChain := [], externalChain := [], allTx := [], invalidTx := [],
    pendingTx := [], spentOutputs := [], usedAddrs := [], allAddrs := [] }

/-- `BWWalletNew` (BWWallet.c, lines 237-281). -/
def walletNew (derive : Bool → Nat → Nat) (gapExt gapInt defaultFee : Nat)
    (txs : List BWTransaction) (now : Nat) : Option BWWallet :=
  let w1 := txs.foldl walletLoad (freshWallet defaultFee)
  let w2 := unusedAddrsOp derive (unusedAddrsOp derive w1 gapExt false) gapInt true
  let w3 := updateBalanceW w2 now
  match txs with
  | [] => some w3
  | t0 :: _ => if walletContainsTx w3 t0 then some w3 else none

/-! #### The balance invariant (claim C1)

`WF` states that the sorted transaction list is backed by the `allTx` hash
set (in C the two containers share the transaction objects and `allTx` is
hash-keyed); `Small` bounds the total money supply handled by the wallet so
that the 64-bit arithmetic does not wrap. -/

def WF (w : BWWallet) : Prop :=
  (∀ tx ∈ w.transactions, findTx w.allTx tx.txHash = some tx) ∧
  (w.transactions.map (·.txHash)).Nodup ∧
  (w.allTx.map (·.txHash)).Nodup

def utxoSum (w : BWWallet) : Nat :=
  (w.utxos.map (resolvedAmount w.allTx)).sum

def txTotalList (txs : List BWTransaction) : Nat :=
  (txs.map (fun t => (t.outputs.map (·.amount)).sum)).sum

def Small (w : BWWallet) : Prop := txTotalList w.transactions < U64

/-- The property claim C1 asserts of a wallet state: the balance is the sum
of the amounts of the outputs referenced by the UTXO set, the balance
history has exactly one entry per transaction, and its last entry is the
balance. -/
def BalanceP (w : BWWallet) : Prop :=
  w.balance = utxoSum w ∧
  w.balanceHist.length = w.transactions.length ∧
  (w.balanceHist = [] ∨ w.balanceHist.getLast? = some w.balance)

/-- Every UTXO points at an output of a listed transaction, and that output
pays a (nonempty) wallet address — the condition under which the balance
scan created it. -/
def UtxoProv (w : BWWallet) : Prop :=
  ∀ u ∈ w.utxos, ∃ tx ∈ w.transactions, u.hash = tx.txHash ∧
    ∃ o, tx.outputs.get? u.n = some o ∧ o.address ∈ w.allAddrs ∧ o.address ≠ 0

theorem sum_filter_split (f : BWUTXO → Nat) (p : BWUTXO → Bool) :
    ∀ l : List BWUTXO,
      ((l.filter p).map f).sum + ((l.filter (fun u => !p u)).map f).sum
        = (l.map f).sum := by
  intro l
  induction l with
  | nil => rfl
  | cons u rest ih =>
    by_cases hp : p u
    · simp only [List.filter_cons, hp, Bool.not_true, if_pos, List.map_cons, List.sum_cons]
      simp only [List.filter_cons] at ih ⊢
      rw [if_neg (by simp [hp])]
      omega
    · simp only [List.filter_cons]
      rw [if_neg (by simp [hp]), if_pos (by simp [hp])]
      simp only [List.map_cons, List.sum_cons]
      omega

theorem removeSpent_spec (allTx : List BWTransaction) (spent : List BWUTXO) :
    ∀ (l : List BWUTXO) (bal : Nat),
      ((l.filter (fun u => decide (u ∈ spent))).map (resolvedAmount allTx)).sum ≤ bal →
      bal < U64 →
      removeSpent allTx spent l bal
        = (l.filter (fun u => !decide (u ∈ spent)),
           bal - ((l.filter (fun u => decide (u ∈ spent))).map (resolvedAmount allTx)).sum) := by
  intro l
  induction l with
  | nil =>
    intro bal _ _
    simp [removeSpent]
  | cons u rest ih =>
    intro bal hle hlt
    by_cases hu : u ∈ spent
    · have hcons : (u :: rest).filter (fun v => decide (v ∈ spent))
          = u :: rest.filter (fun v => decide (v ∈ spent)) := by
        simp [List.filter_cons, hu]
      rw [hcons] at hle
      simp only [List.map_cons, List.sum_cons] at hle
      have hrest := ih bal (by omega) hlt
      show (let r := removeSpent allTx spent rest bal
            if u ∈ spent then (r.1, sub64 r.2 (resolvedAmount allTx u))
            else (u :: r.1, r.2)) = _
      rw [hrest]
      rw [if_pos hu]
      have hsub : sub64 (bal - ((rest.filter (fun v => decide (v ∈ spent))).map
            (resolvedAmount allTx)).sum) (resolvedAmount allTx u)
          = bal - ((rest.filter (fun v => decide (v ∈ spent))).map
            (resolvedAmount allTx)).sum - resolvedAmount allTx u := by
        apply sub64_eq_of_le (by omega) (by omega)
      rw [hsub, hcons]
      have hfk : (u :: rest).filter (fun v => !decide (v ∈ spent))
          = rest.filter (fun v => !decide (v ∈ spent)) := by
        simp [List.filter_cons, hu]
      rw [hfk]
      simp only [List.map_cons, List.sum_cons, Prod.mk.injEq, true_and]
      omega
    · have hcons : (u :: rest).filter (fun v => decide (v ∈ spent))
          = rest.filter (fun v => decide (v ∈ spent)) := by
        simp [List.filter_cons, hu]
      rw [hcons] at hle
      have hrest := ih bal hle hlt
      show (let r := removeSpent allTx spent rest bal
            if u ∈ spent then (r.1, sub64 r.2 (resolvedAmount allTx u))
            else (u :: r.1, r.2)) = _
      rw [hrest, if_neg hu, hcons]
      have hfk : (u :: rest).filter (fun v => !decide (v ∈ spent))
          = u :: rest.filter (fun v => !decide (v ∈ spent)) := by
        simp [List.filter_cons, hu]
      rw [hfk]

/-- The UTXOs the output loop adds for one transaction. -/
def addedUtxos (A : List Nat) (th : Nat) (l : List (Nat × BWTxOutput)) : List BWUTXO :=
  (l.filter (fun p => decide (p.2.address ≠ 0) && decide (p.2.address ∈ A))).map
    (fun p => ⟨th, p.1⟩)

def addedAmount (A : List Nat) (l : List (Nat × BWTxOutput)) : Nat :=
  ((l.filter (fun p => decide (p.2.address ≠ 0) && decide (p.2.address ∈ A))).map
    (fun p => p.2.amount)).sum

theorem addOutputs_spec (A : List Nat) (th : Nat) :
    ∀ (l : List (Nat × BWTxOutput)) (st : UBState),
      st.balance + addedAmount A l < U64 →
      (addOutputs A th l st).utxos = st.utxos ++ addedUtxos A th l ∧
      (addOutputs A th l st).balance = st.balance + addedAmount A l ∧
      (addOutputs A th l st).spentOutputs = st.spentOutputs ∧
      (addOutputs A th l st).invalidTx = st.invalidTx ∧
      (addOutputs A th l st).pendingTx = st.pendingTx ∧
      (addOutputs A th l st).balanceHist = st.balanceHist ∧
      (addOutputs A th l st).prevBalance = st.prevBalance := by
  intro l
  induction l with
  | nil =>
    intro st _
    simp [addOutputs, addedUtxos, addedAmount]
  | cons p rest ih =>
    intro st hbound
    obtain ⟨j, o⟩ := p
    by_cases h0 : o.address ≠ 0
    · by_cases hA : o.address ∈ A
      · have hsel : (decide (((j, o) : Nat × BWTxOutput).2.address ≠ 0) &&
            decide (((j, o) : Nat × BWTxOutput).2.address ∈ A)) = true := by
          simp [h0, hA]
        have hAm : addedAmount A ((j, o) :: rest) = o.amount + addedAmount A rest := by
          unfold addedAmount
          rw [List.filter_cons, if_pos hsel]
          simp
        have hUt : addedUtxos A th ((j, o) :: rest)
            = ⟨th, j⟩ :: addedUtxos A th rest := by
          unfold addedUtxos
          rw [List.filter_cons, if_pos hsel]
          simp
        rw [hAm] at hbound
        have hb1 : add64 st.balance o.amount = st.balance + o.amount :=
          add64_eq_of_lt (by omega)
        have hstep : addOutputs A th ((j, o) :: rest) st
            = addOutputs A th rest
                { st with usedAddrs := o.address :: st.usedAddrs,
                          utxos := st.utxos ++ [⟨th, j⟩],
                          balance := add64 st.balance o.amount } := by
          show (let st1 := if o.address ≠ 0 then
                  let st2 := { st with usedAddrs := o.address :: st.usedAddrs }
                  if o.address ∈ A then
                    { st2 with utxos := st2.utxos ++ [⟨th, j⟩],
                               balance := add64 st2.balance o.amount }
                  else st2
                else st
                addOutputs A th rest st1) = _
          rw [if_pos h0, if_pos hA]
        rw [hstep]
        have hrec := ih { st with usedAddrs := o.address :: st.usedAddrs,
                                  utxos := st.utxos ++ [⟨th, j⟩],
                                  balance := add64 st.balance o.amount }
          (by
            show add64 st.balance o.amount + addedAmount A rest < U64
            rw [hb1]
            omega)
        refine ⟨?_, ?_, hrec.2.2.1, hrec.2.2.2.1, hrec.2.2.2.2.1,
                hrec.2.2.2.2.2.1, hrec.2.2.2.2.2.2⟩
        · rw [hrec.1, hUt]
          simp
        · rw [hrec.2.1, hAm]
          show add64 st.balance o.amount + addedAmount A rest = _
          rw [hb1]
          omega
      · have hAm : addedAmount A ((j, o) :: rest) = addedAmount A rest := by
          unfold addedAmount
          rw [List.filter_cons, if_neg (by simp [hA])]
        have hUt : addedUtxos A th ((j, o) :: rest) = addedUtxos A th rest := by
          unfold addedUtxos
          rw [List.filter_cons, if_neg (by simp [hA])]
        have hstep : addOutputs A th ((j, o) :: rest) st
            = addOutputs A th rest { st with usedAddrs := o.address :: st.usedAddrs } := by
          show (let st1 := if o.address ≠ 0 then
                  let st2 := { st with usedAddrs := o.address :: st.usedAddrs }
                  if o.address ∈ A then
                    { st2 with utxos := st2.utxos ++ [⟨th, j⟩],
                               balance := add64 st2.balance o.amount }
                  else st2
                else st
                addOutputs A th rest st1) = _
          rw [if_pos h0, if_neg hA]
        rw [hstep, hAm, hUt]
        exact ih _ (by rw [hAm] at hbound; exact hbound)
    · simp only [ne_eq, not_not] at h0
      have hAm : addedAmount A ((j, o) :: rest) = addedAmount A rest := by
        unfold addedAmount
        rw [List.filter_cons, if_neg (by simp [h0])]
      have hUt : addedUtxos A th ((j, o) :: rest) = addedUtxos A th rest := by
        unfold addedUtxos
        rw [List.filter_cons, if_neg (by simp [h0])]
      have hstep : addOutputs A th ((j, o) :: rest) st
          = addOutputs A th rest st := by
        show (let st1 := if o.address ≠ 0 then
                let st2 := { st with usedAddrs := o.address :: st.usedAddrs }
                if o.address ∈ A then
                  { st2 with utxos := st2.utxos ++ [⟨th, j⟩],
                             balance := add64 st2.balance o.amount }
                else st2
              else st
              addOutputs A th rest st1) = _
        rw [if_neg (by simp [h0])]
      rw [hstep, hAm, hUt]
      exact ih _ (by rw [hAm] at hbound; exact hbound)

/-- All outpoints the balance scan can ever put into the UTXO set: for each
transaction, the outpoints of its outputs that pay a (nonempty) wallet
address. -/
def potentialUtxos (A : List Nat) (txs : List BWTransaction) : List BWUTXO :=
  (txs.map (fun tx => addedUtxos A tx.txHash tx.outputs.enum)).flatten

theorem pot_append (A : List Nat) (txs : List BWTransaction) (tx : BWTransaction) :
    potentialUtxos A (txs ++ [tx])
      = potentialUtxos A txs ++ addedUtxos A tx.txHash tx.outputs.enum := by
  simp [potentialUtxos]

theorem txTotalList_append (X Y : List BWTransaction) :
    txTotalList (X ++ Y) = txTotalList X + txTotalList Y := by
  simp [txTotalList]

/-- Resolving the outpoints of a transaction present in `allTx` recovers the
output amounts. -/
theorem resolved_enum_sum (allTx : List BWTransaction) (tx : BWTransaction)
    (hf : findTx allTx tx.txHash = some tx) :
    ∀ l : List (Nat × BWTxOutput), (∀ p ∈ l, tx.outputs.get? p.1 = some p.2) →
      ((l.map (fun p => (⟨tx.txHash, p.1⟩ : BWUTXO))).map (resolvedAmount allTx)).sum
        = (l.map (fun p => p.2.amount)).sum := by
  intro l
  induction l with
  | nil => intro _; rfl
  | cons p rest ih =>
    intro hl
    have hp := hl p (List.mem_cons_self p rest)
    have hres : resolvedAmount allTx ⟨tx.txHash, p.1⟩ = p.2.amount := by
      unfold resolvedAmount
      rw [hf]
      show (match tx.outputs.get? p.1 with
            | some o => o.amount
            | none => 0) = p.2.amount
      rw [hp]
    simp only [List.map_cons, List.sum_cons, hres]
    rw [ih (fun q hq => hl q (List.mem_cons_of_mem _ hq))]

theorem enum_get_of_mem {outs : List BWTxOutput} {p : Nat × BWTxOutput}
    (hp : p ∈ outs.enum) : outs.get? p.1 = some p.2 := by
  rw [List.get?_eq_getElem?]
  exact List.mem_enum_iff_getElem?.mp hp

theorem sum_resolved_le {allTx : List BWTransaction} {l₁ l₂ : List BWUTXO}
    (h : List.Sublist l₁ l₂) :
    (l₁.map (resolvedAmount allTx)).sum ≤ (l₂.map (resolvedAmount allTx)).sum :=
  List.Sublist.sum_le_sum (h.map _) (fun a _ => Nat.zero_le a)

theorem addedAmount_le (A : List Nat) (l : List (Nat × BWTxOutput)) :
    addedAmount A l ≤ (l.map (fun p => p.2.amount)).sum := by
  unfold addedAmount
  exact List.Sublist.sum_le_sum ((List.filter_sublist l).map _) (fun a _ => Nat.zero_le a)

theorem enum_amount_sum (outs : List BWTxOutput) :
    (outs.enum.map (fun p => p.2.amount)).sum = (outs.map (fun o => o.amount)).sum := by
  have h : outs.enum.map (fun p => p.2.amount)
      = (outs.enum.map Prod.snd).map (fun o => o.amount) := by
    rw [List.map_map]
    rfl
  rw [h, List.enum_map_snd]

/-- The resolved sum over all potential outpoints is bounded by the total
amount of the transactions. -/
theorem pot_sum_le (A : List Nat) (allTx : List BWTransaction) :
    ∀ txs : List BWTransaction,
      (∀ tx ∈ txs, findTx allTx tx.txHash = some tx) →
      ((potentialUtxos A txs).map (resolvedAmount allTx)).sum ≤ txTotalList txs := by
  intro txs
  induction txs with
  | nil => intro _; exact Nat.le_refl 0
  | cons tx rest ih =>
    intro hf
    have h1 : potentialUtxos A (tx :: rest)
        = addedUtxos A tx.txHash tx.outputs.enum ++ potentialUtxos A rest := by
      simp [potentialUtxos]
    rw [h1, List.map_append, List.sum_append]
    have hchunk : (((addedUtxos A tx.txHash tx.outputs.enum).map
        (resolvedAmount allTx)).sum) = addedAmount A tx.outputs.enum := by
      unfold addedUtxos addedAmount
      exact resolved_enum_sum allTx tx (hf tx (List.mem_cons_self tx rest)) _
        (fun p hp => enum_get_of_mem (List.mem_of_mem_filter hp))
    rw [hchunk]
    have h2 := addedAmount_le A tx.outputs.enum
    rw [enum_amount_sum] at h2
    have h3 := ih (fun t ht => hf t (List.mem_cons_of_mem _ ht))
    have h4 : txTotalList (tx :: rest)
        = (tx.outputs.map (fun o => o.amount)).sum + txTotalList rest := by
      simp [txTotalList]
    omega

/-- The balance-scan invariant: along the fold, the UTXO set selects from
the outpoints of the processed prefix, the balance is the resolved sum of
the UTXO set, and the balance history has one entry per processed
transaction, ending at the running balance. -/
theorem ubFold_inv (A : List Nat) (allTx : List BWTransaction) (wh now B : Nat)
    (hB : B < U64) :
    ∀ (txs P : List BWTransaction) (st : UBState),
      (∀ tx ∈ P ++ txs, findTx allTx tx.txHash = some tx) →
      txTotalList (P ++ txs) ≤ B →
      List.Sublist st.utxos (potentialUtxos A P) →
      st.balance = (st.utxos.map (resolvedAmount allTx)).sum →
      st.balanceHist.length = P.length →
      (st.balanceHist = [] ∨ st.balanceHist.getLast? = some st.balance) →
      List.Sublist (txs.foldl (ubStep A allTx wh now) st).utxos
        (potentialUtxos A (P ++ txs)) ∧
      (txs.foldl (ubStep A allTx wh now) st).balance
        = ((txs.foldl (ubStep A allTx wh now) st).utxos.map (resolvedAmount allTx)).sum ∧
      (txs.foldl (ubStep A allTx wh now) st).balanceHist.length = (P ++ txs).length ∧
      ((txs.foldl (ubStep A allTx wh now) st).balanceHist = [] ∨
        (txs.foldl (ubStep A allTx wh now) st).balanceHist.getLast?
          = some (txs.foldl (ubStep A allTx wh now) st).balance) := by
  intro txs
  induction txs with
  | nil =>
    intro P st hfind _ hsub hbal hlen hlast
    simp only [List.foldl_nil, List.append_nil]
    exact ⟨hsub, hbal, hlen, hlast⟩
  | cons tx rest ih =>
    intro P st hfind htot hsub hbal hlen hlast
    have hePc : P ++ tx :: rest = (P ++ [tx]) ++ rest := by simp
    have hftx : findTx allTx tx.txHash = some tx :=
      hfind tx (by simp)
    have hfindP : ∀ t ∈ P, findTx allTx t.txHash = some t :=
      fun t ht => hfind t (by simp [ht])
    -- amount bookkeeping
    have hsumP : (st.utxos.map (resolvedAmount allTx)).sum ≤ txTotalList P := by
      have h1 := @sum_resolved_le allTx _ _ hsub
      have h2 := pot_sum_le A allTx P hfindP
      omega
    have htotsplit : txTotalList P + txTotalList [tx] + txTotalList rest
        = txTotalList (P ++ tx :: rest) := by
      have h1 : P ++ tx :: rest = P ++ [tx] ++ rest := by simp
      rw [h1, txTotalList_append, txTotalList_append]
    have hAmtx : addedAmount A tx.outputs.enum ≤ txTotalList [tx] := by
      have h1 := addedAmount_le A tx.outputs.enum
      rw [enum_amount_sum] at h1
      have h2 : txTotalList [tx] = (tx.outputs.map (fun o => o.amount)).sum := by
        simp [txTotalList]
      omega
    -- the step
    set st' := ubStep A allTx wh now st tx with hst'
    have hmain : List.Sublist st'.utxos (potentialUtxos A (P ++ [tx])) ∧
        st'.balance = (st'.utxos.map (resolvedAmount allTx)).sum ∧
        st'.balanceHist.length = (P ++ [tx]).length ∧
        (st'.balanceHist = [] ∨ st'.balanceHist.getLast? = some st'.balance) := by
      by_cases hinv : txInvalidStep st tx = true
      · have hstep : st' = { st with
            invalidTx := tx.txHash :: st.invalidTx,
            balanceHist := st.balanceHist ++ [st.balance] } := by
          rw [hst']
          unfold ubStep
          rw [if_pos hinv]
        rw [hstep]
        refine ⟨?_, hbal, ?_, Or.inr (by simp [List.getLast?_concat])⟩
        · exact hsub.trans (by rw [pot_append]; exact List.sublist_append_left _ _)
        · simp [hlen]
      · by_cases hpend : txPendingStep
            { st with spentOutputs := st.spentOutputs ++ tx.inputs.map inOutpoint }
            wh now tx = true
        · have hstep : st' = { st with
              spentOutputs := st.spentOutputs ++ tx.inputs.map inOutpoint,
              pendingTx := tx.txHash :: st.pendingTx,
              balanceHist := st.balanceHist ++ [st.balance] } := by
            rw [hst']
            unfold ubStep
            rw [if_neg hinv]
            show (let st1 := { st with
                    spentOutputs := st.spentOutputs ++ tx.inputs.map inOutpoint }
                  if txPendingStep st1 wh now tx then
                    { st1 with pendingTx := tx.txHash :: st1.pendingTx,
                               balanceHist := st1.balanceHist ++ [st1.balance] }
                  else _) = _
            rw [if_pos hpend]
          rw [hstep]
          refine ⟨?_, hbal, ?_, Or.inr (by simp [List.getLast?_concat])⟩
          · exact hsub.trans (by rw [pot_append]; exact List.sublist_append_left _ _)
          · simp [hlen]
        · set stA : UBState :=
            { st with spentOutputs := st.spentOutputs ++ tx.inputs.map inOutpoint }
            with hstA
          set st2 := addOutputs A tx.txHash tx.outputs.enum stA with hst2
          set rs := removeSpent allTx st2.spentOutputs st2.utxos st2.balance with hrs
          have hstep : st' = { st2 with
              utxos := rs.1,
              balance := rs.2,
              totalReceived := if st2.prevBalance < rs.2
                then add64 st2.totalReceived (rs.2 - st2.prevBalance)
                else st2.totalReceived,
              totalSent := if rs.2 < st2.prevBalance
                then add64 st2.totalSent (st2.prevBalance - rs.2) else st2.totalSent,
              balanceHist := st2.balanceHist ++ [rs.2],
              prevBalance := rs.2 } := by
            rw [hst']
            unfold ubStep
            rw [if_neg hinv]
            show (let st1 := stA
                  if txPendingStep st1 wh now tx then
                    { st1 with pendingTx := tx.txHash :: st1.pendingTx,
                               balanceHist := st1.balanceHist ++ [st1.balance] }
                  else
                    let st2 := addOutputs A tx.txHash tx.outputs.enum st1
                    let rs := removeSpent allTx st2.spentOutputs st2.utxos st2.balance
                    let st3 := { st2 with utxos := rs.1, balance := rs.2 }
                    let st4 := { st3 with
                      totalReceived :=
                        if st3.prevBalance < rs.2
                        then add64 st3.totalReceived (rs.2 - st3.prevBalance)
                        else st3.totalReceived,
                      totalSent :=
                        if rs.2 < st3.prevBalance
                        then add64 st3.totalSent (st3.prevBalance - rs.2)
                        else st3.totalSent }
                    { st4 with balanceHist := st4.balanceHist ++ [rs.2],
                               prevBalance := rs.2 }) = _
            rw [if_neg hpend]
          have hb2 : stA.balance + addedAmount A tx.outputs.enum < U64 := by
            show st.balance + addedAmount A tx.outputs.enum < U64
            omega
          have hadd := addOutputs_spec A tx.txHash tx.outputs.enum stA hb2
          have haddsum : (((addedUtxos A tx.txHash tx.outputs.enum).map
              (resolvedAmount allTx)).sum) = addedAmount A tx.outputs.enum := by
            unfold addedUtxos addedAmount
            exact resolved_enum_sum allTx tx hftx _
              (fun p hp => enum_get_of_mem (List.mem_of_mem_filter hp))
          have hbal2 : st2.balance = (st2.utxos.map (resolvedAmount allTx)).sum := by
            rw [hadd.1, hadd.2.1, List.map_append, List.sum_append, haddsum]
            show stA.balance + _ = _
            have : stA.balance = st.balance := rfl
            rw [this, hbal]
          have hbound2 : st2.balance ≤ txTotalList P + txTotalList [tx] := by
            rw [hadd.2.1]
            show stA.balance + _ ≤ _
            have : stA.balance = st.balance := rfl
            rw [this]
            omega
          have hspentle : ((st2.utxos.filter
              (fun u => decide (u ∈ st2.spentOutputs))).map (resolvedAmount allTx)).sum
              ≤ st2.balance := by
            rw [hbal2]
            have := sum_filter_split (resolvedAmount allTx)
              (fun u => decide (u ∈ st2.spentOutputs)) st2.utxos
            omega
          have hrem := removeSpent_spec allTx st2.spentOutputs st2.utxos st2.balance
            hspentle (by omega)
          have hrs1 : rs.1 = st2.utxos.filter (fun u => !decide (u ∈ st2.spentOutputs)) := by
            rw [hrs, hrem]
          have hrs2 : rs.2 = st2.balance - ((st2.utxos.filter
              (fun u => decide (u ∈ st2.spentOutputs))).map (resolvedAmount allTx)).sum := by
            rw [hrs, hrem]
          rw [hstep]
          refine ⟨?_, ?_, ?_, Or.inr (by simp [List.getLast?_concat])⟩
          · show List.Sublist rs.1 (potentialUtxos A (P ++ [tx]))
            rw [hrs1, pot_append]
            have h1 : List.Sublist (st2.utxos.filter
                (fun u => !decide (u ∈ st2.spentOutputs))) st2.utxos :=
              List.filter_sublist _
            have h2 : List.Sublist st2.utxos
                (potentialUtxos A P ++ addedUtxos A tx.txHash tx.outputs.enum) := by
              rw [hadd.1]
              show List.Sublist (stA.utxos ++ _) _
              have hA1 : stA.utxos = st.utxos := rfl
              rw [hA1]
              exact List.Sublist.append hsub (List.Sublist.refl _)
            exact h1.trans h2
          · show rs.2 = (rs.1.map (resolvedAmount allTx)).sum
            rw [hrs1, hrs2, hbal2]
            have := sum_filter_split (resolvedAmount allTx)
              (fun u => decide (u ∈ st2.spentOutputs)) st2.utxos
            omega
          · show (st2.balanceHist ++ [rs.2]).length = (P ++ [tx]).length
            rw [hadd.2.2.2.2.2.1]
            show (stA.balanceHist ++ [rs.2]).length = _
            have : stA.balanceHist = st.balanceHist := rfl
            rw [this]
            simp [hlen]
    have hrec := ih (P ++ [tx]) st'
      (by
        intro t ht
        apply hfind
        rw [hePc]
        exact ht)
      (by rw [← hePc]; exact htot)
      hmain.1 hmain.2.1 hmain.2.2.1 hmain.2.2.2
    rw [hePc]
    show List.Sublist (rest.foldl (ubStep A allTx wh now) st').utxos _ ∧ _
    exact hrec

/-- Unpacking membership in the potential-UTXO list. -/
theorem pot_mem {A : List Nat} {txs : List BWTransaction} {u : BWUTXO}
    (h : u ∈ potentialUtxos A txs) :
    ∃ tx ∈ txs, u.hash = tx.txHash ∧
      ∃ o, tx.outputs.get? u.n = some o ∧ o.address ∈ A ∧ o.address ≠ 0 := by
  unfold potentialUtxos at h
  rw [List.mem_flatten] at h
  obtain ⟨l, hl, hu⟩ := h
  rw [List.mem_map] at hl
  obtain ⟨tx, htx, rfl⟩ := hl
  unfold addedUtxos at hu
  rw [List.mem_map] at hu
  obtain ⟨p, hp, rfl⟩ := hu
  have hpf := List.mem_of_mem_filter hp
  have hsel := List.of_mem_filter hp
  simp only [Bool.and_eq_true, decide_eq_true_eq] at hsel
  exact ⟨tx, htx, rfl, p.2, enum_get_of_mem hpf, hsel.2, hsel.1⟩

/-- `_BWWalletUpdateBalance` establishes the balance property and the UTXO
provenance, leaving the transaction containers and addresses untouched. -/
theorem updateBalanceW_props (w : BWWallet) (now : Nat)
    (hfind : ∀ tx ∈ w.transactions, findTx w.allTx tx.txHash = some tx)
    (hSmall : Small w) :
    BalanceP (updateBalanceW w now) ∧ UtxoProv (updateBalanceW w now) := by
  have hinv := ubFold_inv w.allAddrs w.allTx w.blockHeight now
    (txTotalList w.transactions) hSmall w.transactions [] ubInitial
    (by intro tx htx; exact hfind tx (by simpa using htx))
    (by simp) (by simp [ubInitial, potentialUtxos]) rfl rfl (Or.inl rfl)
  simp only [List.nil_append] at hinv
  obtain ⟨hsub, hbal, hlen, hlast⟩ := hinv
  constructor
  · refine ⟨hbal, hlen, ?_⟩
    exact hlast
  · intro u hu
    have hm := hsub.subset hu
    obtain ⟨tx, htx, h1, o, h2, h3, h4⟩ := pot_mem hm
    exact ⟨tx, htx, h1, o, h2, h3, h4⟩

/-- Field bookkeeping of `_BWWalletUpdateBalance`. -/
theorem updateBalanceW_fields (w : BWWallet) (now : Nat) :
    (updateBalanceW w now).transactions = w.transactions ∧
    (updateBalanceW w now).allTx = w.allTx ∧
    (updateBalanceW w now).allAddrs = w.allAddrs ∧
    (updateBalanceW w now).internalChain = w.internalChain ∧
    (updateBalanceW w now).externalChain = w.externalChain ∧
    (updateBalanceW w now).blockHeight = w.blockHeight :=
  ⟨rfl, rfl, rfl, rfl, rfl, rfl⟩

/-! #### Container bookkeeping for the wallet operations -/

theorem findTx_cons (t : BWTransaction) (l : List BWTransaction) (h : Nat) :
    findTx (t :: l) h = if t.txHash = h then some t else findTx l h := by
  unfold findTx
  by_cases he : t.txHash = h
  · rw [if_pos he, List.find?_cons_of_pos _ (by simp [he])]
  · rw [if_neg he, List.find?_cons_of_neg _ (by simp [he])]

theorem findTx_none_iff (l : List BWTransaction) (h : Nat) :
    findTx l h = none ↔ h ∉ l.map (fun t => t.txHash) := by
  unfold findTx
  rw [List.find?_eq_none]
  constructor
  · intro hf hm
    rw [List.mem_map] at hm
    obtain ⟨t, ht, he⟩ := hm
    exact hf t ht (by simp [he])
  · intro hm t ht hp
    simp only [beq_iff_eq] at hp
    exact hm (List.mem_map.mpr ⟨t, ht, hp⟩)

theorem findTx_isSome_iff (l : List BWTransaction) (h : Nat) :
    (findTx l h).isSome = true ↔ h ∈ l.map (fun t => t.txHash) := by
  rcases he : findTx l h with _ | t
  · simp only [Option.isSome_none, Bool.false_eq_true, false_iff]
    exact (findTx_none_iff l h).mp he
  · simp only [Option.isSome_some, true_iff]
    have hm := List.mem_of_find?_eq_some he
    have hp := List.find?_some he
    simp only [beq_iff_eq] at hp
    exact List.mem_map.mpr ⟨t, hm, hp⟩

theorem findTx_filter_ne (l : List BWTransaction) (x h : Nat) (hne : h ≠ x) :
    findTx (l.filter (fun t => decide (¬t.txHash = x))) h = findTx l h := by
  induction l with
  | nil => rfl
  | cons t rest ih =>
    by_cases hx : t.txHash = x
    · rw [List.filter_cons_of_neg (by simp [hx])]
      rw [ih, findTx_cons, if_neg (by rw [hx]; exact fun he => hne he.symm)]
    · rw [List.filter_cons_of_pos (by simp [hx]), findTx_cons, findTx_cons, ih]

theorem findTx_map_hashPres (f : BWTransaction → BWTransaction)
    (hf : ∀ t, (f t).txHash = t.txHash) (l : List BWTransaction) (h : Nat) :
    findTx (l.map f) h = (findTx l h).map f := by
  induction l with
  | nil => rfl
  | cons t rest ih =>
    rw [List.map_cons, findTx_cons, findTx_cons, hf t]
    by_cases he : t.txHash = h
    · rw [if_pos he, if_pos he]
      rfl
    · rw [if_neg he, if_neg he, ih]

theorem insertFromEnd_perm (w : BWWallet) (tx : BWTransaction) :
    ∀ l : List BWTransaction, List.Perm (insertFromEnd w tx l) (tx :: l) := by
  intro l
  induction l with
  | nil => exact List.Perm.refl _
  | cons x rest ih =>
    show List.Perm
      (if txCompare w x tx > 0 then x :: insertFromEnd w tx rest else tx :: x :: rest) _
    by_cases hc : txCompare w x tx > 0
    · rw [if_pos hc]
      exact (List.Perm.cons x ih).trans (List.Perm.swap tx x rest)
    · rw [if_neg hc]

theorem walletInsertTx_perm (w : BWWallet) (tx : BWTransaction) :
    List.Perm (walletInsertTx w tx) (tx :: w.transactions) := by
  unfold walletInsertTx
  have h1 := insertFromEnd_perm w tx w.transactions.reverse
  have h2 : List.Perm (insertFromEnd w tx w.transactions.reverse).reverse
      (insertFromEnd w tx w.transactions.reverse) := List.reverse_perm _
  exact h2.trans (h1.trans (List.Perm.cons tx (List.reverse_perm _)))

theorem removeFirstHash_cons (x : Nat) (t : BWTransaction) (rest : List BWTransaction) :
    removeLastHash.removeFirstHash x (t :: rest)
      = if t.txHash = x then rest else t :: removeLastHash.removeFirstHash x rest := rfl

theorem removeFirstHash_sublist (x : Nat) :
    ∀ l : List BWTransaction, List.Sublist (removeLastHash.removeFirstHash x l) l := by
  intro l
  induction l with
  | nil => exact List.Sublist.refl _
  | cons t rest ih =>
    rw [removeFirstHash_cons]
    by_cases he : t.txHash = x
    · rw [if_pos he]
      exact List.sublist_cons_self t rest
    · rw [if_neg he]
      exact List.Sublist.cons₂ t ih

theorem removeFirstHash_of_not_mem (x : Nat) :
    ∀ l : List BWTransaction, x ∉ l.map (fun t => t.txHash) →
      removeLastHash.removeFirstHash x l = l := by
  intro l
  induction l with
  | nil => intro _; rfl
  | cons t rest ih =>
    intro hm
    simp only [List.map_cons, List.mem_cons, not_or] at hm
    rw [removeFirstHash_cons, if_neg (fun he => hm.1 he.symm), ih hm.2]

theorem removeFirstHash_perm (x : Nat) :
    ∀ l : List BWTransaction, x ∈ l.map (fun t => t.txHash) →
      ∃ t ∈ l, t.txHash = x ∧
        List.Perm l (t :: removeLastHash.removeFirstHash x l) := by
  intro l
  induction l with
  | nil => intro hm; simp at hm
  | cons t rest ih =>
    intro hm
    by_cases he : t.txHash = x
    · refine ⟨t, List.mem_cons_self t rest, he, ?_⟩
      rw [removeFirstHash_cons, if_pos he]
    · have hm2 : x ∈ rest.map (fun u => u.txHash) := by
        simp only [List.map_cons, List.mem_cons] at hm
        rcases hm with h1 | h1
        · exact absurd h1.symm he
        · exact h1
      obtain ⟨u, hu, hux, hperm⟩ := ih hm2
      refine ⟨u, List.mem_cons_of_mem t hu, hux, ?_⟩
      rw [removeFirstHash_cons, if_neg he]
      exact (List.Perm.cons t hperm).trans (List.Perm.swap u t _)

theorem removeLastHash_sublist (l : List BWTransaction) (x : Nat) :
    List.Sublist (removeLastHash l x) l := by
  unfold removeLastHash
  have h1 := (removeFirstHash_sublist x l.reverse).reverse
  simpa using h1

theorem removeLastHash_of_not_mem (l : List BWTransaction) (x : Nat)
    (hm : x ∉ l.map (fun t => t.txHash)) : removeLastHash l x = l := by
  unfold removeLastHash
  rw [removeFirstHash_of_not_mem x l.reverse (by simpa using hm), List.reverse_reverse]

theorem removeLastHash_perm (l : List BWTransaction) (x : Nat)
    (hm : x ∈ l.map (fun t => t.txHash)) :
    ∃ t ∈ l, t.txHash = x ∧ List.Perm l (t :: removeLastHash l x) := by
  have hm2 : x ∈ l.reverse.map (fun t => t.txHash) := by simpa using hm
  obtain ⟨t, ht, htx, hperm⟩ := removeFirstHash_perm x l.reverse hm2
  refine ⟨t, by simpa using ht, htx, ?_⟩
  have h1 : List.Perm l (t :: removeLastHash.removeFirstHash x l.reverse) :=
    (List.reverse_perm l).symm.trans hperm
  exact h1.trans (List.Perm.cons t (List.reverse_perm _).symm)

theorem removeLastHash_ne (l : List BWTransaction) (x : Nat)
    (hnd : (l.map (fun t => t.txHash)).Nodup) :
    ∀ t ∈ removeLastHash l x, t.txHash ≠ x := by
  by_cases hm : x ∈ l.map (fun t => t.txHash)
  · obtain ⟨t0, ht0, ht0x, hperm⟩ := removeLastHash_perm l x hm
    intro t ht htx
    have hp2 : List.Perm (l.map (fun t => t.txHash))
        (t0.txHash :: (removeLastHash l x).map (fun t => t.txHash)) := by
      simpa using hperm.map (fun t => t.txHash)
    have hnd2 := hp2.nodup_iff.mp hnd
    rw [List.nodup_cons] at hnd2
    have hmem : t0.txHash ∈ (removeLastHash l x).map (fun t => t.txHash) :=
      List.mem_map.mpr ⟨t, ht, by rw [htx, ht0x]⟩
    exact hnd2.1 hmem
  · intro t ht htx
    rw [removeLastHash_of_not_mem l x hm] at ht
    exact hm (List.mem_map.mpr ⟨t, ht, htx⟩)

theorem txTotalList_perm {l1 l2 : List BWTransaction} (h : List.Perm l1 l2) :
    txTotalList l1 = txTotalList l2 := (h.map _).sum_eq

theorem txTotalList_sublist {l1 l2 : List BWTransaction} (h : List.Sublist l1 l2) :
    txTotalList l1 ≤ txTotalList l2 :=
  List.Sublist.sum_le_sum (h.map _) (fun a _ => Nat.zero_le a)

/-- Field bookkeeping of `BWWalletUnusedAddrs`: only the requested chain and
`allAddrs` change, the latter by appending the freshly derived addresses. -/
theorem unusedAddrsOp_fields (derive : Bool → Nat → Nat) (w : BWWallet)
    (g : Nat) (i : Bool) :
    (unusedAddrsOp derive w g i).balance = w.balance ∧
    (unusedAddrsOp derive w g i).balanceHist = w.balanceHist ∧
    (unusedAddrsOp derive w g i).utxos = w.utxos ∧
    (unusedAddrsOp derive w g i).transactions = w.transactions ∧
    (unusedAddrsOp derive w g i).allTx = w.allTx ∧
    ∃ ns, (unusedAddrsOp derive w g i).allAddrs = w.allAddrs ++ ns := by
  cases i
  · exact ⟨rfl, rfl, rfl, rfl, rfl, _, rfl⟩
  · exact ⟨rfl, rfl, rfl, rfl, rfl, _, rfl⟩

/-- `BalanceP` only looks at the balance, history, UTXO set, transaction
count and the transaction index, so it transfers along field equalities. -/
theorem balanceP_transfer {u v : BWWallet}
    (hb : v.balance = u.balance) (hh : v.balanceHist = u.balanceHist)
    (hu : v.utxos = u.utxos) (ha : v.allTx = u.allTx)
    (hl : v.transactions.length = u.transactions.length)
    (hP : BalanceP u) : BalanceP v := by
  obtain ⟨h1, h2, h3⟩ := hP
  unfold utxoSum at h1
  refine ⟨?_, ?_, ?_⟩
  · show v.balance = utxoSum v
    unfold utxoSum
    rw [hb, hu, ha]
    exact h1
  · rw [hh, hl]
    exact h2
  · rw [hh, hb]
    exact h3

/-- Inserting a fresh signed transaction into both containers preserves
well-formedness and, under the money bound, smallness. -/
theorem insert_wallet_props (w : BWWallet) (tx : BWTransaction)
    (hWF : WF w)
    (hnew : (findTx w.allTx tx.txHash).isSome = false)
    (hS2 : txTotalList (tx :: w.transactions) < U64) :
    ∀ w2 : BWWallet, w2.allTx = tx :: w.allTx →
      List.Perm w2.transactions (tx :: w.transactions) →
      WF w2 ∧ Small w2 := by
  intro w2 hall hperm
  have hhash : tx.txHash ∉ w.allTx.map (fun t => t.txHash) := by
    intro hm
    rw [← findTx_isSome_iff] at hm
    rw [hnew] at hm
    exact Bool.false_ne_true hm
  have hhashT : tx.txHash ∉ w.transactions.map (fun t => t.txHash) := by
    intro hm
    rw [List.mem_map] at hm
    obtain ⟨t, ht, he⟩ := hm
    have h1 := hWF.1 t ht
    rw [he] at h1
    have h2 : (findTx w.allTx tx.txHash).isSome = true := by rw [h1]; rfl
    rw [hnew] at h2
    exact Bool.false_ne_true h2
  refine ⟨⟨?_, ?_, ?_⟩, ?_⟩
  · intro t ht
    have hmem := hperm.mem_iff.mp ht
    rw [hall, findTx_cons]
    rcases List.mem_cons.mp hmem with he | hm
    · rw [he, if_pos rfl]
    · rw [if_neg ?_]
      · exact hWF.1 t hm
      · intro he
        exact hhashT (List.mem_map.mpr ⟨t, hm, he.symm⟩)
  · rw [(hperm.map (fun t => t.txHash)).nodup_iff]
    rw [List.map_cons, List.nodup_cons]
    exact ⟨hhashT, hWF.2.1⟩
  · rw [hall, List.map_cons, List.nodup_cons]
    exact ⟨hhash, hWF.2.2⟩
  · show txTotalList w2.transactions < U64
    rw [txTotalList_perm hperm]
    exact hS2

/-- Rebalancing and then topping up both address chains establishes the
balance property and UTXO provenance and preserves the containers. -/
theorem rebalance_addrs_props (derive : Bool → Nat → Nat) (gE gI now : Nat)
    (w2 : BWWallet) (hWF : WF w2) (hS : Small w2) :
    BalanceP (unusedAddrsOp derive
      (unusedAddrsOp derive (updateBalanceW w2 now) gE false) gI true) ∧
    UtxoProv (unusedAddrsOp derive
      (unusedAddrsOp derive (updateBalanceW w2 now) gE false) gI true) ∧
    WF (unusedAddrsOp derive
      (unusedAddrsOp derive (updateBalanceW w2 now) gE false) gI true) ∧
    Small (unusedAddrsOp derive
      (unusedAddrsOp derive (updateBalanceW w2 now) gE false) gI true) ∧
    (unusedAddrsOp derive
      (unusedAddrsOp derive (updateBalanceW w2 now) gE false) gI true).transactions
      = w2.transactions ∧
    (unusedAddrsOp derive
      (unusedAddrsOp derive (updateBalanceW w2 now) gE false) gI true).allTx
      = w2.allTx := by
  obtain ⟨hBP, hProv⟩ := updateBalanceW_props w2 now hWF.1 hS
  obtain ⟨he1, he2, he3, he4, he5, ns1, he6⟩ :=
    unusedAddrsOp_fields derive (updateBalanceW w2 now) gE false
  obtain ⟨hf1, hf2, hf3, hf4, hf5, ns2, hf6⟩ :=
    unusedAddrsOp_fields derive
      (unusedAddrsOp derive (updateBalanceW w2 now) gE false) gI true
  have htr : (unusedAddrsOp derive
      (unusedAddrsOp derive (updateBalanceW w2 now) gE false) gI true).transactions
      = w2.transactions := by
    rw [hf4, he4]
    rfl
  have hat : (unusedAddrsOp derive
      (unusedAddrsOp derive (updateBalanceW w2 now) gE false) gI true).allTx
      = w2.allTx := by
    rw [hf5, he5]
    rfl
  refine ⟨?_, ?_, ?_, ?_, htr, hat⟩
  · refine balanceP_transfer ?_ ?_ ?_ ?_ ?_ hBP
    · rw [hf1, he1]
    · rw [hf2, he2]
    · rw [hf3, he3]
    · rw [hf5, he5]
    · rw [htr]
      rfl
  · intro u hu
    rw [hf3, he3] at hu
    obtain ⟨t, ht, h1, o, h2, h3, h4⟩ := hProv u hu
    refine ⟨t, by rw [htr]; exact ht, h1, o, h2, ?_, h4⟩
    rw [hf6, he6]
    exact List.mem_append_left _ (List.mem_append_left _ h3)
  · refine ⟨?_, ?_, ?_⟩
    · intro t ht
      rw [htr] at ht
      rw [hat]
      exact hWF.1 t ht
    · rw [htr]
      exact hWF.2.1
    · rw [hat]
      exact hWF.2.2
  · show txTotalList _ < U64
    rw [htr]
    exact hS

/-- The wallet-relevant branch of `BWWalletRegisterTransaction`: the
transaction enters both containers, the balance is recomputed, both
callbacks fire in order, and the call returns true; the resulting state
satisfies the balance property. -/
theorem registerTx_contains (derive : Bool → Nat → Nat) (gE gI : Nat)
    (w : BWWallet) (tx : BWTransaction) (now : Nat)
    (hWF : WF w)
    (hsig : BWTransactionIsSigned tx = true)
    (hnew : (findTx w.allTx tx.txHash).isSome = false)
    (hcon : walletContainsTx w tx = true)
    (hS2 : txTotalList (tx :: w.transactions) < U64) :
    (registerTx derive gE gI w tx now).2.1 = true ∧
    (registerTx derive gE gI w tx now).2.2
      = [WEvent.balanceChanged (registerTx derive gE gI w tx now).1.balance,
         WEvent.txAdded tx.txHash] ∧
    (registerTx derive gE gI w tx now).1.allTx = tx :: w.allTx ∧
    List.Perm (registerTx derive gE gI w tx now).1.transactions
      (tx :: w.transactions) ∧
    BalanceP (registerTx derive gE gI w tx now).1 ∧
    UtxoProv (registerTx derive gE gI w tx now).1 ∧
    WF (registerTx derive gE gI w tx now).1 ∧
    Small (registerTx derive gE gI w tx now).1 := by
  have hr : registerTx derive gE gI w tx now
      = (unusedAddrsOp derive (unusedAddrsOp derive (updateBalanceW
           { w with allTx := tx :: w.allTx,
                    transactions := walletInsertTx
                      { w with allTx := tx :: w.allTx } tx } now) gE false) gI true,
         true,
         [WEvent.balanceChanged (unusedAddrsOp derive (unusedAddrsOp derive
            (updateBalanceW
              { w with allTx := tx :: w.allTx,
                       transactions := walletInsertTx
                         { w with allTx := tx :: w.allTx } tx }
              now) gE false) gI true).balance,
          WEvent.txAdded tx.txHash]) := by
    unfold registerTx
    rw [if_neg (by simp [hsig]), if_neg (by simp [hnew]), if_pos (by simp [hcon])]
  have hperm : List.Perm
      ({ w with allTx := tx :: w.allTx,
                transactions := walletInsertTx
                  { w with allTx := tx :: w.allTx } tx } : BWWallet).transactions
      (tx :: w.transactions) := by
    show List.Perm (walletInsertTx { w with allTx := tx :: w.allTx } tx) _
    exact walletInsertTx_perm { w with allTx := tx :: w.allTx } tx
  obtain ⟨hWF2, hS2t⟩ := insert_wallet_props w tx hWF hnew hS2
    { w with allTx := tx :: w.allTx,
             transactions := walletInsertTx { w with allTx := tx :: w.allTx } tx }
    rfl hperm
  obtain ⟨hBP, hProv, hWF4, hS4, htr, hat⟩ := rebalance_addrs_props derive gE gI now
    { w with allTx := tx :: w.allTx,
             transactions := walletInsertTx { w with allTx := tx :: w.allTx } tx }
    hWF2 hS2t
  refine ⟨by rw [hr], by rw [hr], ?_, ?_, ?_, ?_, ?_, ?_⟩
  · rw [hr]
    show (unusedAddrsOp derive (unusedAddrsOp derive (updateBalanceW _ now)
      gE false) gI true).allTx = tx :: w.allTx
    rw [hat]
  · rw [hr]
    show List.Perm (unusedAddrsOp derive (unusedAddrsOp derive (updateBalanceW _ now)
      gE false) gI true).transactions (tx :: w.transactions)
    rw [htr]
    exact hperm
  · rw [hr]
    exact hBP
  · rw [hr]
    exact hProv
  · rw [hr]
    exact hWF4
  · rw [hr]
    exact hS4

/-- The two branches of `BWWalletRegisterTransaction` for a fresh signed
transaction not touching the wallet: an unconfirmed one is retained in
`allTx`, a confirmed one is dropped; both return false and fire nothing. -/
theorem registerTx_other (derive : Bool → Nat → Nat) (gE gI : Nat)
    (w : BWWallet) (tx : BWTransaction) (now : Nat)
    (hsig : BWTransactionIsSigned tx = true)
    (hnew : (findTx w.allTx tx.txHash).isSome = false)
    (hcon : walletContainsTx w tx = false) :
    (tx.blockHeight = TX_UNCONFIRMED →
      registerTx derive gE gI w tx now
        = ({ w with allTx := tx :: w.allTx }, false, [])) ∧
    (¬tx.blockHeight = TX_UNCONFIRMED →
      registerTx derive gE gI w tx now = (w, false, [])) := by
  constructor
  · intro hbh
    unfold registerTx
    rw [if_neg (by simp [hsig]), if_neg (by simp [hnew]), if_neg (by simp [hcon]),
      if_pos hbh]
  · intro hbh
    unfold registerTx
    rw [if_neg (by simp [hsig]), if_neg (by simp [hnew]), if_neg (by simp [hcon]),
      if_neg hbh]

/-- Retaining a foreign transaction in `allTx` does not disturb the balance
property: no wallet UTXO can point at a transaction the hash set does not
already hold. -/
theorem balanceP_consAllTx (w : BWWallet) (tx : BWTransaction)
    (hWF : WF w) (hProv : UtxoProv w) (hP : BalanceP w)
    (hnew : (findTx w.allTx tx.txHash).isSome = false) :
    BalanceP { w with allTx := tx :: w.allTx } := by
  obtain ⟨h1, h2, h3⟩ := hP
  refine ⟨?_, h2, h3⟩
  show w.balance = (w.utxos.map (resolvedAmount (tx :: w.allTx))).sum
  have hpt : ∀ u ∈ w.utxos,
      resolvedAmount (tx :: w.allTx) u = resolvedAmount w.allTx u := by
    intro u hu
    obtain ⟨t0, ht0, hh, _⟩ := hProv u hu
    have hne : tx.txHash ≠ u.hash := by
      intro he
      have hf := hWF.1 t0 ht0
      rw [← hh] at hf
      rw [he, hf] at hnew
      simp at hnew
    unfold resolvedAmount
    rw [findTx_cons, if_neg hne]
  rw [List.map_congr_left hpt]
  exact h1

theorem setUnF_hash (hs : List Nat) (t : BWTransaction) :
    (setUnF hs t).txHash = t.txHash := by
  unfold setUnF
  by_cases hm : t.txHash ∈ hs
  · rw [if_pos hm]
  · rw [if_neg hm]

theorem setUnF_outputs (hs : List Nat) (t : BWTransaction) :
    (setUnF hs t).outputs = t.outputs := by
  unfold setUnF
  by_cases hm : t.txHash ∈ hs
  · rw [if_pos hm]
  · rw [if_neg hm]

/-- Substituting transactions hash-preservingly and output-preservingly in
both containers keeps the wallet well-formed and small. -/
theorem subst_wallet_props (w : BWWallet) (f : BWTransaction → BWTransaction)
    (hfh : ∀ t, (f t).txHash = t.txHash)
    (hWF : WF w) (hS : Small w) :
    ∀ w1 : BWWallet, w1.transactions = w.transactions.map f →
      w1.allTx = w.allTx.map f →
      WF w1 ∧ ((∀ t, ((f t).outputs.map (fun o => o.amount)).sum
        = (t.outputs.map (fun o => o.amount)).sum) → Small w1) := by
  intro w1 htr hall
  have hmh : ∀ l : List BWTransaction,
      (l.map f).map (fun t => t.txHash) = l.map (fun t => t.txHash) := by
    intro l
    rw [List.map_map]
    exact List.map_congr_left (fun t _ => hfh t)
  constructor
  · refine ⟨?_, ?_, ?_⟩
    · intro t ht
      rw [htr, List.mem_map] at ht
      obtain ⟨t0, ht0, rfl⟩ := ht
      rw [hall, findTx_map_hashPres f hfh, hfh t0, hWF.1 t0 ht0]
      rfl
    · rw [htr, hmh]
      exact hWF.2.1
    · rw [hall, hmh]
      exact hWF.2.2
  · intro hfo
    show txTotalList w1.transactions < U64
    rw [htr]
    unfold txTotalList
    rw [List.map_map]
    have : w.transactions.map ((fun t => (t.outputs.map (fun o => o.amount)).sum) ∘ f)
        = w.transactions.map (fun t => (t.outputs.map (fun o => o.amount)).sum) :=
      List.map_congr_left (fun t _ => hfo t)
    rw [this]
    exact hS

/-- `BWWalletSetTxUnconfirmedAfter` preserves the balance property: either
nothing is affected and only the wallet height changes, or the balance is
recomputed from scratch. -/
theorem setUnconfirmed_balanceP (w : BWWallet) (bh now : Nat)
    (hWF : WF w) (hP : BalanceP w) (hS : Small w) :
    BalanceP (setTxUnconfirmedAfter w bh now).1 := by
  have hres : setTxUnconfirmedAfter w bh now
      = (if (unconfAffected w bh).length > 0
         then (updateBalanceW
                 { w with blockHeight := bh,
                          transactions := w.transactions.map
                            (setUnF ((unconfAffected w bh).map (fun t => t.txHash))),
                          allTx := w.allTx.map
                            (setUnF ((unconfAffected w bh).map (fun t => t.txHash))) }
                 now,
               [WEvent.balanceChanged (updateBalanceW
                 { w with blockHeight := bh,
                          transactions := w.transactions.map
                            (setUnF ((unconfAffected w bh).map (fun t => t.txHash))),
                          allTx := w.allTx.map
                            (setUnF ((unconfAffected w bh).map (fun t => t.txHash))) }
                 now).balance,
                WEvent.txUpdated (((unconfAffected w bh).map
                  (fun t => t.txHash)).reverse) TX_UNCONFIRMED 0])
         else ({ w with blockHeight := bh,
                        transactions := w.transactions.map
                          (setUnF ((unconfAffected w bh).map (fun t => t.txHash))),
                        allTx := w.allTx.map
                          (setUnF ((unconfAffected w bh).map (fun t => t.txHash))) },
               [])) := rfl
  rw [hres]
  by_cases hlen : (unconfAffected w bh).length > 0
  · rw [if_pos hlen]
    obtain ⟨hWF1, hS1i⟩ := subst_wallet_props w
      (setUnF ((unconfAffected w bh).map (fun t => t.txHash)))
      (setUnF_hash _) hWF hS
      { w with blockHeight := bh,
               transactions := w.transactions.map
                 (setUnF ((unconfAffected w bh).map (fun t => t.txHash))),
               allTx := w.allTx.map
                 (setUnF ((unconfAffected w bh).map (fun t => t.txHash))) }
      rfl rfl
    have hS1 := hS1i (fun t => by rw [setUnF_outputs])
    exact (updateBalanceW_props _ now hWF1.1 hS1).1
  · rw [if_neg hlen]
    have haff : unconfAffected w bh = [] := by
      rcases he : unconfAffected w bh with _ | ⟨t, rest⟩
      · rfl
      · rw [he] at hlen
        simp at hlen
    have hid : ∀ l : List BWTransaction,
        l.map (setUnF ((unconfAffected w bh).map (fun t => t.txHash))) = l := by
      intro l
      rw [haff]
      have h1 : ∀ t ∈ l, setUnF ([].map (fun t : BWTransaction => t.txHash)) t = id t := by
        intro t _
        unfold setUnF
        rw [if_neg (by simp)]
        rfl
      rw [List.map_congr_left h1, List.map_id]
    refine @balanceP_transfer w _ rfl rfl rfl ?_ ?_ hP
    · exact hid w.allTx
    · show (w.transactions.map _).length = w.transactions.length
      rw [hid w.transactions]

theorem WF_updateBalanceW {w : BWWallet} (hWF : WF w) (now : Nat) :
    WF (updateBalanceW w now) := hWF

theorem Small_updateBalanceW {w : BWWallet} (hS : Small w) (now : Nat) :
    Small (updateBalanceW w now) := hS

/-- `BWWalletRemoveTransaction` keeps the wallet well-formed, small, and
balanced, for any recursion fuel. -/
theorem removeTransaction_good (now : Nat) :
    ∀ (fuel : Nat) (w : BWWallet) (h : Nat),
      WF w → BalanceP w → Small w →
      WF (removeTransaction fuel w h now).1 ∧
      BalanceP (removeTransaction fuel w h now).1 ∧
      Small (removeTransaction fuel w h now).1 := by
  intro fuel
  induction fuel with
  | zero =>
    intro w h hWF hP hS
    exact ⟨hWF, hP, hS⟩
  | succ f ih =>
    intro w h hWF hP hS
    rcases hfind : findTx w.allTx h with _ | tx
    · have hr : removeTransaction (f + 1) w h now = (w, []) := by
        simp only [removeTransaction]
        rw [hfind]
      rw [hr]
      exact ⟨hWF, hP, hS⟩
    · by_cases hdeps : (dependentHashes w tx).isEmpty = true
      · have hr : removeTransaction (f + 1) w h now = removeErase w h now tx := by
          simp only [removeTransaction]
          rw [hfind]
          exact if_pos hdeps
        rw [hr]
        have hWF1 : WF { w with
            allTx := w.allTx.filter (fun t => decide (¬t.txHash = h)),
            transactions := removeLastHash w.transactions h } := by
          refine ⟨?_, ?_, ?_⟩
          · intro t ht
            show findTx (w.allTx.filter _) t.txHash = some t
            have htm : t ∈ w.transactions := (removeLastHash_sublist _ _).subset ht
            have hne := removeLastHash_ne w.transactions h hWF.2.1 t ht
            rw [findTx_filter_ne w.allTx h t.txHash hne]
            exact hWF.1 t htm
          · show ((removeLastHash w.transactions h).map _).Nodup
            exact hWF.2.1.sublist ((removeLastHash_sublist _ _).map _)
          · show ((w.allTx.filter _).map _).Nodup
            exact hWF.2.2.sublist ((List.filter_sublist _).map _)
        have hS1 : Small { w with
            allTx := w.allTx.filter (fun t => decide (¬t.txHash = h)),
            transactions := removeLastHash w.transactions h } := by
          show txTotalList (removeLastHash w.transactions h) < U64
          have h1 := txTotalList_sublist (removeLastHash_sublist w.transactions h)
          have h2 : txTotalList w.transactions < U64 := hS
          omega
        obtain ⟨hBP2, _⟩ := updateBalanceW_props _ now hWF1.1 hS1
        exact ⟨WF_updateBalanceW hWF1 now, hBP2, Small_updateBalanceW hS1 now⟩
      · have hr : removeTransaction (f + 1) w h now
            = ((removeTransaction f ((dependentHashes w tx).reverse.foldl
                  (fun (acc : BWWallet × List WEvent) dh =>
                    ((removeTransaction f acc.1 dh now).1,
                     acc.2 ++ (removeTransaction f acc.1 dh now).2)) (w, [])).1
                h now).1,
               ((dependentHashes w tx).reverse.foldl
                  (fun (acc : BWWallet × List WEvent) dh =>
                    ((removeTransaction f acc.1 dh now).1,
                     acc.2 ++ (removeTransaction f acc.1 dh now).2)) (w, [])).2
               ++ (removeTransaction f ((dependentHashes w tx).reverse.foldl
                  (fun (acc : BWWallet × List WEvent) dh =>
                    ((removeTransaction f acc.1 dh now).1,
                     acc.2 ++ (removeTransaction f acc.1 dh now).2)) (w, [])).1
                h now).2) := by
          simp only [removeTransaction]
          rw [hfind]
          exact if_neg hdeps
        rw [hr]
        have hfold : ∀ (ds : List Nat) (acc : BWWallet × List WEvent),
            WF acc.1 → BalanceP acc.1 → Small acc.1 →
            WF ((ds.foldl (fun (acc : BWWallet × List WEvent) dh =>
                  ((removeTransaction f acc.1 dh now).1,
                   acc.2 ++ (removeTransaction f acc.1 dh now).2)) acc).1) ∧
            BalanceP ((ds.foldl (fun (acc : BWWallet × List WEvent) dh =>
                  ((removeTransaction f acc.1 dh now).1,
                   acc.2 ++ (removeTransaction f acc.1 dh now).2)) acc).1) ∧
            Small ((ds.foldl (fun (acc : BWWallet × List WEvent) dh =>
                  ((removeTransaction f acc.1 dh now).1,
                   acc.2 ++ (removeTransaction f acc.1 dh now).2)) acc).1) := by
          intro ds
          induction ds with
          | nil =>
            intro acc h1 h2 h3
            exact ⟨h1, h2, h3⟩
          | cons d rest ihd =>
            intro acc h1 h2 h3
            rw [List.foldl_cons]
            obtain ⟨g1, g2, g3⟩ := ih acc.1 d h1 h2 h3
            exact ihd _ g1 g2 g3
        obtain ⟨g1, g2, g3⟩ := hfold (dependentHashes w tx).reverse (w, []) hWF hP hS
        exact ih _ h g1 g2 g3

theorem findTx_hash {l : List BWTransaction} {h : Nat} {t : BWTransaction}
    (hf : findTx l h = some t) : t.txHash = h := by
  have := List.find?_some hf
  simpa using this

theorem findTx_filter_self (l : List BWTransaction) (x : Nat) :
    findTx (l.filter (fun t => decide (¬t.txHash = x))) x = none := by
  unfold findTx
  rw [List.find?_eq_none]
  intro t ht
  have := List.of_mem_filter ht
  simp only [decide_eq_true_eq] at this
  simp [this]

/-- The invariant the mutation phase of `BWWalletUpdateTransactions`
maintains relative to the starting wallet `w`: the balance data is
untouched, the transaction count and total are preserved, every wallet
UTXO still resolves to the same amount, resolves to an output paying a
wallet address, and the two containers agree on the outputs of every
listed transaction. -/
structure ScanInv (w wa : BWWallet) : Prop where
  bal : wa.balance = w.balance
  hist : wa.balanceHist = w.balanceHist
  utx : wa.utxos = w.utxos
  addrs : wa.allAddrs = w.allAddrs
  len : wa.transactions.length = w.transactions.length
  tot : txTotalList wa.transactions = txTotalList w.transactions
  res : ∀ u ∈ wa.utxos, resolvedAmount wa.allTx u = resolvedAmount w.allTx u
  ref : ∀ u ∈ wa.utxos, ∀ t2, findTx wa.allTx u.hash = some t2 →
    ∃ o, t2.outputs.get? u.n = some o ∧ o.address ∈ wa.allAddrs ∧ o.address ≠ 0
  align : ∀ t ∈ wa.transactions, ∀ t2, findTx wa.allTx t.txHash = some t2 →
    t2.outputs = t.outputs

theorem scanInv_subst (w wa : BWWallet) (h : Nat) (tx tx1 : BWTransaction)
    (hfind : findTx wa.allTx h = some tx)
    (htx1h : tx1.txHash = tx.txHash) (htx1o : tx1.outputs = tx.outputs)
    (hI : ScanInv w wa) : ScanInv w (substWallet wa h tx1) := by
  have htxh : tx.txHash = h := findTx_hash hfind
  have hFh : ∀ t : BWTransaction,
      ((fun t => if t.txHash = h then tx1 else t) t).txHash = t.txHash := by
    intro t
    by_cases ht : t.txHash = h
    · show (if t.txHash = h then tx1 else t).txHash = t.txHash
      rw [if_pos ht, htx1h, htxh, ht]
    · show (if t.txHash = h then tx1 else t).txHash = t.txHash
      rw [if_neg ht]
  have hfmap : ∀ k, findTx (wa.allTx.map (fun t => if t.txHash = h then tx1 else t)) k
      = (findTx wa.allTx k).map (fun t => if t.txHash = h then tx1 else t) :=
    fun k => findTx_map_hashPres _ hFh wa.allTx k
  have hFfound : ∀ k t2, findTx wa.allTx k = some t2 →
      ((fun t => if t.txHash = h then tx1 else t) t2).outputs = t2.outputs := by
    intro k t2 hf2
    by_cases ht2 : t2.txHash = h
    · have hk : k = h := by rw [← findTx_hash hf2, ht2]
      rw [hk] at hf2
      rw [hfind] at hf2
      have ht2e : tx = t2 := Option.some.inj hf2
      show (if t2.txHash = h then tx1 else t2).outputs = t2.outputs
      rw [if_pos ht2, htx1o, ht2e]
    · show (if t2.txHash = h then tx1 else t2).outputs = t2.outputs
      rw [if_neg ht2]
  have hFmem : ∀ t ∈ wa.transactions,
      ((fun t => if t.txHash = h then tx1 else t) t).outputs = t.outputs := by
    intro t htm
    by_cases ht : t.txHash = h
    · show (if t.txHash = h then tx1 else t).outputs = t.outputs
      rw [if_pos ht, htx1o]
      exact hI.align t htm tx (by rw [ht]; exact hfind)
    · show (if t.txHash = h then tx1 else t).outputs = t.outputs
      rw [if_neg ht]
  refine ⟨hI.bal, hI.hist, hI.utx, hI.addrs, ?_, ?_, ?_, ?_, ?_⟩
  · show (wa.transactions.map _).length = w.transactions.length
    rw [List.length_map]
    exact hI.len
  · show txTotalList (wa.transactions.map _) = txTotalList w.transactions
    unfold txTotalList
    rw [List.map_map]
    have he : wa.transactions.map ((fun t => (t.outputs.map (fun o => o.amount)).sum)
          ∘ (fun t => if t.txHash = h then tx1 else t))
        = wa.transactions.map (fun t => (t.outputs.map (fun o => o.amount)).sum) := by
      refine List.map_congr_left ?_
      intro t htm
      show (((fun t => if t.txHash = h then tx1 else t) t).outputs.map
        (fun o => o.amount)).sum = _
      rw [hFmem t htm]
    rw [he]
    exact hI.tot
  · intro u hu
    show resolvedAmount (wa.allTx.map _) u = resolvedAmount w.allTx u
    have hstab : resolvedAmount
        (wa.allTx.map (fun t => if t.txHash = h then tx1 else t)) u
        = resolvedAmount wa.allTx u := by
      unfold resolvedAmount
      rw [hfmap u.hash]
      rcases hf2 : findTx wa.allTx u.hash with _ | t2
      · rfl
      · show (match ((fun t => if t.txHash = h then tx1 else t) t2).outputs.get? u.n with
              | some o => o.amount
              | none => 0) = _
        rw [hFfound u.hash t2 hf2]
    rw [hstab]
    exact hI.res u hu
  · intro u hu t2p hfp
    have hu2 : u ∈ wa.utxos := hu
    rw [show (substWallet wa h tx1).allTx
        = wa.allTx.map (fun t => if t.txHash = h then tx1 else t) from rfl] at hfp
    rw [hfmap u.hash] at hfp
    rcases hf2 : findTx wa.allTx u.hash with _ | t2
    · rw [hf2] at hfp
      exact absurd hfp (by simp)
    · rw [hf2] at hfp
      have ht2p : t2p = (fun t => if t.txHash = h then tx1 else t) t2 :=
        (Option.some.inj hfp).symm
      obtain ⟨o, ho, ha, hz⟩ := hI.ref u hu2 t2 hf2
      refine ⟨o, ?_, ha, hz⟩
      rw [ht2p]
      show (((fun t => if t.txHash = h then tx1 else t) t2).outputs).get? u.n = some o
      rw [hFfound u.hash t2 hf2]
      exact ho
  · intro tp htp t2p hfp
    show t2p.outputs = tp.outputs
    rw [show (substWallet wa h tx1).transactions
        = wa.transactions.map (fun t => if t.txHash = h then tx1 else t) from rfl] at htp
    rw [List.mem_map] at htp
    obtain ⟨t, htm, rfl⟩ := htp
    rw [show (substWallet wa h tx1).allTx
        = wa.allTx.map (fun t => if t.txHash = h then tx1 else t) from rfl,
      hfmap, hFh t] at hfp
    rcases hf2 : findTx wa.allTx t.txHash with _ | t2
    · rw [hf2] at hfp
      exact absurd hfp (by simp)
    · rw [hf2] at hfp
      have ht2p : t2p = (fun t => if t.txHash = h then tx1 else t) t2 :=
        (Option.some.inj hfp).symm
      rw [ht2p, hFfound t.txHash t2 hf2, hFmem t htm]
      exact hI.align t htm t2 hf2

theorem scanInv_permTrans (w wa wa2 : BWWallet)
    (htr : List.Perm wa2.transactions wa.transactions)
    (ha : wa2.allTx = wa.allTx) (hb : wa2.balance = wa.balance)
    (hh : wa2.balanceHist = wa.balanceHist) (hu : wa2.utxos = wa.utxos)
    (hd : wa2.allAddrs = wa.allAddrs)
    (hI : ScanInv w wa) : ScanInv w wa2 := by
  refine ⟨?_, ?_, ?_, ?_, ?_, ?_, ?_, ?_, ?_⟩
  · rw [hb]
    exact hI.bal
  · rw [hh]
    exact hI.hist
  · rw [hu]
    exact hI.utx
  · rw [hd]
    exact hI.addrs
  · rw [htr.length_eq]
    exact hI.len
  · rw [txTotalList_perm htr]
    exact hI.tot
  · intro u hu2
    rw [hu] at hu2
    rw [ha]
    exact hI.res u hu2
  · intro u hu2 t2 hf
    rw [hu] at hu2
    rw [ha] at hf
    obtain ⟨o, h1, h2, h3⟩ := hI.ref u hu2 t2 hf
    exact ⟨o, h1, by rw [hd]; exact h2, h3⟩
  · intro t ht t2 hf
    rw [ha] at hf
    exact hI.align t (htr.subset ht) t2 hf

theorem scanInv_reinsert (w wa1 : BWWallet) (h : Nat) (tx1 : BWTransaction)
    (htx1h : tx1.txHash = h)
    (hallh : ∀ t ∈ wa1.transactions, t.txHash = h → t = tx1)
    (hmem : tx1.txHash ∈ wa1.transactions.map (fun t => t.txHash))
    (hI : ScanInv w wa1) : ScanInv w (reinsertWallet wa1 h tx1) := by
  have hmem2 : h ∈ wa1.transactions.map (fun t => t.txHash) := by
    rw [← htx1h]
    exact hmem
  obtain ⟨t0, ht0, ht0h, hperm⟩ := removeLastHash_perm wa1.transactions h hmem2
  have ht0e : t0 = tx1 := hallh t0 ht0 ht0h
  rw [ht0e] at hperm
  have htr : List.Perm (reinsertWallet wa1 h tx1).transactions wa1.transactions := by
    have h1 : List.Perm (reinsertWallet wa1 h tx1).transactions
        (tx1 :: removeLastHash wa1.transactions h) := by
      show List.Perm (walletInsertTx
        { wa1 with transactions := removeLastHash wa1.transactions h } tx1) _
      exact walletInsertTx_perm _ tx1
    exact h1.trans hperm.symm
  exact scanInv_permTrans w wa1 _ htr rfl rfl rfl rfl rfl hI

theorem scanInv_removal (w wa1 : BWWallet) (h : Nat) (tx1 : BWTransaction)
    (hfind1 : findTx wa1.allTx h = some tx1)
    (hncon : walletContainsTx wa1 tx1 = false)
    (hI : ScanInv w wa1) : ScanInv w (dropTxWallet wa1 h) := by
  have hno : ∀ u ∈ wa1.utxos, u.hash ≠ h := by
    intro u hu he
    have hf : findTx wa1.allTx u.hash = some tx1 := by
      rw [he]
      exact hfind1
    obtain ⟨o, ho, ha, hz⟩ := hI.ref u hu tx1 hf
    have hom : o ∈ tx1.outputs := List.get?_mem ho
    have hcon : walletContainsTx wa1 tx1 = true := by
      unfold walletContainsTx
      have h1 : tx1.outputs.any (fun o => decide (o.address ∈ wa1.allAddrs)) = true := by
        rw [List.any_eq_true]
        exact ⟨o, hom, by simp [ha]⟩
      rw [h1, Bool.true_or]
    rw [hncon] at hcon
    exact Bool.false_ne_true hcon
  refine ⟨hI.bal, hI.hist, hI.utx, hI.addrs, hI.len, hI.tot, ?_, ?_, ?_⟩
  · intro u hu
    have hu1 : u ∈ wa1.utxos := hu
    have hstab : resolvedAmount (dropTxWallet wa1 h).allTx u
        = resolvedAmount wa1.allTx u := by
      unfold resolvedAmount
      rw [show (dropTxWallet wa1 h).allTx
          = wa1.allTx.filter (fun t => decide (¬t.txHash = h)) from rfl]
      rw [findTx_filter_ne wa1.allTx h u.hash (hno u hu1)]
    rw [hstab]
    exact hI.res u hu1
  · intro u hu t2 hf
    have hu1 : u ∈ wa1.utxos := hu
    rw [show (dropTxWallet wa1 h).allTx
        = wa1.allTx.filter (fun t => decide (¬t.txHash = h)) from rfl,
      findTx_filter_ne wa1.allTx h u.hash (hno u hu1)] at hf
    obtain ⟨o, h1, h2, h3⟩ := hI.ref u hu1 t2 hf
    exact ⟨o, h1, h2, h3⟩
  · intro t ht t2 hf
    have ht1 : t ∈ wa1.transactions := ht
    by_cases hth : t.txHash = h
    · rw [show (dropTxWallet wa1 h).allTx
          = wa1.allTx.filter (fun t => decide (¬t.txHash = h)) from rfl, hth,
        findTx_filter_self] at hf
      exact absurd hf (by simp)
    · rw [show (dropTxWallet wa1 h).allTx
          = wa1.allTx.filter (fun t => decide (¬t.txHash = h)) from rfl,
        findTx_filter_ne wa1.allTx h t.txHash hth] at hf
      exact hI.align t ht1 t2 hf

theorem updateTxStep_inv (w : BWWallet) (bh ts : Nat)
    (acc : BWWallet × List Nat × Bool) (h : Nat)
    (hI : ScanInv w acc.1) : ScanInv w (updateTxStep bh ts acc h).1 := by
  rcases hfind : findTx acc.1.allTx h with _ | tx
  · have hr : updateTxStep bh ts acc h = acc := by
      simp only [updateTxStep]
      rw [hfind]
    rw [hr]
    exact hI
  · have htxh : tx.txHash = h := findTx_hash hfind
    by_cases hsame : tx.blockHeight = bh ∧ tx.timestamp = ts
    · have hr : updateTxStep bh ts acc h = acc := by
        simp only [updateTxStep]
        rw [hfind]
        exact if_pos hsame
      rw [hr]
      exact hI
    · have he1 : updateTxStep bh ts acc h
          = (if walletContainsTx
               (substWallet acc.1 h { tx with blockHeight := bh, timestamp := ts })
               { tx with blockHeight := bh, timestamp := ts } = true then
              (if ({ tx with blockHeight := bh, timestamp := ts }
                    : BWTransaction).txHash
                  ∈ (substWallet acc.1 h { tx with blockHeight := bh, timestamp := ts }).transactions.map (fun t => t.txHash)
               then reinsertWallet (substWallet acc.1 h
                      { tx with blockHeight := bh, timestamp := ts }) h
                      { tx with blockHeight := bh, timestamp := ts }
               else substWallet acc.1 h
                      { tx with blockHeight := bh, timestamp := ts },
               h :: acc.2.1,
               acc.2.2 || decide (h ∈ acc.1.pendingTx)
                 || decide (h ∈ acc.1.invalidTx))
            else if bh ≠ TX_UNCONFIRMED then
              (dropTxWallet (substWallet acc.1 h
                 { tx with blockHeight := bh, timestamp := ts }) h,
               acc.2.1, acc.2.2)
            else (substWallet acc.1 h
                    { tx with blockHeight := bh, timestamp := ts },
                  acc.2.1, acc.2.2)) := by
        simp only [updateTxStep]
        rw [hfind]
        exact if_neg hsame
      have hI1 := scanInv_subst w acc.1 h tx
        { tx with blockHeight := bh, timestamp := ts } hfind rfl rfl hI
      have hFh : ∀ t : BWTransaction,
          ((fun t => if t.txHash = h
            then { tx with blockHeight := bh, timestamp := ts } else t) t).txHash
          = t.txHash := by
        intro t
        by_cases ht : t.txHash = h
        · show (if t.txHash = h
            then { tx with blockHeight := bh, timestamp := ts } else t).txHash
            = t.txHash
          rw [if_pos ht]
          show tx.txHash = t.txHash
          rw [htxh, ht]
        · show (if t.txHash = h
            then { tx with blockHeight := bh, timestamp := ts } else t).txHash
            = t.txHash
          rw [if_neg ht]
      rw [he1]
      by_cases hcon : walletContainsTx
          (substWallet acc.1 h { tx with blockHeight := bh, timestamp := ts })
          { tx with blockHeight := bh, timestamp := ts } = true
      · rw [if_pos hcon]
        by_cases hmem : ({ tx with blockHeight := bh, timestamp := ts }
              : BWTransaction).txHash
            ∈ (substWallet acc.1 h { tx with blockHeight := bh, timestamp := ts }).transactions.map (fun t => t.txHash)
        · rw [if_pos hmem]
          refine scanInv_reinsert w _ h _ htxh ?_ hmem hI1
          intro x hx hxh
          rw [show (substWallet acc.1 h
              { tx with blockHeight := bh, timestamp := ts }).transactions
              = acc.1.transactions.map (fun t => if t.txHash = h
                  then { tx with blockHeight := bh, timestamp := ts } else t)
            from rfl, List.mem_map] at hx
          obtain ⟨t, htm, rfl⟩ := hx
          by_cases ht : t.txHash = h
          · show (if t.txHash = h
              then { tx with blockHeight := bh, timestamp := ts } else t)
              = { tx with blockHeight := bh, timestamp := ts }
            rw [if_pos ht]
          · exfalso
            have hxh2 : (if t.txHash = h
                then ({ tx with blockHeight := bh, timestamp := ts } : BWTransaction)
                else t).txHash = h := hxh
            rw [if_neg ht] at hxh2
            exact ht hxh2
        · rw [if_neg hmem]
          exact hI1
      · rw [if_neg hcon]
        by_cases hbh : bh ≠ TX_UNCONFIRMED
        · rw [if_pos hbh]
          refine scanInv_removal w _ h _ ?_ (Bool.eq_false_iff.mpr hcon) hI1
          rw [show (substWallet acc.1 h
              { tx with blockHeight := bh, timestamp := ts }).allTx
              = acc.1.allTx.map (fun t => if t.txHash = h
                  then { tx with blockHeight := bh, timestamp := ts } else t)
            from rfl, findTx_map_hashPres _ hFh, hfind]
          show some (if tx.txHash = h
            then { tx with blockHeight := bh, timestamp := ts } else tx) = _
          rw [if_pos htxh]
        · rw [if_neg hbh]
          exact hI1

theorem updateTxScan_inv (w : BWWallet) (hs : List Nat) (bh ts : Nat)
    (hWF : WF w) (hProv : UtxoProv w) :
    ScanInv w (updateTxScan w hs bh ts).1 := by
  have hinit : ScanInv w { w with blockHeight := max w.blockHeight bh } := by
    refine ⟨rfl, rfl, rfl, rfl, rfl, rfl, ?_, ?_, ?_⟩
    · intro u hu
      rfl
    · intro u hu t2 hf
      obtain ⟨t, htm, huh, o, ho, ha, hz⟩ := hProv u hu
      have hft : findTx w.allTx u.hash = some t := by
        rw [huh]
        exact hWF.1 t htm
      have hf2 : findTx w.allTx u.hash = some t2 := hf
      rw [hft] at hf2
      have hte : t = t2 := Option.some.inj hf2
      rw [← hte]
      exact ⟨o, ho, ha, hz⟩
    · intro t ht t2 hf
      have hf2 : findTx w.allTx t.txHash = some t2 := hf
      rw [hWF.1 t ht] at hf2
      have hte : t = t2 := Option.some.inj hf2
      rw [← hte]
  show ScanInv w (hs.foldl (updateTxStep bh ts)
    ({ w with blockHeight := max w.blockHeight bh }, [], false)).1
  have hfold : ∀ (l : List Nat) (acc : BWWallet × List Nat × Bool),
      ScanInv w acc.1 → ScanInv w (l.foldl (updateTxStep bh ts) acc).1 := by
    intro l
    induction l with
    | nil =>
      intro acc hA
      exact hA
    | cons d rest ihl =>
      intro acc hA
      rw [List.foldl_cons]
      exact ihl _ (updateTxStep_inv w bh ts acc d hA)
  exact hfold hs _ hinit

/-- `BWWalletUpdateTransactions` preserves the balance property: the scan
leaves the balance data untouched, and when a pending or invalid
transaction was confirmed the balance is recomputed from scratch. -/
theorem updateTransactions_balanceP (w : BWWallet) (hs : List Nat)
    (bh ts now : Nat)
    (hWF : WF w) (hP : BalanceP w) (hProv : UtxoProv w) (hS : Small w)
    (hWF2 : ∀ t ∈ (updateTxScan w hs bh ts).1.transactions,
      findTx (updateTxScan w hs bh ts).1.allTx t.txHash = some t) :
    BalanceP (updateTransactionsOp w hs bh ts now).1 := by
  have hI := updateTxScan_inv w hs bh ts hWF hProv
  have hres : (updateTransactionsOp w hs bh ts now).1
      = (if (updateTxScan w hs bh ts).2.2 = true
         then updateBalanceW (updateTxScan w hs bh ts).1 now
         else (updateTxScan w hs bh ts).1) := rfl
  rw [hres]
  by_cases hflag : (updateTxScan w hs bh ts).2.2 = true
  · rw [if_pos hflag]
    have hSr : Small (updateTxScan w hs bh ts).1 := by
      show txTotalList _ < U64
      rw [hI.tot]
      exact hS
    exact (updateBalanceW_props _ now hWF2 hSr).1
  · rw [if_neg hflag]
    refine ⟨?_, ?_, ?_⟩
    · show (updateTxScan w hs bh ts).1.balance = utxoSum (updateTxScan w hs bh ts).1
      rw [hI.bal]
      unfold utxoSum
      rw [hI.utx]
      rw [List.map_congr_left (fun u hu => hI.res u (by rw [hI.utx]; exact hu))]
      have h1 := hP.1
      unfold utxoSum at h1
      exact h1
    · show (updateTxScan w hs bh ts).1.balanceHist.length
        = (updateTxScan w hs bh ts).1.transactions.length
      rw [hI.hist, hI.len]
      exact hP.2.1
    · rw [hI.hist, hI.bal]
      exact hP.2.2

/-- A fresh wallet state, used to instantiate the invariant theorems. -/
def emptyWallet : BWWallet :=
  { balance := 0, totalSent := 0, totalReceived := 0, feePerKb := 0,
    balanceHist := [], blockHeight := 0, utxos := [], transactions := [],
    internalChain := [], externalChain := [], allTx := [], invalidTx := [],
    pendingTx := [], spentOutputs := [], usedAddrs := [], allAddrs := [] }

/-- **C1**: after each of the four state-changing wallet operations
(register, update, remove, set-unconfirmed-after), the balance equals the
sum of the amounts of the outputs referenced by the UTXO set, the balance
history has exactly one entry per listed transaction, and its last entry is
the balance.  The starting state is assumed well-formed (`WF`: the sorted
list is backed by the hash set, no duplicate hashes), balanced, with
provenanced UTXOs, and below the 64-bit money bound (`Small`); registering
additionally assumes the enlarged total stays below 2^64, and the
rebalance path of the update operation assumes the hash set still backs
the list after the mutation phase. -/
theorem claimC1 (derive : Bool → Nat → Nat) (gapExt gapInt : Nat)
    (w : BWWallet) (tx : BWTransaction) (txHashes : List Nat)
    (bh ts h fuel now : Nat)
    (hWF : WF w) (hP : BalanceP w) (hProv : UtxoProv w) (hSmall : Small w) :
    (txTotalList (tx :: w.transactions) < U64 →
      BalanceP (registerTx derive gapExt gapInt w tx now).1) ∧
    ((∀ t ∈ (updateTxScan w txHashes bh ts).1.transactions,
        findTx (updateTxScan w txHashes bh ts).1.allTx t.txHash = some t) →
      BalanceP (updateTransactionsOp w txHashes bh ts now).1) ∧
    BalanceP (removeTransaction fuel w h now).1 ∧
    BalanceP (setTxUnconfirmedAfter w bh now).1 := by
  refine ⟨?_, ?_, ?_, ?_⟩
  · intro hS2
    by_cases hsig : BWTransactionIsSigned tx = true
    · by_cases hnew : (findTx w.allTx tx.txHash).isSome = true
      · have hr : registerTx derive gapExt gapInt w tx now = (w, true, []) := by
          unfold registerTx
          rw [if_neg (by simp [hsig]), if_pos (by simp [hnew])]
        rw [hr]
        exact hP
      · have hnew2 : (findTx w.allTx tx.txHash).isSome = false :=
          Bool.eq_false_iff.mpr hnew
        by_cases hcon : walletContainsTx w tx = true
        · exact (registerTx_contains derive gapExt gapInt w tx now hWF hsig hnew2
            hcon hS2).2.2.2.2.1
        · have hcon2 : walletContainsTx w tx = false := Bool.eq_false_iff.mpr hcon
          by_cases hbh : tx.blockHeight = TX_UNCONFIRMED
          · rw [(registerTx_other derive gapExt gapInt w tx now hsig hnew2 hcon2).1 hbh]
            exact balanceP_consAllTx w tx hWF hProv hP hnew2
          · rw [(registerTx_other derive gapExt gapInt w tx now hsig hnew2 hcon2).2 hbh]
            exact hP
    · have hr : registerTx derive gapExt gapInt w tx now = (w, false, []) := by
        unfold registerTx
        rw [if_pos hsig]
      rw [hr]
      exact hP
  · intro hWF2
    exact updateTransactions_balanceP w txHashes bh ts now hWF hP hProv hSmall hWF2
  · exact (removeTransaction_good now fuel w h hWF hP hSmall).2.1
  · exact setUnconfirmed_balanceP w bh now hWF hP hSmall

theorem claimC1_witness :
    BalanceP (registerTx (fun _ i => i + 1) 2 1 emptyWallet oneTx 7).1 ∧
    BalanceP (removeTransaction 1 emptyWallet 9 7).1 :=
  ⟨(claimC1 (fun _ i => i + 1) 2 1 emptyWallet oneTx [] 3 4 9 1 7
      ⟨fun t ht => absurd ht (List.not_mem_nil t), List.nodup_nil, List.nodup_nil⟩
      ⟨rfl, rfl, Or.inl rfl⟩
      (fun u hu => absurd hu (List.not_mem_nil u))
      (by show (0 : Nat) < U64; decide)).1
      (by show (1000 : Nat) < U64; decide),
   (claimC1 (fun _ i => i + 1) 2 1 emptyWallet oneTx [] 3 4 9 1 7
      ⟨fun t ht => absurd ht (List.not_mem_nil t), List.nodup_nil, List.nodup_nil⟩
      ⟨rfl, rfl, Or.inl rfl⟩
      (fun u hu => absurd hu (List.not_mem_nil u))
      (by show (0 : Nat) < U64; decide)).2.2.1⟩

/-- **C7**: `BWWalletRegisterTransaction` on a signed transaction: if the
hash is already known it is a no-op returning true; if the transaction
touches the wallet it enters `allTx` and the sorted list, the balance is
recomputed (the balance property holds afterwards), `balanceChanged` and
`txAdded` fire, and the call returns true; an unconfirmed non-wallet
transaction is retained in `allTx` but the call returns false; a confirmed
non-wallet transaction leaves the wallet unchanged and returns false. -/
theorem claimC7 (derive : Bool → Nat → Nat) (gapExt gapInt : Nat)
    (w : BWWallet) (tx : BWTransaction) (now : Nat)
    (hWF : WF w) (hsig : BWTransactionIsSigned tx = true)
    (hS2 : txTotalList (tx :: w.transactions) < U64) :
    ((findTx w.allTx tx.txHash).isSome = true →
      registerTx derive gapExt gapInt w tx now = (w, true, [])) ∧
    ((findTx w.allTx tx.txHash).isSome = false → walletContainsTx w tx = true →
      (registerTx derive gapExt gapInt w tx now).2.1 = true ∧
      (registerTx derive gapExt gapInt w tx now).1.allTx = tx :: w.allTx ∧
      List.Perm (registerTx derive gapExt gapInt w tx now).1.transactions
        (tx :: w.transactions) ∧
      BalanceP (registerTx derive gapExt gapInt w tx now).1 ∧
      (registerTx derive gapExt gapInt w tx now).2.2
        = [WEvent.balanceChanged
             (registerTx derive gapExt gapInt w tx now).1.balance,
           WEvent.txAdded tx.txHash]) ∧
    ((findTx w.allTx tx.txHash).isSome = false → walletContainsTx w tx = false →
      tx.blockHeight = TX_UNCONFIRMED →
      registerTx derive gapExt gapInt w tx now
        = ({ w with allTx := tx :: w.allTx }, false, [])) ∧
    ((findTx w.allTx tx.txHash).isSome = false → walletContainsTx w tx = false →
      ¬tx.blockHeight = TX_UNCONFIRMED →
      registerTx derive gapExt gapInt w tx now = (w, false, [])) := by
  refine ⟨?_, ?_, ?_, ?_⟩
  · intro hnew
    unfold registerTx
    rw [if_neg (by simp [hsig]), if_pos (by simp [hnew])]
  · intro hnew hcon
    obtain ⟨c1, c2, c3, c4, c5, _, _, _⟩ :=
      registerTx_contains derive gapExt gapInt w tx now hWF hsig hnew hcon hS2
    exact ⟨c1, c3, c4, c5, c2⟩
  · intro hnew hcon hbh
    exact (registerTx_other derive gapExt gapInt w tx now hsig hnew hcon).1 hbh
  · intro hnew hcon hbh
    exact (registerTx_other derive gapExt gapInt w tx now hsig hnew hcon).2 hbh

theorem claimC7_witness :
    registerTx (fun _ i => i + 1) 2 1 emptyWallet oneTx 7
      = ({ emptyWallet with allTx := [oneTx] }, false, []) :=
  (claimC7 (fun _ i => i + 1) 2 1 emptyWallet oneTx 7
    ⟨fun t ht => absurd ht (List.not_mem_nil t), List.nodup_nil, List.nodup_nil⟩
    (by decide) (by show (1000 : Nat) < U64; decide)).2.2.1
    (by decide) (by decide) (by decide)

theorem txIsAscending_height {allTx : List BWTransaction} {f : Nat}
    {t1 t2 : BWTransaction} (h : txIsAscending allTx (f + 1) t1 t2 = true) :
    t2.blockHeight ≤ t1.blockHeight := by
  by_cases h2 : t1.blockHeight < t2.blockHeight
  · exfalso
    simp only [txIsAscending] at h
    rw [if_neg (by omega), if_pos h2] at h
    exact Bool.false_ne_true h
  · omega

theorem txCompare_pos_height {w : BWWallet} {x tx : BWTransaction}
    (h : txCompare w x tx > 0) : tx.blockHeight ≤ x.blockHeight := by
  by_cases ha : txIsAscending w.allTx (w.allTx.length + 1) x tx = true
  · exact txIsAscending_height ha
  · by_cases hb : txIsAscending w.allTx (w.allTx.length + 1) tx x = true
    · exfalso
      simp only [txCompare] at h
      rw [if_neg ha, if_pos hb] at h
      exact absurd h (by decide)
    · have h1 : ¬x.blockHeight > tx.blockHeight := fun hgt => ha (by
        simp only [txIsAscending]
        rw [if_pos hgt])
      have h2 : ¬tx.blockHeight > x.blockHeight := fun hgt => hb (by
        simp only [txIsAscending]
        rw [if_pos hgt])
      omega

theorem txCompare_nonpos_height {w : BWWallet} {x tx : BWTransaction}
    (h : ¬txCompare w x tx > 0) : x.blockHeight ≤ tx.blockHeight := by
  by_cases ha : txIsAscending w.allTx (w.allTx.length + 1) x tx = true
  · exfalso
    apply h
    show txCompare w x tx > 0
    simp only [txCompare]
    rw [if_pos ha]
    decide
  · by_cases hb : txIsAscending w.allTx (w.allTx.length + 1) tx x = true
    · exact txIsAscending_height hb
    · have h1 : ¬x.blockHeight > tx.blockHeight := fun hgt => ha (by
        simp only [txIsAscending]
        rw [if_pos hgt])
      omega

theorem insertFromEnd_revSorted (w : BWWallet) (tx : BWTransaction) :
    ∀ l : List BWTransaction,
      List.Pairwise (fun a b => b.blockHeight ≤ a.blockHeight) l →
      List.Pairwise (fun a b => b.blockHeight ≤ a.blockHeight)
        (insertFromEnd w tx l) := by
  intro l
  induction l with
  | nil =>
    intro _
    exact List.pairwise_singleton _ _
  | cons x rest ih =>
    intro hp
    rw [List.pairwise_cons] at hp
    obtain ⟨hx, hrest⟩ := hp
    show List.Pairwise _
      (if txCompare w x tx > 0 then x :: insertFromEnd w tx rest
       else tx :: x :: rest)
    by_cases hc : txCompare w x tx > 0
    · rw [if_pos hc, List.pairwise_cons]
      constructor
      · intro y hy
        have hmem := (insertFromEnd_perm w tx rest).mem_iff.mp hy
        rcases List.mem_cons.mp hmem with hytx | hyr
        · rw [hytx]
          exact txCompare_pos_height hc
        · exact hx y hyr
      · exact ih hrest
    · rw [if_neg hc, List.pairwise_cons]
      have hxh : x.blockHeight ≤ tx.blockHeight := txCompare_nonpos_height hc
      constructor
      · intro y hy
        rcases List.mem_cons.mp hy with hyx | hyr
        · rw [hyx]
          exact hxh
        · exact (hx y hyr).trans hxh
      · exact List.pairwise_cons.mpr ⟨hx, hrest⟩

/-- **C2** (amended): `_BWWalletInsertTx` preserves the sortedness of the
transaction list by non-decreasing block height.  The full claimed order —
a transaction also after every transaction it spends from — does not hold
in general (see the counterexample): the comparator resolves dependencies
only one hash-set lookup deep and falls back to an address-chain tiebreak,
which is not transitive with the dependency order. -/
theorem claimC2 (w : BWWallet) (tx : BWTransaction)
    (hs : List.Pairwise (fun a b => a.blockHeight ≤ b.blockHeight)
      w.transactions) :
    List.Pairwise (fun a b => a.blockHeight ≤ b.blockHeight)
      (walletInsertTx w tx) := by
  unfold walletInsertTx
  rw [List.pairwise_reverse]
  exact insertFromEnd_revSorted w tx w.transactions.reverse
    (List.pairwise_reverse.mpr hs)

theorem claimC2_witness :
    List.Pairwise (fun a b => a.blockHeight ≤ b.blockHeight)
      (walletInsertTx emptyWallet oneTx) :=
  claimC2 emptyWallet oneTx List.Pairwise.nil

/-- The derivation function of the counterexample wallet: external
addresses 100, 101, ..., internal addresses 200, 201, ... -/
def dCX : Bool → Nat → Nat := fun internal idx =>
  (if internal then 200 else 100) + idx

def txCX_A : BWTransaction :=
  ⟨1, 1, [⟨999, 0, 0, none, some [1], 4294967295⟩],
   [⟨100, 1000, none⟩], 0, TX_UNCONFIRMED, 0⟩

def txCX_B : BWTransaction :=
  ⟨2, 1, [⟨1, 0, 0, none, some [1], 4294967295⟩],
   [⟨101, 1000, none⟩], 0, TX_UNCONFIRMED, 0⟩

def txCX_C : BWTransaction :=
  ⟨3, 1, [⟨2, 0, 0, none, some [1], 4294967295⟩],
   [⟨100, 1000, none⟩], 0, TX_UNCONFIRMED, 0⟩

def wStartCX : BWWallet := (walletNew dCX 2 1 1000 [] 5).getD emptyWallet

/-- The wallet reached by registering C, then A, then B. -/
def wCX : BWWallet :=
  (registerTx dCX 2 1
    (registerTx dCX 2 1
      (registerTx dCX 2 1 wStartCX txCX_C 5).1
      txCX_A 5).1
    txCX_B 5).1

/-- The ordering property claim C2 asserts of the transaction list. -/
def txOrderedC2 (w : BWWallet) : Prop :=
  ∀ i j ti tj, w.transactions.get? i = some ti →
    w.transactions.get? j = some tj →
    (ti.blockHeight < tj.blockHeight ∨
     tj.inputs.any (fun inp => inp.txHash == ti.txHash) = true) → i ≤ j

/-- Counterexample to C2: registering the unconfirmed transactions C, A, B
(in that order, each paying a wallet address) leaves the list ordered
[C, A, B] although C spends an output of B. -/
theorem claimC2_counterexample :
    wCX.transactions.map (fun t => t.txHash) = [3, 1, 2] ∧ ¬txOrderedC2 wCX := by
  constructor
  · decide
  · intro hord
    have h := hord 2 0 txCX_B txCX_C (by decide) (by decide)
      (Or.inr (by decide))
    omega

/-! #### Claim C3: the invalid/pending classification -/

theorem bool_eq_of_iff {a b : Bool} (h : a = true ↔ b = true) : a = b := by
  cases a <;> cases b <;> simp_all

theorem attach_range_any (n : Nat) (f : Nat → Bool) :
    ((List.range n).attach.any (fun j => f j.1) = true) ↔
      ∃ i, i < n ∧ f i = true := by
  rw [List.any_eq_true]
  constructor
  · rintro ⟨⟨i, hi⟩, _, hf⟩
    exact ⟨i, List.mem_range.mp hi, hf⟩
  · rintro ⟨i, hi, hf⟩
    exact ⟨⟨i, List.mem_range.mpr hi⟩, List.mem_attach _ _, hf⟩

/-- The declarative classification the scan implements (amended from the
claim): the transaction at position `i` of the sorted list is invalid iff
it is unconfirmed and one of its inputs either repeats an outpoint spent by
an earlier NON-INVALID transaction or references an earlier invalid
transaction. -/
def specInvalidB (txs : List BWTransaction) : Nat → Bool
  | i =>
    let tx := txs.getD i default
    decide (tx.blockHeight = TX_UNCONFIRMED) &&
    tx.inputs.any (fun inp =>
      (List.range i).attach.any (fun j =>
        (!specInvalidB txs j.1 &&
          decide (inOutpoint inp ∈ (txs.getD j.1 default).inputs.map inOutpoint)) ||
        (specInvalidB txs j.1 && inp.txHash == (txs.getD j.1 default).txHash)))
termination_by i => i
decreasing_by
  all_goals exact List.mem_range.mp j.2

/-- The declarative pending classification: unconfirmed, not invalid, and
oversized, or paying a dust output, or opting into replacement, or
time-locked in the future, or spending an earlier pending transaction. -/
def specPendingB (txs : List BWTransaction) (wh now : Nat) : Nat → Bool
  | i =>
    let tx := txs.getD i default
    decide (tx.blockHeight = TX_UNCONFIRMED) &&
    !specInvalidB txs i &&
    (decide (BWTransactionSize tx > TX_MAX_SIZE) ||
     tx.outputs.any (fun o => decide (o.amount < TX_MIN_OUTPUT_AMOUNT)) ||
     tx.inputs.any (fun inp =>
       decide (inp.sequence < UINT32_MAX - 1) ||
       (decide (inp.sequence < UINT32_MAX) &&
        decide (tx.lockTime < TX_MAX_LOCK_HEIGHT) &&
        decide (tx.lockTime > wh + 1)) ||
       (decide (inp.sequence < UINT32_MAX) && decide (tx.lockTime > now)) ||
       (List.range i).attach.any (fun j =>
         specPendingB txs wh now j.1 &&
         inp.txHash == (txs.getD j.1 default).txHash)))
termination_by i => i
decreasing_by
  all_goals exact List.mem_range.mp j.2

/-- The literal classification the words of claim C3 state: an input
already spent by ANY earlier transaction (invalid or not) makes the
transaction invalid; fuel-based so a witness can evaluate it (`i + 1`
steps always suffice since the index decreases strictly). -/
def specInvalidLitF (txs : List BWTransaction) : Nat → Nat → Bool
  | 0, _ => false
  | fuel + 1, i =>
    let tx := txs.getD i default
    decide (tx.blockHeight = TX_UNCONFIRMED) &&
    tx.inputs.any (fun inp =>
      (List.range i).any (fun j =>
        decide (inOutpoint inp ∈ (txs.getD j default).inputs.map inOutpoint) ||
        (specInvalidLitF txs fuel j && inp.txHash == (txs.getD j default).txHash)))

def specInvalidLit (txs : List BWTransaction) (i : Nat) : Bool :=
  specInvalidLitF txs (i + 1) i

theorem addOutputs_sets (A : List Nat) (th : Nat) :
    ∀ (l : List (Nat × BWTxOutput)) (st : UBState),
      (addOutputs A th l st).spentOutputs = st.spentOutputs ∧
      (addOutputs A th l st).invalidTx = st.invalidTx ∧
      (addOutputs A th l st).pendingTx = st.pendingTx := by
  intro l
  induction l with
  | nil =>
    intro st
    exact ⟨rfl, rfl, rfl⟩
  | cons p rest ih =>
    intro st
    rcases p with ⟨j, o⟩
    by_cases h0 : o.address ≠ 0
    · by_cases hA : o.address ∈ A
      · have hstep : addOutputs A th ((j, o) :: rest) st
            = addOutputs A th rest
                { st with usedAddrs := o.address :: st.usedAddrs,
                          utxos := st.utxos ++ [⟨th, j⟩],
                          balance := add64 st.balance o.amount } := by
          show (let st1 := if o.address ≠ 0 then
                  let st2 := { st with usedAddrs := o.address :: st.usedAddrs }
                  if o.address ∈ A then
                    { st2 with utxos := st2.utxos ++ [⟨th, j⟩],
                               balance := add64 st2.balance o.amount }
                  else st2
                else st
                addOutputs A th rest st1) = _
          rw [if_pos h0, if_pos hA]
        rw [hstep]
        exact ih _
      · have hstep : addOutputs A th ((j, o) :: rest) st
            = addOutputs A th rest
                { st with usedAddrs := o.address :: st.usedAddrs } := by
          show (let st1 := if o.address ≠ 0 then
                  let st2 := { st with usedAddrs := o.address :: st.usedAddrs }
                  if o.address ∈ A then
                    { st2 with utxos := st2.utxos ++ [⟨th, j⟩],
                               balance := add64 st2.balance o.amount }
                  else st2
                else st
                addOutputs A th rest st1) = _
          rw [if_pos h0, if_neg hA]
        rw [hstep]
        exact ih _
    · have hstep : addOutputs A th ((j, o) :: rest) st = addOutputs A th rest st := by
        show (let st1 := if o.address ≠ 0 then
                let st2 := { st with usedAddrs := o.address :: st.usedAddrs }
                if o.address ∈ A then
                  { st2 with utxos := st2.utxos ++ [⟨th, j⟩],
                             balance := add64 st2.balance o.amount }
                else st2
              else st
              addOutputs A th rest st1) = _
        rw [if_neg h0]
      rw [hstep]
      exact ih _

theorem list_any_congr {α : Type} {l : List α} {p q : α → Bool}
    (h : ∀ a ∈ l, p a = q a) : l.any p = l.any q := by
  induction l with
  | nil => rfl
  | cons a rest ih =>
    simp only [List.any_cons]
    rw [h a (List.mem_cons_self a rest),
      ih (fun b hb => h b (List.mem_cons_of_mem a hb))]

/-- One scan step refines the declarative classification: processing the
transaction at position `n` extends the three recorded sets exactly as
`specInvalidB`/`specPendingB` prescribe. -/
theorem ubStep_setsInv (A : List Nat) (allTx : List BWTransaction)
    (wh now : Nat) (txs : List BWTransaction) (n : Nat) (st : UBState)
    (hspent : ∀ u, u ∈ st.spentOutputs ↔ ∃ i, i < n ∧
      specInvalidB txs i = false ∧
      u ∈ (txs.getD i default).inputs.map inOutpoint)
    (hinv : ∀ h, h ∈ st.invalidTx ↔ ∃ i, i < n ∧
      specInvalidB txs i = true ∧ (txs.getD i default).txHash = h)
    (hpend : ∀ h, h ∈ st.pendingTx ↔ ∃ i, i < n ∧
      specPendingB txs wh now i = true ∧ (txs.getD i default).txHash = h) :
    (∀ u, u ∈ (ubStep A allTx wh now st (txs.getD n default)).spentOutputs ↔
      ∃ i, i < n + 1 ∧ specInvalidB txs i = false ∧
        u ∈ (txs.getD i default).inputs.map inOutpoint) ∧
    (∀ h, h ∈ (ubStep A allTx wh now st (txs.getD n default)).invalidTx ↔
      ∃ i, i < n + 1 ∧ specInvalidB txs i = true ∧
        (txs.getD i default).txHash = h) ∧
    (∀ h, h ∈ (ubStep A allTx wh now st (txs.getD n default)).pendingTx ↔
      ∃ i, i < n + 1 ∧ specPendingB txs wh now i = true ∧
        (txs.getD i default).txHash = h) := by
  have hInv : txInvalidStep st (txs.getD n default) = specInvalidB txs n := by
    apply bool_eq_of_iff
    conv_rhs => rw [specInvalidB]
    unfold txInvalidStep
    simp only [Bool.and_eq_true, decide_eq_true_eq, List.any_eq_true,
      Bool.or_eq_true, Bool.not_eq_true', beq_iff_eq]
    constructor
    · rintro ⟨hu, inp, hinp, hc⟩
      refine ⟨hu, inp, hinp, ?_⟩
      rcases hc with hsp | hin
      · obtain ⟨i, hi, hsi, hmem⟩ := (hspent (inOutpoint inp)).mp hsp
        exact ⟨⟨i, List.mem_range.mpr hi⟩, List.mem_attach _ _,
          Or.inl ⟨hsi, hmem⟩⟩
      · obtain ⟨i, hi, hsi, hh⟩ := (hinv inp.txHash).mp hin
        exact ⟨⟨i, List.mem_range.mpr hi⟩, List.mem_attach _ _,
          Or.inr ⟨hsi, hh.symm⟩⟩
    · rintro ⟨hu, inp, hinp, ⟨i, hi⟩, _, hc⟩
      refine ⟨hu, inp, hinp, ?_⟩
      rcases hc with ⟨hsi, hmem⟩ | ⟨hsi, hh⟩
      · exact Or.inl ((hspent (inOutpoint inp)).mpr
          ⟨i, List.mem_range.mp hi, hsi, hmem⟩)
      · exact Or.inr ((hinv inp.txHash).mpr
          ⟨i, List.mem_range.mp hi, hsi, hh.symm⟩)
  by_cases hsiT : specInvalidB txs n = true
  · have hcond : txInvalidStep st (txs.getD n default) = true := by
      rw [hInv]
      exact hsiT
    have hr : ubStep A allTx wh now st (txs.getD n default)
        = { st with invalidTx := (txs.getD n default).txHash :: st.invalidTx,
                    balanceHist := st.balanceHist ++ [st.balance] } := by
      simp only [ubStep]
      rw [if_pos hcond]
    have hsPn : specPendingB txs wh now n = false := by
      rw [specPendingB]
      simp [hsiT]
    rw [hr]
    refine ⟨?_, ?_, ?_⟩
    · intro u
      show u ∈ st.spentOutputs ↔ _
      rw [hspent u]
      constructor
      · rintro ⟨i, hi, hsi, hmem⟩
        exact ⟨i, by omega, hsi, hmem⟩
      · rintro ⟨i, hi, hsi, hmem⟩
        rcases Nat.lt_succ_iff_lt_or_eq.mp hi with hi2 | rfl
        · exact ⟨i, hi2, hsi, hmem⟩
        · rw [hsiT] at hsi
          exact absurd hsi (by decide)
    · intro h
      show h ∈ (txs.getD n default).txHash :: st.invalidTx ↔ _
      rw [List.mem_cons, hinv h]
      constructor
      · rintro (rfl | ⟨i, hi, hsi, hh⟩)
        · exact ⟨n, by omega, hsiT, rfl⟩
        · exact ⟨i, by omega, hsi, hh⟩
      · rintro ⟨i, hi, hsi, hh⟩
        rcases Nat.lt_succ_iff_lt_or_eq.mp hi with hi2 | rfl
        · exact Or.inr ⟨i, hi2, hsi, hh⟩
        · exact Or.inl hh.symm
    · intro h
      show h ∈ st.pendingTx ↔ _
      rw [hpend h]
      constructor
      · rintro ⟨i, hi, hsi, hh⟩
        exact ⟨i, by omega, hsi, hh⟩
      · rintro ⟨i, hi, hsi, hh⟩
        rcases Nat.lt_succ_iff_lt_or_eq.mp hi with hi2 | rfl
        · exact ⟨i, hi2, hsi, hh⟩
        · rw [hsPn] at hsi
          exact absurd hsi (by decide)
  · have hsiF : specInvalidB txs n = false := Bool.eq_false_iff.mpr hsiT
    have hcond : ¬txInvalidStep st (txs.getD n default) = true := by
      rw [hInv]
      rw [hsiF]
      decide
    have hPend : txPendingStep
        { st with
            spentOutputs :=
              st.spentOutputs ++ (txs.getD n default).inputs.map inOutpoint }
        wh now (txs.getD n default) = specPendingB txs wh now n := by
      conv_rhs => rw [specPendingB]
      unfold txPendingStep
      simp only [hsiF, Bool.not_false, Bool.and_true]
      congr 1
      congr 1
      apply list_any_congr
      intro inp hinp
      congr 1
      apply bool_eq_of_iff
      simp only [decide_eq_true_eq]
      constructor
      · intro hmem
        have hmem2 : inp.txHash ∈ st.pendingTx := hmem
        obtain ⟨i, hi, hsi, hh⟩ := (hpend inp.txHash).mp hmem2
        refine (attach_range_any n (fun i => specPendingB txs wh now i
          && inp.txHash == (txs.getD i default).txHash)).mpr ⟨i, hi, ?_⟩
        rw [hsi, hh]
        simp
      · intro hany
        obtain ⟨i, hi, hf⟩ := (attach_range_any n (fun i => specPendingB txs wh now i
          && inp.txHash == (txs.getD i default).txHash)).mp hany
        simp only [Bool.and_eq_true, beq_iff_eq] at hf
        exact (hpend inp.txHash).mpr ⟨i, hi, hf.1, hf.2.symm⟩
    by_cases hsPT : specPendingB txs wh now n = true
    · have hcond2 : txPendingStep
          { st with
              spentOutputs :=
                st.spentOutputs ++ (txs.getD n default).inputs.map inOutpoint }
          wh now (txs.getD n default) = true := by
        rw [hPend]
        exact hsPT
      have hr : ubStep A allTx wh now st (txs.getD n default)
          = { st with
                spentOutputs :=
                  st.spentOutputs ++ (txs.getD n default).inputs.map inOutpoint,
                pendingTx := (txs.getD n default).txHash :: st.pendingTx,
                balanceHist := st.balanceHist ++ [st.balance] } := by
        simp only [ubStep]
        rw [if_neg hcond, if_pos hcond2]
      rw [hr]
      refine ⟨?_, ?_, ?_⟩
      · intro u
        show u ∈ st.spentOutputs
            ++ (txs.getD n default).inputs.map inOutpoint ↔ _
        rw [List.mem_append, hspent u]
        constructor
        · rintro (⟨i, hi, hsi, hmem⟩ | hmem)
          · exact ⟨i, by omega, hsi, hmem⟩
          · exact ⟨n, by omega, hsiF, hmem⟩
        · rintro ⟨i, hi, hsi, hmem⟩
          rcases Nat.lt_succ_iff_lt_or_eq.mp hi with hi2 | rfl
          · exact Or.inl ⟨i, hi2, hsi, hmem⟩
          · exact Or.inr hmem
      · intro h
        show h ∈ st.invalidTx ↔ _
        rw [hinv h]
        constructor
        · rintro ⟨i, hi, hsi, hh⟩
          exact ⟨i, by omega, hsi, hh⟩
        · rintro ⟨i, hi, hsi, hh⟩
          rcases Nat.lt_succ_iff_lt_or_eq.mp hi with hi2 | rfl
          · exact ⟨i, hi2, hsi, hh⟩
          · rw [hsiF] at hsi
            exact absurd hsi (by decide)
      · intro h
        show h ∈ (txs.getD n default).txHash :: st.pendingTx ↔ _
        rw [List.mem_cons, hpend h]
        constructor
        · rintro (rfl | ⟨i, hi, hsi, hh⟩)
          · exact ⟨n, by omega, hsPT, rfl⟩
          · exact ⟨i, by omega, hsi, hh⟩
        · rintro ⟨i, hi, hsi, hh⟩
          rcases Nat.lt_succ_iff_lt_or_eq.mp hi with hi2 | rfl
          · exact Or.inr ⟨i, hi2, hsi, hh⟩
          · exact Or.inl hh.symm
    · have hsPF : specPendingB txs wh now n = false := Bool.eq_false_iff.mpr hsPT
      have hcond2 : ¬txPendingStep
          { st with
              spentOutputs :=
                st.spentOutputs ++ (txs.getD n default).inputs.map inOutpoint }
          wh now (txs.getD n default) = true := by
        rw [hPend, hsPF]
        decide
      have hsets := addOutputs_sets A (txs.getD n default).txHash
        (txs.getD n default).outputs.enum
        { st with
            spentOutputs :=
              st.spentOutputs ++ (txs.getD n default).inputs.map inOutpoint }
      have hsp : (ubStep A allTx wh now st (txs.getD n default)).spentOutputs
          = st.spentOutputs ++ (txs.getD n default).inputs.map inOutpoint := by
        simp only [ubStep]
        rw [if_neg hcond, if_neg hcond2]
        exact hsets.1
      have hiv : (ubStep A allTx wh now st (txs.getD n default)).invalidTx
          = st.invalidTx := by
        simp only [ubStep]
        rw [if_neg hcond, if_neg hcond2]
        exact hsets.2.1
      have hpd : (ubStep A allTx wh now st (txs.getD n default)).pendingTx
          = st.pendingTx := by
        simp only [ubStep]
        rw [if_neg hcond, if_neg hcond2]
        exact hsets.2.2
      refine ⟨?_, ?_, ?_⟩
      · intro u
        rw [hsp, List.mem_append, hspent u]
        constructor
        · rintro (⟨i, hi, hsi, hmem⟩ | hmem)
          · exact ⟨i, by omega, hsi, hmem⟩
          · exact ⟨n, by omega, hsiF, hmem⟩
        · rintro ⟨i, hi, hsi, hmem⟩
          rcases Nat.lt_succ_iff_lt_or_eq.mp hi with hi2 | rfl
          · exact Or.inl ⟨i, hi2, hsi, hmem⟩
          · exact Or.inr hmem
      · intro h
        rw [hiv, hinv h]
        constructor
        · rintro ⟨i, hi, hsi, hh⟩
          exact ⟨i, by omega, hsi, hh⟩
        · rintro ⟨i, hi, hsi, hh⟩
          rcases Nat.lt_succ_iff_lt_or_eq.mp hi with hi2 | rfl
          · exact ⟨i, hi2, hsi, hh⟩
          · rw [hsiF] at hsi
            exact absurd hsi (by decide)
      · intro h
        rw [hpd, hpend h]
        constructor
        · rintro ⟨i, hi, hsi, hh⟩
          exact ⟨i, by omega, hsi, hh⟩
        · rintro ⟨i, hi, hsi, hh⟩
          rcases Nat.lt_succ_iff_lt_or_eq.mp hi with hi2 | rfl
          · exact ⟨i, hi2, hsi, hh⟩
          · rw [hsPF] at hsi
            exact absurd hsi (by decide)

/-- The scan refines the declarative classification along the whole list. -/
theorem ubFold_setsInv (A : List Nat) (allTx : List BWTransaction)
    (wh now : Nat) (txs : List BWTransaction) :
    ∀ (rest P : List BWTransaction) (st : UBState), txs = P ++ rest →
      (∀ u, u ∈ st.spentOutputs ↔ ∃ i, i < P.length ∧
        specInvalidB txs i = false ∧
        u ∈ (txs.getD i default).inputs.map inOutpoint) →
      (∀ k, k ∈ st.invalidTx ↔ ∃ i, i < P.length ∧
        specInvalidB txs i = true ∧ (txs.getD i default).txHash = k) →
      (∀ k, k ∈ st.pendingTx ↔ ∃ i, i < P.length ∧
        specPendingB txs wh now i = true ∧ (txs.getD i default).txHash = k) →
      (∀ k, k ∈ (rest.foldl (ubStep A allTx wh now) st).invalidTx ↔
        ∃ i, i < txs.length ∧ specInvalidB txs i = true ∧
          (txs.getD i default).txHash = k) ∧
      (∀ k, k ∈ (rest.foldl (ubStep A allTx wh now) st).pendingTx ↔
        ∃ i, i < txs.length ∧ specPendingB txs wh now i = true ∧
          (txs.getD i default).txHash = k) := by
  intro rest
  induction rest with
  | nil =>
    intro P st htxs h1 h2 h3
    have hlen : txs.length = P.length := by
      rw [htxs, List.append_nil]
    simp only [List.foldl_nil]
    constructor
    · intro k
      rw [h2 k, hlen]
    · intro k
      rw [h3 k, hlen]
  | cons tx rest2 ih =>
    intro P st htxs h1 h2 h3
    rw [List.foldl_cons]
    have htx : tx = txs.getD P.length default := by
      rw [htxs]
      have h4 : (P ++ tx :: rest2)[P.length]? = some tx := by
        rw [List.getElem?_append_right (Nat.le_refl _)]
        simp
      rw [List.getD_eq_getElem?_getD, h4]
      rfl
    have hstep := ubStep_setsInv A allTx wh now txs P.length st h1 h2 h3
    rw [← htx] at hstep
    have happ : txs = (P ++ [tx]) ++ rest2 := by
      rw [htxs]
      simp
    have hlen : (P ++ [tx]).length = P.length + 1 := by simp
    apply ih (P ++ [tx]) (ubStep A allTx wh now st tx) happ
    · intro u
      rw [hlen]
      exact hstep.1 u
    · intro k
      rw [hlen]
      exact hstep.2.1 k
    · intro k
      rw [hlen]
      exact hstep.2.2 k

/-- **C3**: after a balance update the recorded invalid set is exactly the
set of hashes of transactions classified invalid by the (amended)
declarative rule — an input outpoint already spent by an earlier
NON-INVALID transaction, or an input referencing an earlier invalid
transaction — and similarly for the pending set; the two sets are disjoint
and only contain hashes of unconfirmed listed transactions. -/
theorem claimC3 (w : BWWallet) (now : Nat)
    (hnd : (w.transactions.map (fun t => t.txHash)).Nodup) :
    ∀ k : Nat,
      (k ∈ (updateBalanceW w now).invalidTx ↔
        ∃ i, i < w.transactions.length ∧ specInvalidB w.transactions i = true ∧
          (w.transactions.getD i default).txHash = k) ∧
      (k ∈ (updateBalanceW w now).pendingTx ↔
        ∃ i, i < w.transactions.length ∧
          specPendingB w.transactions w.blockHeight now i = true ∧
          (w.transactions.getD i default).txHash = k) ∧
      ¬(k ∈ (updateBalanceW w now).invalidTx ∧
        k ∈ (updateBalanceW w now).pendingTx) ∧
      (k ∈ (updateBalanceW w now).invalidTx ∨
       k ∈ (updateBalanceW w now).pendingTx →
        ∃ tx ∈ w.transactions, tx.txHash = k ∧
          tx.blockHeight = TX_UNCONFIRMED) := by
  have hfold := ubFold_setsInv w.allAddrs w.allTx w.blockHeight now
    w.transactions w.transactions [] ubInitial rfl
    (by
      intro u
      simp [ubInitial])
    (by
      intro k
      simp [ubInitial])
    (by
      intro k
      simp [ubInitial])
  obtain ⟨hI, hP⟩ := hfold
  intro k
  have hIk : k ∈ (updateBalanceW w now).invalidTx ↔
      ∃ i, i < w.transactions.length ∧ specInvalidB w.transactions i = true ∧
        (w.transactions.getD i default).txHash = k := hI k
  have hPk : k ∈ (updateBalanceW w now).pendingTx ↔
      ∃ i, i < w.transactions.length ∧
        specPendingB w.transactions w.blockHeight now i = true ∧
        (w.transactions.getD i default).txHash = k := hP k
  refine ⟨hIk, hPk, ?_, ?_⟩
  · rintro ⟨hik, hpk⟩
    obtain ⟨i, hi, hsi, hhi⟩ := hIk.mp hik
    obtain ⟨j, hj, hsj, hhj⟩ := hPk.mp hpk
    have hij : i = j := by
      have hmi : (w.transactions.map (fun t => t.txHash))[i]? = some k := by
        rw [List.getElem?_map, List.getElem?_eq_getElem hi]
        show some ((w.transactions[i]).txHash) = some k
        rw [← List.getD_eq_getElem w.transactions default hi, hhi]
      have hmj : (w.transactions.map (fun t => t.txHash))[j]? = some k := by
        rw [List.getElem?_map, List.getElem?_eq_getElem hj]
        show some ((w.transactions[j]).txHash) = some k
        rw [← List.getD_eq_getElem w.transactions default hj, hhj]
      exact List.getElem?_inj (by simpa using hi) hnd (by rw [hmi, hmj])
    subst hij
    conv at hsj => rw [specPendingB]
    simp only [Bool.and_eq_true, Bool.not_eq_true'] at hsj
    rw [hsi] at hsj
    exact absurd hsj.1.2 (by decide)
  · rintro (hik | hpk)
    · obtain ⟨i, hi, hsi, hhi⟩ := hIk.mp hik
      refine ⟨w.transactions.getD i default, ?_, hhi, ?_⟩
      · rw [List.getD_eq_getElem w.transactions default hi]
        exact List.getElem_mem hi
      · conv at hsi => rw [specInvalidB]
        simp only [Bool.and_eq_true, decide_eq_true_eq] at hsi
        exact hsi.1
    · obtain ⟨i, hi, hsi, hhi⟩ := hPk.mp hpk
      refine ⟨w.transactions.getD i default, ?_, hhi, ?_⟩
      · rw [List.getD_eq_getElem w.transactions default hi]
        exact List.getElem_mem hi
      · conv at hsi => rw [specPendingB]
        simp only [Bool.and_eq_true, decide_eq_true_eq] at hsi
        exact hsi.1.1

theorem claimC3_witness :
    ¬(5 ∈ (updateBalanceW emptyWallet 0).invalidTx ∧
      5 ∈ (updateBalanceW emptyWallet 0).pendingTx) :=
  (claimC3 emptyWallet 0 List.nodup_nil 5).2.2.1

def tC3_0 : BWTransaction :=
  ⟨10, 1, [⟨900, 0, 0, none, some [1], 4294967295⟩],
   [⟨100, 1000, none⟩], 0, TX_UNCONFIRMED, 0⟩

def tC3_1 : BWTransaction :=
  ⟨11, 1, [⟨900, 0, 0, none, some [1], 4294967295⟩,
           ⟨901, 0, 0, none, some [1], 4294967295⟩],
   [⟨100, 1000, none⟩], 0, TX_UNCONFIRMED, 0⟩

def tC3_2 : BWTransaction :=
  ⟨12, 1, [⟨901, 0, 0, none, some [1], 4294967295⟩],
   [⟨100, 1000, none⟩], 0, TX_UNCONFIRMED, 0⟩

/-- The wallet reached by registering t0, t1, t2 in order. -/
def wC3 : BWWallet :=
  (registerTx dCX 2 1
    (registerTx dCX 2 1
      (registerTx dCX 2 1 wStartCX tC3_0 5).1
      tC3_1 5).1
    tC3_2 5).1

/-- Counterexample to the literal wording of C3: t1 double-spends t0 and is
invalid, t2 spends an outpoint that the invalid t1 also spends.  By the
claim words t2 has an input "already spent by an earlier transaction" and
should be invalid, but the scan only records the inputs of non-invalid
transactions as spent, so the wallet classifies t2 as valid. -/
theorem claimC3_counterexample :
    wC3.transactions.map (fun t => t.txHash) = [10, 11, 12] ∧
    specInvalidLit wC3.transactions 2 = true ∧
    12 ∉ wC3.invalidTx ∧ 11 ∈ wC3.invalidTx := by
  refine ⟨by decide, by decide, by decide, by decide⟩

/-! #### Claim C10: wallet creation requires a matching transaction list -/

theorem growChain_image (d : Nat → Nat) (used : List Nat) (g : Nat) :
    ∀ (fuel : Nat) (chain : List Nat) (i : Nat),
      ∀ a ∈ (growChain d used g fuel chain i).1, a ∈ chain ∨ ∃ k, a = d k := by
  intro fuel
  induction fuel with
  | zero =>
    intro chain i a ha
    exact Or.inl ha
  | succ f ih =>
    intro chain i a ha
    show a ∈ chain ∨ ∃ k, a = d k
    by_cases hc : i + g > chain.length
    · rw [show growChain d used g (f + 1) chain i
          = growChain d used g f (chain ++ [d chain.length])
              (if d chain.length ∈ used then (chain ++ [d chain.length]).length
               else i) from by
        show (if i + g > chain.length then _ else _) = _
        rw [if_pos hc]] at ha
      rcases ih _ _ a ha with hm | him
      · rcases List.mem_append.mp hm with h1 | h1
        · exact Or.inl h1
        · rw [List.mem_singleton] at h1
          exact Or.inr ⟨chain.length, h1⟩
      · exact Or.inr him
    · rw [show growChain d used g (f + 1) chain i = (chain, i) from by
        show (if i + g > chain.length then _ else _) = _
        rw [if_neg hc]] at ha
      exact Or.inl ha

/-- The addresses `BWWalletUnusedAddrs` adds all come from the requested
chain of the derivation function (or were already on the chain). -/
theorem unusedAddrsOp_image (derive : Bool → Nat → Nat) (w : BWWallet)
    (g : Nat) (internal : Bool) :
    ∃ ns, (unusedAddrsOp derive w g internal).allAddrs = w.allAddrs ++ ns ∧
      ∀ a ∈ ns, a ∈ (if internal then w.internalChain else w.externalChain) ∨
        ∃ k, a = derive internal k := by
  cases internal
  · refine ⟨_, rfl, ?_⟩
    intro a ha
    have h1 := List.drop_subset w.externalChain.length _ ha
    exact growChain_image (derive false) w.usedAddrs g _ _ _ a h1
  · refine ⟨_, rfl, ?_⟩
    intro a ha
    have h1 := List.drop_subset w.internalChain.length _ ha
    exact growChain_image (derive true) w.usedAddrs g _ _ _ a h1

theorem unusedAddrsOp_otherChain (derive : Bool → Nat → Nat)
    (w : BWWallet) (g : Nat) :
    (unusedAddrsOp derive w g false).internalChain = w.internalChain ∧
    (unusedAddrsOp derive w g true).externalChain = w.externalChain :=
  ⟨rfl, rfl⟩

theorem foldl_wallet_props (g : BWWallet → BWTransaction → BWWallet)
    (hg : ∀ wa tx, (g wa tx).allAddrs = wa.allAddrs ∧
      (g wa tx).externalChain = wa.externalChain ∧
      (g wa tx).internalChain = wa.internalChain ∧
      ((g wa tx).allTx = tx :: wa.allTx ∨ (g wa tx).allTx = wa.allTx)) :
    ∀ (txs : List BWTransaction) (wa : BWWallet),
      (txs.foldl g wa).allAddrs = wa.allAddrs ∧
      (txs.foldl g wa).externalChain = wa.externalChain ∧
      (txs.foldl g wa).internalChain = wa.internalChain ∧
      ∀ t ∈ (txs.foldl g wa).allTx, t ∈ wa.allTx ∨ t ∈ txs := by
  intro txs
  induction txs with
  | nil =>
    intro wa
    exact ⟨rfl, rfl, rfl, fun t ht => Or.inl ht⟩
  | cons tx rest ih =>
    intro wa
    rw [List.foldl_cons]
    obtain ⟨i1, i2, i3, i4⟩ := ih (g wa tx)
    obtain ⟨g1, g2, g3, g4⟩ := hg wa tx
    refine ⟨by rw [i1, g1], by rw [i2, g2], by rw [i3, g3], ?_⟩
    intro t ht
    rcases i4 t ht with hacc | hrest
    · rcases g4 with he | he
      · rw [he] at hacc
        rcases List.mem_cons.mp hacc with h1 | h1
        · exact Or.inr (by rw [h1]; exact List.mem_cons_self tx rest)
        · exact Or.inl h1
      · rw [he] at hacc
        exact Or.inl hacc
    · exact Or.inr (List.mem_cons_of_mem tx hrest)

/-- **C10**: creating a wallet from a non-empty stored transaction list
whose first transaction neither pays an address derivable from the master
public key nor spends an output (of a supplied transaction) paying such an
address returns no wallet. -/
theorem claimC10 (derive : Bool → Nat → Nat) (gE gI dflt now : Nat)
    (t0 : BWTransaction) (rest : List BWTransaction)
    (hout : ∀ o ∈ t0.outputs, ∀ c i, o.address ≠ derive c i)
    (hin : ∀ inp ∈ t0.inputs, ∀ t, t ∈ t0 :: rest → t.txHash = inp.txHash →
      ∀ o, t.outputs.get? inp.index = some o → ∀ c i, o.address ≠ derive c i) :
    walletNew derive gE gI dflt (t0 :: rest) now = none := by
  have hg : ∀ (wa : BWWallet) (tx : BWTransaction),
      (walletLoad wa tx).allAddrs = wa.allAddrs ∧
      (walletLoad wa tx).externalChain = wa.externalChain ∧
      (walletLoad wa tx).internalChain = wa.internalChain ∧
      ((walletLoad wa tx).allTx = tx :: wa.allTx ∨
       (walletLoad wa tx).allTx = wa.allTx) := by
    intro wa tx
    unfold walletLoad
    by_cases hc : BWTransactionIsSigned tx ∧ ¬(findTx wa.allTx tx.txHash).isSome
    · rw [if_pos hc]
      exact ⟨rfl, rfl, rfl, Or.inl rfl⟩
    · rw [if_neg hc]
      exact ⟨rfl, rfl, rfl, Or.inr rfl⟩
  obtain ⟨hA1, hE1, hI1, hT1⟩ := foldl_wallet_props walletLoad hg (t0 :: rest)
    (freshWallet dflt)
  obtain ⟨nsE, hnsE, hImE⟩ := unusedAddrsOp_image derive
    ((t0 :: rest).foldl walletLoad (freshWallet dflt)) gE false
  obtain ⟨nsI, hnsI, hImI⟩ := unusedAddrsOp_image derive
    (unusedAddrsOp derive ((t0 :: rest).foldl walletLoad (freshWallet dflt))
      gE false) gI true
  have hAddr : ∀ a ∈ (unusedAddrsOp derive (unusedAddrsOp derive
      ((t0 :: rest).foldl walletLoad (freshWallet dflt)) gE false)
      gI true).allAddrs, ∃ c k, a = derive c k := by
    intro a ha
    rw [hnsI, hnsE] at ha
    simp only [List.mem_append] at ha
    rcases ha with (h1 | h2) | h3
    · rw [hA1] at h1
      exact absurd h1 (List.not_mem_nil a)
    · rcases hImE a h2 with hch | ⟨k, hk⟩
      · have hch2 : a ∈ ((t0 :: rest).foldl walletLoad
            (freshWallet dflt)).externalChain := hch
        rw [hE1] at hch2
        exact absurd hch2 (List.not_mem_nil a)
      · exact ⟨false, k, hk⟩
    · rcases hImI a h3 with hch | ⟨k, hk⟩
      · have hch2 : a ∈ (unusedAddrsOp derive ((t0 :: rest).foldl walletLoad
            (freshWallet dflt)) gE false).internalChain := hch
        rw [(unusedAddrsOp_otherChain derive _ gE).1] at hch2
        rw [hI1] at hch2
        exact absurd hch2 (List.not_mem_nil a)
      · exact ⟨true, k, hk⟩
  have hAllTx : ∀ t ∈ (unusedAddrsOp derive (unusedAddrsOp derive
      ((t0 :: rest).foldl walletLoad (freshWallet dflt)) gE false)
      gI true).allTx, t ∈ t0 :: rest := by
    intro t ht
    have e1 : (unusedAddrsOp derive (unusedAddrsOp derive
        ((t0 :: rest).foldl walletLoad (freshWallet dflt)) gE false)
        gI true).allTx
        = ((t0 :: rest).foldl walletLoad (freshWallet dflt)).allTx := by
      obtain ⟨_, _, _, _, he5, _⟩ := unusedAddrsOp_fields derive
        (unusedAddrsOp derive ((t0 :: rest).foldl walletLoad
          (freshWallet dflt)) gE false) gI true
      obtain ⟨_, _, _, _, hf5, _⟩ := unusedAddrsOp_fields derive
        ((t0 :: rest).foldl walletLoad (freshWallet dflt)) gE false
      rw [he5, hf5]
    rw [e1] at ht
    rcases hT1 t ht with h2 | h2
    · exact absurd h2 (List.not_mem_nil t)
    · exact h2
  have hcont : walletContainsTx (updateBalanceW (unusedAddrsOp derive
      (unusedAddrsOp derive ((t0 :: rest).foldl walletLoad (freshWallet dflt))
        gE false) gI true) now) t0 = false := by
    apply Bool.eq_false_iff.mpr
    intro htrue
    unfold walletContainsTx at htrue
    simp only [Bool.or_eq_true, List.any_eq_true, decide_eq_true_eq] at htrue
    rcases htrue with ⟨o, ho, haddr⟩ | ⟨inp, hinp, hmatch⟩
    · have haddr2 : o.address ∈ (unusedAddrsOp derive (unusedAddrsOp derive
          ((t0 :: rest).foldl walletLoad (freshWallet dflt)) gE false)
          gI true).allAddrs := haddr
      obtain ⟨c, k, hk⟩ := hAddr o.address haddr2
      exact hout o ho c k hk
    · rcases hf : findTx (updateBalanceW (unusedAddrsOp derive
          (unusedAddrsOp derive ((t0 :: rest).foldl walletLoad
            (freshWallet dflt)) gE false) gI true) now).allTx inp.txHash
          with _ | t
      · rw [hf] at hmatch
        exact absurd hmatch (by simp)
      · rw [hf] at hmatch
        have hmatch1 : (match t.outputs.get? inp.index with
            | some o => decide (o.address ∈ (updateBalanceW (unusedAddrsOp
                derive (unusedAddrsOp derive ((t0 :: rest).foldl walletLoad
                  (freshWallet dflt)) gE false) gI true) now).allAddrs)
            | none => false) = true := hmatch
        clear hmatch
        rcases hg2 : t.outputs.get? inp.index with _ | o
        · rw [hg2] at hmatch1
          exact absurd hmatch1 (by simp)
        · rw [hg2] at hmatch1
          simp only [decide_eq_true_eq] at hmatch1
          have hmatch := hmatch1
          have htm : t ∈ t0 :: rest := by
            apply hAllTx
            have h5 : t ∈ (updateBalanceW (unusedAddrsOp derive
                (unusedAddrsOp derive ((t0 :: rest).foldl walletLoad
                  (freshWallet dflt)) gE false) gI true) now).allTx := by
              unfold findTx at hf
              exact List.mem_of_find?_eq_some hf
            exact h5
          have hmatch2 : o.address ∈ (unusedAddrsOp derive (unusedAddrsOp
              derive ((t0 :: rest).foldl walletLoad (freshWallet dflt))
              gE false) gI true).allAddrs := hmatch
          obtain ⟨c, k, hk⟩ := hAddr o.address hmatch2
          exact hin inp hinp t htm (findTx_hash hf) o hg2 c k hk
  have hr : walletNew derive gE gI dflt (t0 :: rest) now
      = (if walletContainsTx (updateBalanceW (unusedAddrsOp derive
            (unusedAddrsOp derive ((t0 :: rest).foldl walletLoad
              (freshWallet dflt)) gE false) gI true) now) t0 = true
         then some (updateBalanceW (unusedAddrsOp derive
            (unusedAddrsOp derive ((t0 :: rest).foldl walletLoad
              (freshWallet dflt)) gE false) gI true) now)
         else none) := rfl
  rw [hr, if_neg (by rw [hcont]; decide)]

def soloTxC10 : BWTransaction := ⟨7, 1, [], [], 0, TX_UNCONFIRMED, 0⟩

theorem claimC10_witness :
    walletNew dCX 2 1 1000 [soloTxC10] 7 = none :=
  claimC10 dCX 2 1 1000 7 soloTxC10 []
    (fun o ho => absurd ho (List.not_mem_nil o))
    (fun inp hinp => absurd hinp (List.not_mem_nil inp))

end BWSpec
